import Mathlib

/-!
# Infix calculator: tokenizer, shunting yard, evaluation of reverse Polish notation

A shallow embedding of `calculator.h`.

* `double` values are modelled by `Double`: the numbers of IEEE 754 binary64, given by
  a sign and an exact rational magnitude, together with the two infinities and NaN.
  Every arithmetic operation rounds the exact result to the nearest representable
  number, ties to even, with gradual underflow and overflow to infinity.
* Iterator pairs `[cur, end)` into the input string are modelled by the list of
  characters that are still unread.
* `vector<Token>` used as a stack is a list whose head is `back()`; the vector
  of output tokens is a list that grows at its end.
* C++ exceptions are values of `Exn`; a function that may throw returns `Except Exn _`.
* The loop of `to_postfix_notation` pulls tokens from the tokenizer; it is modelled
  with a step budget, and `none` stands for "budget exhausted".  The budget used is
  the number of unread characters plus one, which is shown to be always enough.
* The standard-library conversion `ss >> res` together with the test
  `ss.fail() || !ss.eof()` is a parameter `extract : List Char → Option Double` of the
  model (`some x` when the text is read completely as the number `x`).  A concrete
  decimal reader `extract_double` is supplied for evaluating examples.
-/

namespace Calculator

/-! ## Double-precision numbers -/

/-- A value of type `double` (IEEE 754 binary64): a finite number given by its sign bit
and the exact magnitude, an infinity, or NaN. -/
inductive Double where
  | finite (negative : Bool) (magnitude : ℚ)
  | inf (negative : Bool)
  | nan
deriving DecidableEq

/-- Halve `n` until it is below 2, at most `fuel` times: the number of halvings. -/
def log2_loop : Nat → Nat → Nat
  | 0, _ => 0
  | fuel + 1, n => if 2 ≤ n then log2_loop fuel (n / 2) + 1 else 0

/-- The floor of the binary logarithm of a natural number (0 at 0). -/
def log2 (n : Nat) : Nat := log2_loop n n

/-- The floor of the binary logarithm of the positive fraction `n / d`. -/
def floor_log2 (n d : Nat) : Int :=
  let e0 : Int := (log2 n : Int) - (log2 d : Int)
  if (if 0 ≤ e0 then d * 2 ^ e0.toNat ≤ n else d ≤ n * 2 ^ (-e0).toNat) then e0 else e0 - 1

/-- The integer nearest to `n / d`, ties to the even one. -/
def round_half_even (n d : Nat) : Nat :=
  if 2 * (n % d) < d then n / d
  else if d < 2 * (n % d) then n / d + 1
  else if (n / d) % 2 = 0 then n / d
  else n / d + 1

/-- Round the magnitude `x ≥ 0` of an exact result to binary64, round to nearest, ties to
even: the result is a multiple of `2 ^ u` where `u` is the exponent of the last place, 52
below the binary exponent of `x` but not less than -1074 (subnormal numbers); a rounded
magnitude of `2 ^ 1024` or more overflows to infinity. -/
def Double.round_magnitude (negative : Bool) (x : ℚ) : Double :=
  if x = 0 then .finite negative 0
  else
    let u : Int := max (floor_log2 x.num.natAbs x.den - 52) (-1074)
    if 0 ≤ u then
      let m := round_half_even x.num.natAbs (x.den * 2 ^ u.toNat)
      if 2 ^ 1024 ≤ m * 2 ^ u.toNat then .inf negative
      else .finite negative ((m * 2 ^ u.toNat : Nat) : ℚ)
    else
      let m := round_half_even (x.num.natAbs * 2 ^ (-u).toNat) x.den
      .finite negative ((m : ℚ) / ((2 ^ (-u).toNat : Nat) : ℚ))

/-- The `double` nearest to an exact number. -/
def Double.of_rat (x : ℚ) : Double := Double.round_magnitude (decide (x < 0)) |x|

/-- Unary minus on `double`: the sign bit is flipped. -/
def Double.neg : Double → Double
  | .finite s m => .finite (!s) m
  | .inf s => .inf (!s)
  | .nan => .nan

/-- Addition on `double`. -/
def Double.add : Double → Double → Double
  | .nan, _ => .nan
  | _, .nan => .nan
  | .inf s, .inf t => if s = t then .inf s else .nan
  | .inf s, .finite _ _ => .inf s
  | .finite _ _, .inf t => .inf t
  | .finite s m, .finite t k =>
    let x : ℚ := (if s then -m else m) + (if t then -k else k)
    if x = 0 then .finite (s && t) 0 else Double.of_rat x

/-- Subtraction on `double`. -/
def Double.sub (a b : Double) : Double := Double.add a (Double.neg b)

/-- Multiplication on `double`. -/
def Double.mul : Double → Double → Double
  | .nan, _ => .nan
  | _, .nan => .nan
  | .inf s, .inf t => .inf (xor s t)
  | .inf s, .finite t k => if k = 0 then .nan else .inf (xor s t)
  | .finite s m, .inf t => if m = 0 then .nan else .inf (xor s t)
  | .finite s m, .finite t k => Double.round_magnitude (xor s t) (m * k)

/-- Division on `double`. -/
def Double.div : Double → Double → Double
  | .nan, _ => .nan
  | _, .nan => .nan
  | .inf _, .inf _ => .nan
  | .inf s, .finite t _ => .inf (xor s t)
  | .finite s _, .inf t => .finite (xor s t) 0
  | .finite s m, .finite t k =>
    if k = 0 then (if m = 0 then .nan else .inf (xor s t))
    else Double.round_magnitude (xor s t) (m / k)

/-- The comparison `x == 0.0` on `double`: true on both zeros, false on NaN. -/
def Double.is_zero : Double → Bool
  | .finite _ m => decide (m = 0)
  | _ => false

/-- The exact number denoted by a `double`; infinities and NaN denote none. -/
def Double.exact : Double → Option ℚ
  | .finite s m => some (if s then -m else m)
  | _ => none

instance (n : Nat) : OfNat Double n := ⟨Double.of_rat n⟩
instance : Neg Double := ⟨Double.neg⟩
instance : Add Double := ⟨Double.add⟩
instance : Sub Double := ⟨Double.sub⟩
instance : Mul Double := ⟨Double.mul⟩
instance : Div Double := ⟨Double.div⟩

/-! ## Data model -/

/-- Token kind `OPERAND` of the anonymous enum. -/
def OPERAND : Int := 0
/-- Token kind `OPERATOR`. -/
def OPERATOR : Int := 1
/-- Token kind `LEFT_BRACKET`. -/
def LEFT_BRACKET : Int := 2
/-- Token kind `RIGHT_BRACKET`. -/
def RIGHT_BRACKET : Int := 3
/-- Operator kind `ADD`. -/
def ADD : Int := 0
/-- Operator kind `MUL`. -/
def MUL : Int := 1
/-- Operator kind `SUB`. -/
def SUB : Int := 2
/-- Operator kind `DIV`. -/
def DIV : Int := 3

/-- The struct `Token`: kind, operator kind, precedence and numeric value. -/
structure Token where
  type : Int
  op_type : Int
  precedence : Int
  value : Double
deriving DecidableEq

/-- The constructor `Token(double value)`. -/
def Token.of_value (value : Double) : Token := ⟨OPERAND, 0, 0, value⟩

/-- The constructor `Token(int type, int op_type, int precedence)`. -/
def Token.of_kind (type op_type precedence : Int) : Token := ⟨type, op_type, precedence, 0⟩

/-- The exceptions thrown by the calculator, with their `what()` text. -/
inductive Exn where
  | invalid_argument (what : String)
  | domain_error (what : String)
deriving DecidableEq

deriving instance DecidableEq for Except

/-- The error `InvalidToken(text)`: `invalid_argument("bad token " + text)`. -/
def InvalidToken (text : List Char) : Exn := Exn.invalid_argument ("bad token " ++ String.mk text)
/-- The error `MismatchedParentheses`. -/
def MismatchedParentheses : Exn := Exn.invalid_argument "mismatched parentheses"
/-- The error `BadExpression`. -/
def BadExpression : Exn := Exn.invalid_argument "bad input expression"
/-- The error `DivisionByZero`. -/
def DivisionByZero : Exn := Exn.invalid_argument "division by zero"

/-! ## Helper functions -/

/-- The function `evaluate_operation`. -/
def evaluate_operation (op a b : Token) : Except Exn Double :=
  if op.op_type = ADD then .ok (a.value + b.value)
  else if op.op_type = SUB then .ok (a.value - b.value)
  else if op.op_type = MUL then .ok (a.value * b.value)
  else if op.op_type = DIV then
    if b.value.is_zero then .error DivisionByZero
    else .ok (a.value / b.value)
  else .error (Exn.domain_error "unknown operation")

/-- The function `is_operand`: false exactly on the seven separator characters. -/
def is_operand (c : Char) : Bool :=
  if c = ' ' ∨ c = '+' ∨ c = '-' ∨ c = '*' ∨ c = '/' ∨ c = '(' ∨ c = ')' then false
  else true

/-- The character written to the string stream: `*it == ',' ? '.' : *it`. -/
def comma_to_dot (c : Char) : Char := if c = ',' then '.' else c

/-- The function `read_operand` applied to the unread characters `start`: on success the
value and the position `it` (the characters left unread). -/
def read_operand (extract : List Char → Option Double) (start : List Char) :
    Except Exn (Double × List Char) :=
  let run := start.takeWhile is_operand
  let it := start.dropWhile is_operand
  match extract (run.map comma_to_dot) with
  | none => .error (InvalidToken run)
  | some res => .ok (res, it)

/-! ## Tokenizer -/

/-- The struct `Tokenizer`: the unread characters `[cur, end)` and the flag. -/
structure Tokenizer where
  cur : List Char
  allow_negation : Bool
deriving DecidableEq

/-- The constructor `Tokenizer(expr)`. -/
def Tokenizer.init (expr : List Char) : Tokenizer := ⟨expr, true⟩

/-- The `switch (*(cur++))` of `Tokenizer::next`, for first character `c` and the
characters `rest` after it: the token and the new cursor. -/
def Tokenizer.read_token (extract : List Char → Option Double) (allow_negation : Bool)
    (c : Char) (rest : List Char) : Except Exn (Token × List Char) :=
  if c = '+' then .ok (Token.of_kind OPERATOR ADD 2, rest)
  else if c = '-' then
    if allow_negation then
      match read_operand extract rest with
      | .error e => .error e
      | .ok (v, it) => .ok (Token.of_value (-v), it)
    else .ok (Token.of_kind OPERATOR SUB 2, rest)
  else if c = '*' then .ok (Token.of_kind OPERATOR MUL 3, rest)
  else if c = '/' then .ok (Token.of_kind OPERATOR DIV 3, rest)
  else if c = '(' then .ok (Token.of_kind LEFT_BRACKET 0 1, rest)
  else if c = ')' then .ok (Token.of_kind RIGHT_BRACKET 0 1, rest)
  else
    match read_operand extract (c :: rest) with
    | .error e => .error e
    | .ok (v, it) => .ok (Token.of_value v, it)

/-- The method `Tokenizer::next`: `ok none` for `return false`, `ok (some (token, t))`
for `return true` with the token written and the tokenizer state afterwards. -/
def Tokenizer.next (extract : List Char → Option Double) (t : Tokenizer) :
    Except Exn (Option (Token × Tokenizer)) :=
  match t.cur.dropWhile (fun c => c == ' ') with
  | [] => .ok none
  | c :: rest =>
    match Tokenizer.read_token extract t.allow_negation c rest with
    | .error e => .error e
    | .ok (token, cur) =>
      .ok (some (token, ⟨cur, decide (token.type ≠ OPERAND ∧ token.type ≠ RIGHT_BRACKET)⟩))

/-! ## Conversion to reverse Polish notation -/

/-- The inner loop of the `OPERATOR` case: pop to the output while the top of the stack
has precedence at least that of the incoming token. -/
def pop_operators (token : Token) : List Token → List Token → List Token × List Token
  | output, [] => (output, [])
  | output, op :: op_stack =>
    if token.precedence ≤ op.precedence then pop_operators token (output ++ [op]) op_stack
    else (output, op :: op_stack)

/-- The inner loop of the `RIGHT_BRACKET` case: pop to the output until the top of the
stack is a left bracket. -/
def pop_to_left_bracket : List Token → List Token → List Token × List Token
  | output, [] => (output, [])
  | output, op :: op_stack =>
    if op.type ≠ LEFT_BRACKET then pop_to_left_bracket (output ++ [op]) op_stack
    else (output, op :: op_stack)

/-- The body of the `while` loop of `to_postfix_notation` for one token. -/
def to_postfix_step (token : Token) (output op_stack : List Token) :
    Except Exn (List Token × List Token) :=
  if token.type = OPERAND then .ok (output ++ [token], op_stack)
  else if token.type = OPERATOR then
    match pop_operators token output op_stack with
    | (output, op_stack) => .ok (output, token :: op_stack)
  else if token.type = LEFT_BRACKET then .ok (output, token :: op_stack)
  else if token.type = RIGHT_BRACKET then
    match pop_to_left_bracket output op_stack with
    | (_, []) => .error MismatchedParentheses
    | (output, _ :: op_stack) => .ok (output, op_stack)
  else .ok (output, op_stack)

/-- The final `for` loop of `to_postfix_notation` over the stack from its top. -/
def to_postfix_flush : List Token → List Token → Except Exn (List Token)
  | output, [] => .ok output
  | output, op :: op_stack =>
    if op.type = LEFT_BRACKET then .error MismatchedParentheses
    else to_postfix_flush (output ++ [op]) op_stack

/-- The `while (tokenizer.next(token))` loop of `to_postfix_notation` followed by the
final loop, run for at most `fuel` calls of `next`; `none` when the budget runs out. -/
def to_postfix_loop (extract : List Char → Option Double) :
    Nat → Tokenizer → List Token → List Token → Option (Except Exn (List Token))
  | 0, _, _, _ => none
  | fuel + 1, tokenizer, output, op_stack =>
    match Tokenizer.next extract tokenizer with
    | .error e => some (.error e)
    | .ok none => some (to_postfix_flush output op_stack)
    | .ok (some (token, tokenizer)) =>
      match to_postfix_step token output op_stack with
      | .error e => some (.error e)
      | .ok (output, op_stack) => to_postfix_loop extract fuel tokenizer output op_stack

/-- The function `to_postfix_notation`. -/
def to_postfix_notation (extract : List Char → Option Double) (tokenizer : Tokenizer) :
    Option (Except Exn (List Token)) :=
  to_postfix_loop extract (tokenizer.cur.length + 1) tokenizer [] []

/-! ## Postfix evaluation -/

/-- The C function `round` on `double`: the nearest integer, halves away from zero,
with the sign kept; every such integer is a `double`. -/
def c_round : Double → Double
  | .finite s m => .finite s ((⌊m + 1 / 2⌋ : ℤ) : ℚ)
  | .inf s => .inf s
  | .nan => .nan

/-- The `for` loop of `evaluate_postfix_notation`: the value stack after the tokens. -/
def evaluate_loop : List Token → List Token → Except Exn (List Token)
  | [], stack => .ok stack
  | token :: output, stack =>
    if token.type = OPERATOR then
      match stack with
      | [] => .error BadExpression
      | op2 :: stack =>
        match stack with
        | [] => .error BadExpression
        | op1 :: stack =>
          match evaluate_operation token op1 op2 with
          | .error e => .error e
          | .ok result => evaluate_loop output (Token.of_value result :: stack)
    else if token.type = OPERAND then evaluate_loop output (token :: stack)
    else evaluate_loop output stack

/-- The function `evaluate_postfix_notation`. -/
def evaluate_postfix_notation (output : List Token) : Except Exn Double :=
  match evaluate_loop output [] with
  | .error e => .error e
  | .ok stack =>
    match stack with
    | [back] => .ok (c_round (back.value * 100) / 100)
    | _ => .error BadExpression

/-- The function `calculate`. -/
def calculate (extract : List Char → Option Double) (expr : String) : Option (Except Exn Double) :=
  match to_postfix_notation extract (Tokenizer.init expr.data) with
  | none => none
  | some (.error e) => some (.error e)
  | some (.ok output) => some ( evaluate_postfix_notation output)

/-! ## A concrete reader for decimal numbers -/

/-- The C function `isspace` in the default locale. -/
def isspace (c : Char) : Bool :=
  c = ' ' ∨ c = '\t' ∨ c = '\n' ∨ c = '\x0b' ∨ c = '\x0c' ∨ c = '\r'

/-- Read a maximal run of decimal digits: the number read so far, the number of digits
read so far, and the characters left. -/
def read_digits : List Char → Nat → Nat → Nat × Nat × List Char
  | [], acc, n => (acc, n, [])
  | c :: cs, acc, n =>
    if c.isDigit then read_digits cs (acc * 10 + (c.toNat - 48)) (n + 1)
    else (acc, n, c :: cs)

/-- The optional exponent part of a decimal number: the factor it denotes, or `none`
when unread characters remain or the exponent has no digits. -/
def read_exponent (s : List Char) : Option ℚ :=
  match s with
  | [] => some 1
  | c :: r =>
    if c = 'e' ∨ c = 'E' then
      match r with
      | '-' :: r =>
        match read_digits r 0 0 with
        | (e, n, []) => if n = 0 then none else some (1 / (10 : ℚ) ^ e)
        | _ => none
      | '+' :: r =>
        match read_digits r 0 0 with
        | (e, n, []) => if n = 0 then none else some ((10 : ℚ) ^ e)
        | _ => none
      | r =>
        match read_digits r 0 0 with
        | (e, n, []) => if n = 0 then none else some ((10 : ℚ) ^ e)
        | _ => none
    else none

/-- The unsigned part of a decimal number: digits, an optional point with digits, an
optional exponent; at least one digit is required. -/
def read_unsigned (s : List Char) : Option ℚ :=
  match read_digits s 0 0 with
  | (ip, n1, s1) =>
    match (match s1 with
           | '.' :: r => read_digits r 0 0
           | _ => (0, 0, s1)) with
    | (fp, n2, s2) =>
      if n1 + n2 = 0 then none
      else
        match read_exponent s2 with
        | none => none
        | some f => some (((ip : ℚ) + (fp : ℚ) / (10 : ℚ) ^ n2) * f)

/-- The sign and the exact magnitude of an optionally signed decimal number that fills a
text, after leading white space. -/
def read_decimal (s : List Char) : Option (Bool × ℚ) :=
  match s.dropWhile isspace with
  | '-' :: r => (read_unsigned r).map (fun x => (true, x))
  | '+' :: r => (read_unsigned r).map (fun x => (false, x))
  | r => (read_unsigned r).map (fun x => (false, x))

/-- A model of `ss >> res` on a stream holding `s`, followed by the test
`ss.fail() || !ss.eof()`: leading white space is skipped, then an optionally signed
decimal number must fill the rest of the stream.  The result is the `double` nearest to
the number written; a number too large for a finite `double` sets `failbit`, a number too
small is read as a subnormal number or zero. -/
def extract_double (s : List Char) : Option Double :=
  match read_decimal s with
  | none => none
  | some (negative, x) =>
    match Double.round_magnitude negative x with
    | .finite sign m => some (.finite sign m)
    | _ => none

/-! ## Notions used to state the properties -/

/-- Drain the tokenizer, as the test driver does (`while (t.next(token)) res.push_back(token)`),
with at most `fuel` calls of `next`; `none` when the budget runs out. -/
def tokenize_loop (extract : List Char → Option Double) :
    Nat → Tokenizer → Option (Except Exn (List Token))
  | 0, _ => none
  | fuel + 1, t =>
    match Tokenizer.next extract t with
    | .error e => some (.error e)
    | .ok none => some (.ok [])
    | .ok (some (token, t)) =>
      match tokenize_loop extract fuel t with
      | none => none
      | some (.error e) => some (.error e)
      | some (.ok res) => some (.ok (token :: res))

/-- All tokens of an input string. -/
def tokenize (extract : List Char → Option Double) (expr : String) :
    Option (Except Exn (List Token)) :=
  tokenize_loop extract (expr.data.length + 1) (Tokenizer.init expr.data)

/-- The tokenizer states reached while reading `expr`, each with the token emitted last
(`none` before the first token). -/
inductive Emitted (extract : List Char → Option Double) (expr : List Char) :
    Option Token → Tokenizer → Prop where
  | start : Emitted extract expr none (Tokenizer.init expr)
  | step {prev : Option Token} {t t1 : Tokenizer} {token : Token} :
      Emitted extract expr prev t →
      Tokenizer.next extract t = .ok (some (token, t1)) →
      Emitted extract expr (some token) t1

/-- Scan the brackets of a text from nesting depth `depth`: `none` when some `)` has no
earlier unmatched `(`, otherwise the number of `(` still open at the end. -/
def bracket_depth : List Char → Nat → Option Nat
  | [], depth => some depth
  | c :: cs, depth =>
    if c = '(' then bracket_depth cs (depth + 1)
    else if c = ')' then
      match depth with
      | 0 => none
      | d + 1 => bracket_depth cs d
    else bracket_depth cs depth

/-- The brackets of a text are balanced. -/
def balanced (expr : List Char) : Prop := bracket_depth expr 0 = some 0

instance (expr : List Char) : Decidable (balanced expr) := by
  unfold balanced; infer_instance

/-- Rounding to two decimals as done at the end of `evaluate_postfix_notation`:
`round(v * 100) / 100.0` in `double` arithmetic. -/
def round2 (v : Double) : Double := c_round (v * 100) / 100

/-- Rounding of an exact number to the nearest integer, halves away from zero. -/
def round_half_away (x : ℚ) : ℚ :=
  if 0 ≤ x then (⌊x + 1 / 2⌋ : ℤ) else (⌈x - 1 / 2⌉ : ℤ)

/-- Rounding of an exact number to two decimals, halves away from zero. -/
def round2_exact (v : ℚ) : ℚ := round_half_away (v * 100) / 100

/-- The four binary operators. -/
inductive BinOp where
  | add | sub | mul | div
deriving DecidableEq

/-- The character of a binary operator. -/
def BinOp.char : BinOp → Char
  | .add => '+' | .sub => '-' | .mul => '*' | .div => '/'

/-- The token of a binary operator. -/
def BinOp.token : BinOp → Token
  | .add => Token.of_kind OPERATOR ADD 2
  | .sub => Token.of_kind OPERATOR SUB 2
  | .mul => Token.of_kind OPERATOR MUL 3
  | .div => Token.of_kind OPERATOR DIV 3

/-- Binding strength: `*` and `/` bind tighter than `+` and `-`. -/
def BinOp.level : BinOp → Nat
  | .add => 2 | .sub => 2 | .mul => 3 | .div => 3

/-- The meaning of a binary operator in `double` arithmetic; division by zero has no
value. -/
def BinOp.apply : BinOp → Double → Double → Option Double
  | .add, a, b => some (a + b)
  | .sub, a, b => some (a - b)
  | .mul, a, b => some (a * b)
  | .div, a, b => if b.is_zero then none else some (a / b)

/-- The meaning of a binary operator on exact numbers; division by zero has no value. -/
def BinOp.exact : BinOp → ℚ → ℚ → Option ℚ
  | .add, a, b => some (a + b)
  | .sub, a, b => some (a - b)
  | .mul, a, b => some (a * b)
  | .div, a, b => if b = 0 then none else some (a / b)

/-- Parse trees of infix expressions.  Every node records the number of spaces written
before its first character (`sp`); a bracket also records the spaces before `)`.
`neg text` is a minus sign immediately followed by a numeric literal. -/
inductive Expr where
  | lit (sp : Nat) (text : List Char)
  | neg (sp : Nat) (text : List Char)
  | paren (sp : Nat) (e : Expr) (sp1 : Nat)
  | bin (l : Expr) (sp : Nat) (op : BinOp) (r : Expr)

/-- The text of a parse tree. -/
def Expr.render : Expr → List Char
  | .lit sp text => List.replicate sp ' ' ++ text
  | .neg sp text => List.replicate sp ' ' ++ '-' :: text
  | .paren sp e sp1 => List.replicate sp ' ' ++ '(' :: (e.render ++ (List.replicate sp1 ' ' ++ [')']))
  | .bin l sp op r => l.render ++ (List.replicate sp ' ' ++ op.char :: r.render)

/-- Binding strength of the root of a parse tree; literals and brackets bind tightest. -/
def Expr.level : Expr → Nat
  | .lit _ _ => 4
  | .neg _ _ => 4
  | .paren _ _ _ => 4
  | .bin _ _ op _ => op.level

/-- A text is a numeric literal: a non-empty run of non-separator characters that reads
as a number once `,` is taken for `.`. -/
def is_literal (extract : List Char → Option Double) (text : List Char) : Prop :=
  text ≠ [] ∧ (∀ c ∈ text, is_operand c = true) ∧ (extract (text.map comma_to_dot)).isSome = true

/-- A parse tree follows the grammar of infix expressions under standard precedence and
left associativity: the left operand of an operator binds at least as tightly as the
operator, the right operand strictly tighter. -/
def Expr.valid (extract : List Char → Option Double) : Expr → Prop
  | .lit _ text => is_literal extract text
  | .neg _ text => is_literal extract text
  | .paren _ e _ => e.valid extract
  | .bin l _ op r =>
    l.valid extract ∧ r.valid extract ∧ op.level ≤ l.level ∧ op.level < r.level

/-- The value of a parse tree in `double` arithmetic, every literal read by `extract`;
`none` when a literal is not a number or a division by zero occurs. -/
def Expr.value (extract : List Char → Option Double) : Expr → Option Double
  | .lit _ text => extract (text.map comma_to_dot)
  | .neg _ text => (extract (text.map comma_to_dot)).map (fun v => -v)
  | .paren _ e _ => e.value extract
  | .bin l _ op r =>
    match l.value extract, r.value extract with
    | some a, some b => op.apply a b
    | _, _ => none

/-- The exact number written by a literal text, `,` taken for `.`. -/
def exact_literal (text : List Char) : Option ℚ :=
  (read_decimal (text.map comma_to_dot)).map (fun p => if p.1 then -p.2 else p.2)

/-- The mathematical value of a parse tree, computed on exact numbers; `none` when a
literal is not a number or a division by zero occurs. -/
def Expr.exact_value : Expr → Option ℚ
  | .lit _ text => exact_literal text
  | .neg _ text => (exact_literal text).map (fun v => -v)
  | .paren _ e _ => e.exact_value
  | .bin l _ op r =>
    match l.exact_value, r.exact_value with
    | some a, some b => op.exact a b
    | _, _ => none

/-- The seven shapes of token that `Tokenizer::next` writes. -/
def Token.from_tokenizer (token : Token) : Prop :=
  (∃ v : Double, token = Token.of_value v) ∨
  token = Token.of_kind OPERATOR ADD 2 ∨ token = Token.of_kind OPERATOR SUB 2 ∨
  token = Token.of_kind OPERATOR MUL 3 ∨ token = Token.of_kind OPERATOR DIV 3 ∨
  token = Token.of_kind LEFT_BRACKET 0 1 ∨ token = Token.of_kind RIGHT_BRACKET 0 1

/-- Invariant of the operator stack of `to_postfix_notation`: it holds operators of
precedence at least 2 and left brackets of precedence 1. -/
def stack_ok (st : List Token) : Prop :=
  ∀ p ∈ st, (p.type = OPERATOR ∧ 2 ≤ p.precedence) ∨ (p.type = LEFT_BRACKET ∧ p.precedence = 1)

/-- Invariant of the output of `to_postfix_notation`: operands and operators only. -/
def output_ok (out : List Token) : Prop :=
  ∀ p ∈ out, p.type = OPERAND ∨ p.type = OPERATOR

/-- The number of left brackets on the operator stack. -/
def open_brackets (st : List Token) : Nat :=
  st.countP (fun p => decide (p.type = LEFT_BRACKET))

/-- The effect of one token on the bracket nesting depth `depth`: `none` for a right
bracket at depth 0. -/
def token_depth (token : Token) (depth : Nat) : Option Nat :=
  if token.type = LEFT_BRACKET then some (depth + 1)
  else if token.type = RIGHT_BRACKET then
    match depth with
    | 0 => none
    | d + 1 => some d
  else some depth

/-- The body of the `while` loop of `to_postfix_notation` applied to a list of tokens in
turn: the output and the operator stack afterwards. -/
def to_postfix_steps : List Token → List Token → List Token →
    Except Exn (List Token × List Token)
  | [], out, st => .ok (out, st)
  | token :: tokens, out, st =>
    match to_postfix_step token out st with
    | .error e => .error e
    | .ok (out1, st1) => to_postfix_steps tokens out1 st1

/-- The tokenizer in state `t` delivers the tokens `tokens` in turn, without error, and
is then in state `t1`. -/
inductive Yields (extract : List Char → Option Double) : Tokenizer → List Token → Tokenizer → Prop where
  | nil (t : Tokenizer) : Yields extract t [] t
  | cons {t t1 t2 : Tokenizer} {token : Token} {tokens : List Token} :
      Tokenizer.next extract t = .ok (some (token, t1)) →
      Yields extract t1 tokens t2 →
      Yields extract t (token :: tokens) t2

/-- The value of a literal text (0 when the text is not a number). -/
def literal_value (extract : List Char → Option Double) (text : List Char) : Double :=
  (extract (text.map comma_to_dot)).getD 0

/-- The tokens of a parse tree in infix order, brackets included. -/
def Expr.tokens (extract : List Char → Option Double) : Expr → List Token
  | .lit _ text => [Token.of_value (literal_value extract text)]
  | .neg _ text => [Token.of_value (-(literal_value extract text))]
  | .paren _ e _ =>
    Token.of_kind LEFT_BRACKET 0 1 :: (e.tokens extract ++ [Token.of_kind RIGHT_BRACKET 0 1])
  | .bin l _ op r => l.tokens extract ++ op.token :: r.tokens extract

/-- The post-order traversal of a parse tree: reverse Polish notation. -/
def Expr.rpn (extract : List Char → Option Double) : Expr → List Token
  | .lit _ text => [Token.of_value (literal_value extract text)]
  | .neg _ text => [Token.of_value (-(literal_value extract text))]
  | .paren _ e _ => e.rpn extract
  | .bin l _ op r => l.rpn extract ++ (r.rpn extract ++ [op.token])

/-- A text that the run of a literal can be followed by: the end of input or a
separator character. -/
def starts_with_separator (rest : List Char) : Prop :=
  rest = [] ∨ ∃ c r, rest = c :: r ∧ is_operand c = false

/-- The conversion of `to_postfix_notation` applied to a list of tokens: every token is
handled by the loop body in turn, then the stack is emptied by the final loop. -/
def to_postfix_tokens (tokens out st : List Token) : Except Exn (List Token) :=
  match to_postfix_steps tokens out st with
  | .error e => .error e
  | .ok (out1, st1) => to_postfix_flush out1 st1

/-- The number of `LEFT_BRACKET` tokens of a token sequence. -/
def left_brackets (tokens : List Token) : Nat :=
  tokens.countP (fun p => decide (p.type = LEFT_BRACKET))

/-- The number of `RIGHT_BRACKET` tokens of a token sequence. -/
def right_brackets (tokens : List Token) : Nat :=
  tokens.countP (fun p => decide (p.type = RIGHT_BRACKET))

/-- The bracket tokens of a sequence are unbalanced: some prefix contains more right
than left brackets, or the whole sequence contains more left than right brackets. -/
def brackets_unbalanced (tokens : List Token) : Prop :=
  (∃ n, left_brackets (tokens.take n) < right_brackets (tokens.take n)) ∨
    right_brackets tokens < left_brackets tokens

/-- Scan the bracket tokens of a sequence from nesting depth `depth`, token by token. -/
def brackets_scan : List Token → Nat → Option Nat
  | [], depth => some depth
  | token :: tokens, depth =>
    match token_depth token depth with
    | none => none
    | some d => brackets_scan tokens d

/-- The number of `OPERAND` tokens of a token sequence. -/
def operand_count (tokens : List Token) : Nat :=
  tokens.countP (fun p => decide (p.type = OPERAND))

/-- The number of `OPERATOR` tokens of a token sequence. -/
def operator_count (tokens : List Token) : Nat :=
  tokens.countP (fun p => decide (p.type = OPERATOR))

/-- An operand token or an operator token of kind `ADD`, `SUB` or `MUL`. -/
def Token.arith (token : Token) : Prop :=
  token.type = OPERAND ∨
    (token.type = OPERATOR ∧
      (token.op_type = ADD ∨ token.op_type = SUB ∨ token.op_type = MUL))

/-- The height of the value stack of `evaluate_postfix_notation` after a token sequence,
starting from height `k`; `none` when an operator finds fewer than two values. -/
def stack_depth : List Token → Nat → Option Nat
  | [], k => some k
  | token :: tokens, k =>
    if token.type = OPERATOR then
      if k < 2 then none else stack_depth tokens (k - 1)
    else if token.type = OPERAND then stack_depth tokens (k + 1)
    else stack_depth tokens k

/-- The tokens of a sequence that are not brackets, in their order. -/
def non_brackets (tokens : List Token) : List Token :=
  tokens.filter (fun p => decide (p.type ≠ LEFT_BRACKET ∧ p.type ≠ RIGHT_BRACKET))

/-- The operand tokens of a sequence, in their order. -/
def operands (tokens : List Token) : List Token :=
  tokens.filter (fun p => decide (p.type = OPERAND))

/-- The token of a one-character lexeme: `+ * / ( )`, and `-` when negation is not
allowed; `none` when the character starts (or, for a negating `-`, precedes) a run read by
`read_operand`. -/
def single_token (allow_negation : Bool) (c : Char) : Option Token :=
  if c = '+' then some (Token.of_kind OPERATOR ADD 2)
  else if c = '-' then
    if allow_negation then none else some (Token.of_kind OPERATOR SUB 2)
  else if c = '*' then some (Token.of_kind OPERATOR MUL 3)
  else if c = '/' then some (Token.of_kind OPERATOR DIV 3)
  else if c = '(' then some (Token.of_kind LEFT_BRACKET 0 1)
  else if c = ')' then some (Token.of_kind RIGHT_BRACKET 0 1)
  else none

/-- One space is inserted into a text: at the beginning, at the end, or immediately
before or immediately after an occurrence of one of the characters `+ * / ( )`. -/
inductive space_inserted : List Char → List Char → Prop where
  | at_beginning (s : List Char) : space_inserted s (' ' :: s)
  | at_end (s : List Char) : space_inserted s (s ++ [' '])
  | before (a b : List Char) (c : Char) : c ∈ ['+', '*', '/', '(', ')'] →
      space_inserted (a ++ c :: b) (a ++ ' ' :: c :: b)
  | after (a b : List Char) (c : Char) : c ∈ ['+', '*', '/', '(', ')'] →
      space_inserted (a ++ c :: b) (a ++ c :: ' ' :: b)

/-- Any number of spaces are inserted into a text, each at one of the places of
`space_inserted`. -/
inductive spaces_inserted : List Char → List Char → Prop where
  | none (s : List Char) : spaces_inserted s s
  | more {s s1 s2 : List Char} :
      spaces_inserted s s1 → space_inserted s1 s2 → spaces_inserted s s2

/-! ## Basic facts -/

theorem is_operand_comma_to_dot (c : Char) : is_operand (comma_to_dot c) = is_operand c := by
  unfold comma_to_dot
  split
  · next h => subst h; decide
  · rfl


theorem takeWhile_map_comma_to_dot (s : List Char) :
    (s.map comma_to_dot).takeWhile is_operand = (s.takeWhile is_operand).map comma_to_dot := by
  induction s with
  | nil => rfl
  | cons c cs ih =>
    simp only [List.map_cons, List.takeWhile_cons, is_operand_comma_to_dot]
    split
    · simp [ih]
    · rfl

theorem comma_to_dot_idem (c : Char) : comma_to_dot (comma_to_dot c) = comma_to_dot c := by
  unfold comma_to_dot
  split
  · decide
  · next h => simp [h]

theorem read_operand_error (extract : List Char → Option Double) (start : List Char) (e : Exn)
    (h : read_operand extract start = .error e) :
    e = InvalidToken (start.takeWhile is_operand) := by
  unfold read_operand at h
  simp only at h
  split at h
  · injection h with h; exact h.symm
  · cases h

theorem read_operand_ok (extract : List Char → Option Double) (start : List Char) (v : Double)
    (it : List Char) (h : read_operand extract start = .ok (v, it)) :
    extract ((start.takeWhile is_operand).map comma_to_dot) = some v ∧
      it = start.dropWhile is_operand := by
  unfold read_operand at h
  simp only at h
  split at h
  · cases h
  · next res hres =>
    injection h with h
    injection h with h1 h2
    subst h1
    exact ⟨hres, h2.symm⟩

/-! ## The model of `double` -/

theorem log2_loop_eq (fuel n : Nat) (h : n ≤ fuel) : log2_loop fuel n = Nat.log2 n := by
  induction fuel generalizing n with
  | zero =>
    have : n = 0 := by omega
    subst this
    rw [Nat.log2]
    simp [log2_loop]
  | succ k ih =>
    rw [Nat.log2, log2_loop]
    by_cases h2 : 2 ≤ n
    · rw [if_pos h2, if_pos h2, ih _ (by omega)]
    · rw [if_neg h2, if_neg h2]

/-- The function `log2` is the floor of the binary logarithm. -/
theorem log2_eq (n : Nat) : log2 n = Nat.log2 n := log2_loop_eq n n (Nat.le_refl n)

theorem Double.ofNat_zero : (0 : Double) = Double.finite false 0 := by decide!

theorem Double.ofNat_hundred : (100 : Double) = Double.finite false 100 := by decide!

theorem Double.round_magnitude_finite (s t : Bool) (x p : ℚ)
    (h : Double.round_magnitude s x = Double.finite t p) : t = s ∧ 0 ≤ p := by
  unfold Double.round_magnitude at h
  split at h
  · injection h with hs hp
    exact ⟨hs.symm, by rw [← hp]⟩
  · simp only at h
    split at h
    · split at h
      · cases h
      · injection h with hs hp
        exact ⟨hs.symm, by rw [← hp]; positivity⟩
    · injection h with hs hp
      exact ⟨hs.symm, by rw [← hp]; positivity⟩

theorem Double.mul_finite (a b : Double) (s : Bool) (p : ℚ)
    (h : a * b = Double.finite s p) : 0 ≤ p := by
  change Double.mul a b = _ at h
  cases a with
  | nan => simp [Double.mul] at h
  | inf sa =>
    cases b with
    | nan => simp [Double.mul] at h
    | inf sb => simp [Double.mul] at h
    | finite sb k =>
      simp only [Double.mul] at h
      split at h <;> cases h
  | finite sa m =>
    cases b with
    | nan => simp [Double.mul] at h
    | inf sb =>
      simp only [Double.mul] at h
      split at h <;> cases h
    | finite sb k =>
      simp only [Double.mul] at h
      exact (Double.round_magnitude_finite _ _ _ _ h).2

theorem c_round_finite (s : Bool) (p : ℚ) (hp : 0 ≤ p) :
    ∃ n : ℕ, c_round (Double.finite s p) = Double.finite s n ∧
      |(n : ℚ) - p| ≤ 1 / 2 ∧ (∀ k : ℕ, p = k + 1 / 2 → n = k + 1) := by
  have hnonneg : 0 ≤ ⌊p + 1 / 2⌋ := Int.floor_nonneg.mpr (by linarith)
  obtain ⟨n, hn⟩ := Int.eq_ofNat_of_zero_le hnonneg
  refine ⟨n, ?_, ?_, ?_⟩
  · simp only [c_round, hn]
    norm_cast
  · have h1 := Int.floor_le (p + 1 / 2)
    have h2 := Int.lt_floor_add_one (p + 1 / 2)
    rw [hn] at h1 h2
    rw [abs_le]
    constructor
    · push_cast at h2; linarith
    · push_cast at h1; linarith
  · intro k hk
    have : ⌊p + 1 / 2⌋ = ((k + 1 : ℕ) : ℤ) := by
      rw [Int.floor_eq_iff, hk]
      constructor
      · push_cast; linarith
      · push_cast; linarith
    rw [hn] at this
    exact_mod_cast this

/-- The rounding step `round(v * 100) / 100` on a value whose product with 100 is the
finite number `p`: the result is the `double` nearest to `n / 100`, where `n` is the
integer nearest to the magnitude of `p`, halves away from zero. -/
theorem round2_finite (v : Double) (s : Bool) (p : ℚ) (hp : v * 100 = Double.finite s p) :
    ∃ n : ℕ, round2 v = Double.round_magnitude s ((n : ℚ) / 100) ∧
      |(n : ℚ) - p| ≤ 1 / 2 ∧ (∀ k : ℕ, p = k + 1 / 2 → n = k + 1) := by
  obtain ⟨n, hn, hnear, htie⟩ := c_round_finite s p (Double.mul_finite _ _ s p hp)
  refine ⟨n, ?_, hnear, htie⟩
  unfold round2
  rw [hp, hn, Double.ofNat_hundred]
  show Double.div _ _ = _
  have h100 : ((100 : ℚ) = 0) = False := by norm_num
  simp only [Double.div, Bool.xor_false, h100, if_false]

/-- Values of `double` arithmetic on some inputs where it differs from exact
arithmetic: rounding of literals and of sums, overflow, underflow, and the range of the
number reader. -/
theorem double_arithmetic_examples :
    extract_double "0.1".data =
      some (Double.finite false (3602879701896397 / 36028797018963968)) ∧
    extract_double "9007199254740993".data = some (Double.finite false 9007199254740992) ∧
    extract_double "1e400".data = none ∧
    extract_double "1.7976931348623157e308".data =
      some (Double.finite false (2 ^ 1024 - 2 ^ 971)) ∧
    Double.of_rat (1 / 10) + Double.of_rat (2 / 10) - Double.of_rat (3 / 10) =
      Double.finite false (1 / 2 ^ 54) ∧
    calculate extract_double "1 / (0.1 + 0.2 - 0.3)" =
      some (.ok (Double.finite false 18014398509481984)) ∧
    calculate extract_double "1e307" = some (.ok (Double.inf false)) ∧
    calculate extract_double "1e400" = some (.error (InvalidToken "1e400".data)) ∧
    evaluate_postfix_notation
      [Token.of_value (Double.finite false (10 ^ 16)), Token.of_value 1,
        Token.of_kind OPERATOR ADD 2] = .ok (Double.finite false (10 ^ 16)) ∧
    evaluate_postfix_notation
      [Token.of_value (Double.of_rat (201 / 200)), Token.of_value 0,
        Token.of_kind OPERATOR ADD 2] = .ok 1 ∧
    (0 : Double) / 0 = Double.nan ∧
    (1 : Double) / 0 = Double.inf false ∧
    (-1 : Double) / 0 = Double.inf true ∧
    (1 : Double) - 1 = Double.finite false 0 ∧
    (-1 : Double) + 1 = Double.finite false 0 ∧
    (-0 : Double) + (-0) = Double.finite true 0 := by
  refine ⟨by decide!, by decide!, by decide!, by decide!,
    by decide!, by decide!, by decide!, by decide!, by decide!, by decide!, by decide!,
    by decide!, by decide!, by decide!, by decide!, by decide!⟩

/-! ## C4: decimal separator -/

/-- C4: for every character run `s`, `read_operand` on `s` and on `s` with every `,`
replaced by `.` have the same outcome: one returns the value `v` exactly when the other
does, and one fails exactly when the other fails; `1,5` and `1.5`, `1,12` and `1.12` are
read as the same values. -/
theorem read_operand_comma_dot (extract : List Char → Option Double) (s : List Char) :
    (∀ v : Double, (∃ it, read_operand extract s = .ok (v, it)) ↔
        (∃ it, read_operand extract (s.map (fun c => if c = ',' then '.' else c)) = .ok (v, it))) ∧
    ((∃ e, read_operand extract s = .error e) ↔
        (∃ e, read_operand extract (s.map (fun c => if c = ',' then '.' else c)) = .error e)) ∧
    read_operand extract_double "1,5".data = .ok (3 / 2, []) ∧
    read_operand extract_double "1.5".data = .ok (3 / 2, []) ∧
    read_operand extract_double "1,12".data = .ok (28 / 25, []) ∧
    read_operand extract_double "1.12".data = .ok (28 / 25, []) := by
  have hfun : (fun c => if c = ',' then '.' else c) = comma_to_dot := rfl
  rw [hfun]
  have key : extract (((s.map comma_to_dot).takeWhile is_operand).map comma_to_dot) =
      extract ((s.takeWhile is_operand).map comma_to_dot) := by
    rw [takeWhile_map_comma_to_dot, List.map_map]
    congr 1
    apply List.map_congr_left
    intro c _
    exact comma_to_dot_idem c
  refine ⟨?_, ?_, by decide!, by decide!, by decide!, by decide!⟩
  · intro v
    unfold read_operand
    simp only [key]
    cases extract ((s.takeWhile is_operand).map comma_to_dot) with
    | none => simp
    | some x => simp
  · unfold read_operand
    simp only [key]
    cases extract ((s.takeWhile is_operand).map comma_to_dot) with
    | none => simp
    | some x => simp

/-! ## C5: the text of `InvalidToken` -/

/-- C5: whenever `read_operand` fails, the error is `invalid_argument` with the text
`bad token ` followed by the maximal run of characters from the start position up to the
first separator (space `+ - * / ( )`) or the end of input, with the original characters
unchanged; `abc+` reports `bad token abc`, `10.10.10` reports `bad token 10.10.10`, and
the tokenizer on `1 + (a1*(1 + 2)) * 3` reports `bad token a1`. -/
theorem read_operand_error_text (extract : List Char → Option Double) :
    (∀ (start : List Char) (e : Exn), read_operand extract start = .error e →
      ∃ run rest : List Char, start = run ++ rest ∧
        (∀ c ∈ run, c ∉ [' ', '+', '-', '*', '/', '(', ')']) ∧
        (rest = [] ∨ ∃ c rest1, rest = c :: rest1 ∧ c ∈ [' ', '+', '-', '*', '/', '(', ')']) ∧
        e = Exn.invalid_argument ("bad token " ++ String.mk run)) ∧
    read_operand extract_double "abc+".data = .error (Exn.invalid_argument "bad token abc") ∧
    read_operand extract_double "10.10.10".data =
      .error (Exn.invalid_argument "bad token 10.10.10") ∧
    tokenize extract_double "1 + (a1*(1 + 2)) * 3" =
      some (.error (Exn.invalid_argument "bad token a1")) := by
  refine ⟨?_, by decide!, by decide!, by decide!⟩
  intro start e h
  refine ⟨start.takeWhile is_operand, start.dropWhile is_operand,
    (List.takeWhile_append_dropWhile _ _).symm, ?_, ?_, read_operand_error extract start e h⟩
  · intro c hc
    have := List.mem_takeWhile_imp hc
    intro hmem
    simp only [List.mem_cons, List.mem_singleton, List.not_mem_nil, or_false] at hmem
    simp [is_operand, hmem] at this
  · cases hd : start.dropWhile is_operand with
    | nil => exact Or.inl rfl
    | cons c rest1 =>
      refine Or.inr ⟨c, rest1, rfl, ?_⟩
      have := List.head_dropWhile_not is_operand start (by simp [hd])
      simp only [hd, List.head_cons] at this
      simp only [List.mem_cons, List.mem_singleton, List.not_mem_nil, or_false]
      by_contra hne
      simp [is_operand, hne] at this

/-- C5 at the input `abc+`: the run is `abc`, the rest starts with the separator `+`. -/
theorem read_operand_error_text_witness :
    ∃ run rest : List Char, "abc+".data = run ++ rest ∧
      (∀ c ∈ run, c ∉ [' ', '+', '-', '*', '/', '(', ')']) ∧
      (rest = [] ∨ ∃ c rest1, rest = c :: rest1 ∧ c ∈ [' ', '+', '-', '*', '/', '(', ')']) ∧
      Exn.invalid_argument "bad token abc" = Exn.invalid_argument ("bad token " ++ String.mk run) :=
  (read_operand_error_text extract_double).1 "abc+".data (Exn.invalid_argument "bad token abc")
    (by decide!)

/-! ## C6: division by zero -/

theorem Double.is_zero_iff (b : Double) : b.is_zero = true ↔ b = 0 ∨ b = -0 := by
  have hneg : (-0 : Double) = Double.finite true 0 := by decide!
  rw [hneg, Double.ofNat_zero]
  cases b with
  | finite s m =>
    cases s <;> simp [Double.is_zero]
  | inf s => simp [Double.is_zero]
  | nan => simp [Double.is_zero]

theorem evaluate_division (a b : Double) :
    evaluate_postfix_notation
      [Token.of_value a, Token.of_value b, Token.of_kind OPERATOR DIV 3] =
      (if b.is_zero then .error DivisionByZero else .ok (round2 (a / b))) := by
  by_cases hb : b.is_zero = true
  · simp [ evaluate_postfix_notation, evaluate_loop, evaluate_operation, Token.of_value,
      Token.of_kind, OPERATOR, OPERAND, DIV, ADD, SUB, MUL, hb]
  · simp [ evaluate_postfix_notation, evaluate_loop, evaluate_operation, Token.of_value,
      Token.of_kind, OPERATOR, OPERAND, DIV, ADD, SUB, MUL, hb, round2]

theorem round2_zero (s : Bool) : round2 (Double.finite s 0) = Double.finite s 0 := by
  have hmul : Double.finite s 0 * (100 : Double) = Double.finite s 0 := by
    rw [Double.ofNat_hundred]
    show Double.mul _ _ = _
    simp [Double.mul, Double.round_magnitude]
  have hdiv : Double.finite s 0 / (100 : Double) = Double.finite s 0 := by
    rw [Double.ofNat_hundred]
    show Double.div _ _ = _
    simp [Double.div, Double.round_magnitude]
  unfold round2
  rw [hmul]
  have hround : c_round (Double.finite s 0) = Double.finite s 0 := by
    simp [c_round]
    norm_num
  rw [hround, hdiv]

/-- C6: for all operand values `a` and `b` of type `double`, `evaluate_postfix_notation`
on `[a, b, Div]` fails with `DivisionByZero` (text `division by zero`) if and only if
`b == 0.0`, that is, `b` is one of the two zeros, and otherwise returns `a / b` rounded to
two decimals, the quotient and the rounding `round(v * 100) / 100` being those of
`double` arithmetic (when the product `v * 100` is the finite number `p`, the rounded
value is the `double` nearest to `n / 100`, with `n` the integer nearest to the magnitude
of `p`, halves away from zero); `calculate` on `1 / 0` fails with `DivisionByZero`, and a
zero left operand is not an error: `0 / b` with `b` finite and nonzero yields zero. -/
theorem division_by_zero_iff (a b : Double) :
    ( evaluate_postfix_notation [Token.of_value a, Token.of_value b, Token.of_kind OPERATOR DIV 3] =
        (if b.is_zero then .error (Exn.invalid_argument "division by zero")
         else .ok (round2 (a / b)))) ∧
    ( evaluate_postfix_notation [Token.of_value a, Token.of_value b, Token.of_kind OPERATOR DIV 3] =
        .error DivisionByZero ↔ b.is_zero = true) ∧
    (b.is_zero = true ↔ b = 0 ∨ b = -0) ∧
    ( evaluate_postfix_notation [Token.of_value 0, Token.of_value b, Token.of_kind OPERATOR DIV 3] =
        (if b.is_zero then .error DivisionByZero else .ok (round2 (0 / b)))) ∧
    (∀ (s : Bool) (m : ℚ), m ≠ 0 →
      evaluate_postfix_notation
        [Token.of_value 0, Token.of_value (Double.finite s m), Token.of_kind OPERATOR DIV 3] =
        .ok (Double.finite s 0)) ∧
    (∀ (s : Bool) (p : ℚ), a / b * 100 = Double.finite s p →
      ∃ n : ℕ, round2 (a / b) = Double.round_magnitude s ((n : ℚ) / 100) ∧
        |(n : ℚ) - p| ≤ 1 / 2 ∧ (∀ k : ℕ, p = k + 1 / 2 → n = k + 1)) ∧
    calculate extract_double "1 / 0" = some (.error DivisionByZero) ∧
    evaluate_postfix_notation
      [Token.of_value 1, Token.of_value (Double.of_rat (1 / 10 ^ 320)),
        Token.of_kind OPERATOR DIV 3] = .ok (Double.inf false) := by
  refine ⟨evaluate_division a b, ?_, Double.is_zero_iff b, evaluate_division 0 b, ?_,
    round2_finite (a / b), by decide!, by decide!⟩
  · rw [evaluate_division]
    by_cases hb : b.is_zero = true
    · simp [hb]
    · simp [hb]
  · intro s m hm
    rw [evaluate_division]
    have hz : (Double.finite s m).is_zero = false := by simp [Double.is_zero, hm]
    have hq : (0 : Double) / Double.finite s m = Double.finite s 0 := by
      rw [Double.ofNat_zero]
      show Double.div _ _ = _
      simp [Double.div, Double.round_magnitude, hm]
    rw [hz, hq, round2_zero]
    simp

/-- C6 at the sequence `[0, 4, Div]`: a zero left operand yields zero. -/
theorem division_by_zero_iff_witness :
    evaluate_postfix_notation
      [Token.of_value 0, Token.of_value (Double.finite false 4), Token.of_kind OPERATOR DIV 3] =
      .ok (Double.finite false 0) :=
  (division_by_zero_iff 0 0).2.2.2.2.1 false 4 (by norm_num)

/-! ## C7: blank input -/

theorem dropWhile_spaces_eq_nil (s : List Char) (h : ∀ c ∈ s, c = ' ') :
    s.dropWhile (fun c => c == ' ') = [] := by
  rw [List.dropWhile_eq_nil_iff]
  intro c hc
  simp [h c hc]

/-- C7: for every input consisting only of spaces (the empty string included), the
tokenizer reports the end of input without error and without a token,
`to_postfix_notation` returns the empty sequence, and `calculate` fails with
`BadExpression` (text `bad input expression`). -/
theorem blank_input (extract : List Char → Option Double) (expr : String)
    (h : ∀ c ∈ expr.data, c = ' ') :
    Tokenizer.next extract (Tokenizer.init expr.data) = .ok none ∧
    tokenize extract expr = some (.ok []) ∧
    to_postfix_notation extract (Tokenizer.init expr.data) = some (.ok []) ∧
    calculate extract expr = some (.error (Exn.invalid_argument "bad input expression")) := by
  have hn : Tokenizer.next extract (Tokenizer.init expr.data) = .ok none := by
    simp [Tokenizer.next, Tokenizer.init, dropWhile_spaces_eq_nil _ h]
  have hp : to_postfix_notation extract (Tokenizer.init expr.data) = some (.ok []) := by
    simp [ to_postfix_notation, to_postfix_loop, hn, to_postfix_flush]
  refine ⟨hn, ?_, hp, ?_⟩
  · simp [tokenize, tokenize_loop, hn]
  · simp [calculate, hp, evaluate_postfix_notation, evaluate_loop, BadExpression]

/-- C7 at the input of three spaces. -/
theorem blank_input_witness :
    Tokenizer.next extract_double (Tokenizer.init "   ".data) = .ok none ∧
    tokenize extract_double "   " = some (.ok []) ∧
    to_postfix_notation extract_double (Tokenizer.init "   ".data) = some (.ok []) ∧
    calculate extract_double "   " =
      some (.error (Exn.invalid_argument "bad input expression")) :=
  blank_input extract_double "   " (by decide)

/-! ## C8: values with two decimals are returned unchanged -/

theorem floor_natCast_add_half (n : ℕ) : ⌊((n : ℚ) + 1 / 2)⌋ = (n : ℤ) := by
  rw [Int.floor_eq_iff]
  constructor
  · push_cast; linarith
  · push_cast; linarith

theorem round2_of_exact_product (s : Bool) (m : ℚ) (n : ℕ) (hdec : 100 * m = n)
    (hprod : Double.round_magnitude s (m * 100) = Double.finite s (m * 100))
    (hval : Double.round_magnitude s m = Double.finite s m) :
    c_round (Double.finite s m * 100) / 100 = Double.finite s m := by
  have hmn : m * 100 = (n : ℚ) := by rw [mul_comm]; exact hdec
  have hmul : Double.finite s m * (100 : Double) = Double.finite s (n : ℚ) := by
    rw [Double.ofNat_hundred]
    show Double.mul _ _ = _
    simp only [Double.mul, Bool.xor_false]
    rw [hprod, hmn]
  have hround : c_round (Double.finite s (n : ℚ)) = Double.finite s (n : ℚ) := by
    simp only [c_round, floor_natCast_add_half]
    norm_num
  have hdiv : Double.finite s (n : ℚ) / (100 : Double) = Double.finite s m := by
    rw [Double.ofNat_hundred]
    show Double.div _ _ = _
    have h100 : ((100 : ℚ) = 0) = False := by norm_num
    have hq : (n : ℚ) / 100 = m := by rw [← hmn]; field_simp
    simp only [Double.div, Bool.xor_false, h100, if_false, hq]
    exact hval
  rw [hmul, hround, hdiv]

/-- C8, as the code has it: for every expression that evaluates without error (the conversion
returns a sequence on which the value stack ends with the single value `v`) and whose
unrounded value `v` is a finite `double` with at most two decimals (`100 * v` is an
integer) such that the product `100 * v` is itself a `double` (it is not changed by the
rounding of the multiplication), `calculate` returns exactly `v`. -/
theorem rounding_keeps_two_decimals (extract : List Char → Option Double) (expr : String)
    (tokens : List Token) (back : Token) (s : Bool) (m : ℚ) (n : ℕ)
    (hconv : to_postfix_notation extract (Tokenizer.init expr.data) = some (.ok tokens))
    (heval : evaluate_loop tokens [] = .ok [back])
    (hfinite : back.value = Double.finite s m)
    (hdec : 100 * m = n)
    (hprod : Double.round_magnitude s (m * 100) = Double.finite s (m * 100))
    (hval : Double.round_magnitude s m = Double.finite s m) :
    calculate extract expr = some (.ok back.value) := by
  have hr := round2_of_exact_product s m n hdec hprod hval
  rw [← hfinite] at hr
  simp [calculate, hconv, evaluate_postfix_notation, heval, hr]

/-- C8 at the input `0.5 + 0.25`, whose value `0.75` has two decimals. -/
theorem rounding_keeps_two_decimals_witness :
    calculate extract_double "0.5 + 0.25" = some (.ok (Token.of_value (3 / 4)).value) :=
  rounding_keeps_two_decimals extract_double "0.5 + 0.25"
    [Token.of_value (1 / 2), Token.of_value (1 / 4), Token.of_kind OPERATOR ADD 2]
    (Token.of_value (3 / 4)) false (3 / 4) 75 (by decide!) (by decide!) (by decide!)
    (by norm_num) (by decide!) (by decide!)

/-- C8 as stated fails at the input `1e21` (and `1000000000000000000000`): the value
`v = 10 ^ 21` is a `double` and `100 * v` is an integer, but `100 * v = 10 ^ 23` is not a
`double`; the product is rounded to `99999999999999991611392`, and `calculate` returns
`999999999999999868928`, not `v`. -/
theorem rounding_changes_two_decimals :
    to_postfix_notation extract_double (Tokenizer.init "1e21".data) =
      some (.ok [Token.of_value (Double.finite false (10 ^ 21))]) ∧
    evaluate_loop [Token.of_value (Double.finite false (10 ^ 21))] [] =
      .ok [Token.of_value (Double.finite false (10 ^ 21))] ∧
    Double.of_rat (10 ^ 21) = Double.finite false (10 ^ 21) ∧
    (100 * (10 : ℚ) ^ 21 = ((10 ^ 23 : ℤ) : ℚ)) ∧
    Double.finite false (10 ^ 21) * 100 = Double.finite false 99999999999999991611392 ∧
    calculate extract_double "1e21" = some (.ok (Double.finite false 999999999999999868928)) ∧
    calculate extract_double "1000000000000000000000" =
      some (.ok (Double.finite false 999999999999999868928)) ∧
    Double.finite false 999999999999999868928 ≠ Double.finite false (10 ^ 21) := by
  refine ⟨by decide!, by decide!, by decide!, by norm_num, by decide!, by decide!, by decide!,
    by decide!⟩

/-! ## The tokenizer -/

theorem next_ok_some (extract : List Char → Option Double) (t t1 : Tokenizer) (token : Token)
    (h : Tokenizer.next extract t = .ok (some (token, t1))) :
    ∃ c rest cur, t.cur.dropWhile (fun c => c == ' ') = c :: rest ∧
      Tokenizer.read_token extract t.allow_negation c rest = .ok (token, cur) ∧
      t1 = ⟨cur, decide (token.type ≠ OPERAND ∧ token.type ≠ RIGHT_BRACKET)⟩ := by
  unfold Tokenizer.next at h
  split at h
  · cases h
  · next c rest hd =>
    split at h
    · cases h
    · next tok cur hr =>
      injection h with h
      injection h with h
      injection h with h1 h2
      subst h1
      exact ⟨c, rest, cur, hd, hr, h2.symm⟩

theorem length_dropWhile_le (p : Char → Bool) (s : List Char) :
    (s.dropWhile p).length ≤ s.length :=
  (List.dropWhile_suffix p).length_le

theorem read_operand_length (extract : List Char → Option Double) (start : List Char) (v : Double)
    (it : List Char) (h : read_operand extract start = .ok (v, it)) :
    it.length ≤ start.length := by
  rw [(read_operand_ok extract start v it h).2]
  exact length_dropWhile_le _ _

theorem is_operand_of_not_separator (c : Char) (h1 : ¬c = '+') (h2 : ¬c = '-') (h3 : ¬c = '*')
    (h4 : ¬c = '/') (h5 : ¬c = '(') (h6 : ¬c = ')') (h7 : ¬c = ' ') : is_operand c = true := by
  simp [is_operand, h1, h2, h3, h4, h5, h6, h7]

theorem read_token_ok (extract : List Char → Option Double) (an : Bool) (c : Char)
    (rest cur : List Char) (token : Token) (hc : c ≠ ' ')
    (h : Tokenizer.read_token extract an c rest = .ok (token, cur)) :
    cur.length ≤ rest.length ∧ token.from_tokenizer := by
  unfold Tokenizer.read_token at h
  unfold Token.from_tokenizer
  split at h
  · injection h with h; injection h with h1 h2; subst h1 h2; simp
  split at h
  · split at h
    · split at h
      · cases h
      · next v it hr =>
        injection h with h; injection h with h1 h2; subst h1 h2
        exact ⟨read_operand_length extract rest v _ hr, Or.inl ⟨-v, rfl⟩⟩
    · injection h with h; injection h with h1 h2; subst h1 h2; simp
  split at h
  · injection h with h; injection h with h1 h2; subst h1 h2; simp
  split at h
  · injection h with h; injection h with h1 h2; subst h1 h2; simp
  split at h
  · injection h with h; injection h with h1 h2; subst h1 h2; simp
  split at h
  · injection h with h; injection h with h1 h2; subst h1 h2; simp
  · next h1 h2 h3 h4 h5 h6 =>
    split at h
    · cases h
    · next v it hr =>
      injection h with h; injection h with e1 e2; subst e1 e2
      have hop := is_operand_of_not_separator c h1 h2 h3 h4 h5 h6 hc
      have := (read_operand_ok extract (c :: rest) v _ hr).2
      rw [List.dropWhile_cons_of_pos hop] at this
      rw [this]
      exact ⟨length_dropWhile_le _ _, Or.inl ⟨v, rfl⟩⟩

theorem head_dropWhile_spaces (s : List Char) (c : Char) (rest : List Char)
    (h : s.dropWhile (fun c => c == ' ') = c :: rest) : c ≠ ' ' := by
  have := List.head_dropWhile_not (fun c => c == ' ') s (by simp [h])
  simp only [h, List.head_cons] at this
  simpa using this

theorem next_advances (extract : List Char → Option Double) (t t1 : Tokenizer) (token : Token)
    (h : Tokenizer.next extract t = .ok (some (token, t1))) :
    t1.cur.length < t.cur.length ∧ token.from_tokenizer := by
  obtain ⟨c, rest, cur, hd, hr, ht⟩ := next_ok_some extract t t1 token h
  have hc := head_dropWhile_spaces _ _ _ hd
  obtain ⟨hl, hs⟩ := read_token_ok extract _ c rest cur token hc hr
  refine ⟨?_, hs⟩
  have := length_dropWhile_le (fun c => c == ' ') t.cur
  rw [hd] at this
  subst ht
  simp only [List.length_cons] at this
  simp only
  omega

/-! ## C10: termination -/

theorem loop_fuel_indep (extract : List Char → Option Double) :
    ∀ (fuel1 fuel2 : Nat) (t : Tokenizer) (out st : List Token),
      t.cur.length < fuel1 → t.cur.length < fuel2 →
      to_postfix_loop extract fuel1 t out st = to_postfix_loop extract fuel2 t out st := by
  intro fuel1
  induction fuel1 with
  | zero => intro fuel2 t out st h; omega
  | succ n ih =>
    intro fuel2 t out st h1 h2
    cases fuel2 with
    | zero => omega
    | succ m =>
      unfold to_postfix_loop
      cases hn : Tokenizer.next extract t with
      | error e => rfl
      | ok r =>
        cases r with
        | none => rfl
        | some p =>
          obtain ⟨token, t1⟩ := p
          have hlt := (next_advances extract t t1 token hn).1
          simp only
          cases to_postfix_step token out st with
          | error e => rfl
          | ok q =>
            obtain ⟨out1, st1⟩ := q
            exact ih m t1 out1 st1 (by omega) (by omega)

theorem loop_isSome (extract : List Char → Option Double) :
    ∀ (fuel : Nat) (t : Tokenizer) (out st : List Token),
      t.cur.length < fuel → ∃ r, to_postfix_loop extract fuel t out st = some r := by
  intro fuel
  induction fuel with
  | zero => intro t out st h; omega
  | succ n ih =>
    intro t out st h
    unfold to_postfix_loop
    cases hn : Tokenizer.next extract t with
    | error e => exact ⟨_, rfl⟩
    | ok r =>
      cases r with
      | none => exact ⟨_, rfl⟩
      | some p =>
        obtain ⟨token, t1⟩ := p
        have hlt := (next_advances extract t t1 token hn).1
        simp only
        cases to_postfix_step token out st with
        | error e => exact ⟨_, rfl⟩
        | ok q =>
          obtain ⟨out1, st1⟩ := q
          exact ih t1 out1 st1 (by omega)

theorem tokenize_loop_total (extract : List Char → Option Double) :
    ∀ (fuel : Nat) (t : Tokenizer), t.cur.length < fuel →
      ∃ r, tokenize_loop extract fuel t = some r ∧
        ∀ res, r = .ok res → res.length ≤ t.cur.length := by
  intro fuel
  induction fuel with
  | zero => intro t h; omega
  | succ n ih =>
    intro t h
    unfold tokenize_loop
    cases hn : Tokenizer.next extract t with
    | error e => exact ⟨_, rfl, by intro res hres; cases hres⟩
    | ok r =>
      cases r with
      | none =>
        refine ⟨_, rfl, ?_⟩
        intro res hres
        injection hres with hres
        subst hres
        simp
      | some p =>
        obtain ⟨token, t1⟩ := p
        have hlt := (next_advances extract t t1 token hn).1
        obtain ⟨r, hr, hlen⟩ := ih t1 (by omega)
        simp only [hr]
        cases r with
        | error e => exact ⟨_, rfl, by intro res hres; cases hres⟩
        | ok res1 =>
          refine ⟨_, rfl, ?_⟩
          intro res hres
          injection hres with hres
          subst hres
          have := hlen res1 rfl
          simp only [List.length_cons]
          omega

theorem pop_operators_length (token : Token) :
    ∀ (st out : List Token),
      (pop_operators token out st).1.length + (pop_operators token out st).2.length =
        out.length + st.length := by
  intro st
  induction st with
  | nil => intro out; simp [pop_operators]
  | cons op st ih =>
    intro out
    unfold pop_operators
    split
    · rw [ih]; simp; omega
    · simp

theorem pop_to_left_bracket_length :
    ∀ (st out : List Token),
      (pop_to_left_bracket out st).1.length + (pop_to_left_bracket out st).2.length =
        out.length + st.length := by
  intro st
  induction st with
  | nil => intro out; simp [pop_to_left_bracket]
  | cons op st ih =>
    intro out
    unfold pop_to_left_bracket
    split
    · rw [ih]; simp; omega
    · simp

theorem to_postfix_step_length (token : Token) (out st out1 st1 : List Token)
    (h : to_postfix_step token out st = .ok (out1, st1)) :
    out1.length + st1.length ≤ out.length + st.length + 1 := by
  unfold to_postfix_step at h
  split at h
  · injection h with h; injection h with h1 h2; subst h1 h2
    simp only [List.length_append, List.length_singleton]; omega
  split at h
  · have := pop_operators_length token st out
    rcases hp : pop_operators token out st with ⟨a, b⟩
    rw [hp] at this h
    injection h with h; injection h with h1 h2; subst h1 h2
    simp only [List.length_cons] at *
    omega
  split at h
  · injection h with h; injection h with h1 h2; subst h1 h2
    simp only [List.length_cons]; omega
  split at h
  · have := pop_to_left_bracket_length st out
    rcases hp : pop_to_left_bracket out st with ⟨a, b⟩
    rw [hp] at this h
    cases b with
    | nil => cases h
    | cons x b =>
      injection h with h; injection h with h1 h2; subst h1 h2
      simp only [List.length_cons] at *
      omega
  · injection h with h; injection h with h1 h2; subst h1 h2; omega

/-- C10: `calculate` terminates on every input string.  Every call of `Tokenizer::next`
that returns a token leaves strictly fewer unread characters, so draining the tokenizer
ends and yields at most as many tokens as the input has characters; the token loop of
`to_postfix_notation` ends within the budget of one call of `next` per character plus
one, and a larger budget does not change its result; one token grows the output and the
operator stack together by at most one entry, which bounds the inner loops over the
stack; hence `calculate` produces a result (a value or an error). -/
theorem calculate_terminates (extract : List Char → Option Double) :
    (∀ (t t1 : Tokenizer) (token : Token),
      Tokenizer.next extract t = .ok (some (token, t1)) → t1.cur.length < t.cur.length) ∧
    (∀ expr : String, ∃ r, tokenize extract expr = some r ∧
      ∀ res, r = .ok res → res.length ≤ expr.data.length) ∧
    (∀ (t : Tokenizer) (fuel : Nat) (out st : List Token), t.cur.length < fuel →
      ∃ r, to_postfix_loop extract fuel t out st = some r ∧
        to_postfix_loop extract (t.cur.length + 1) t out st = some r) ∧
    (∀ (token : Token) (out st out1 st1 : List Token),
      to_postfix_step token out st = .ok (out1, st1) →
      out1.length + st1.length ≤ out.length + st.length + 1) ∧
    (∀ expr : String, ∃ r, calculate extract expr = some r) := by
  refine ⟨fun t t1 token h => (next_advances extract t t1 token h).1, ?_, ?_,
    to_postfix_step_length, ?_⟩
  · intro expr
    exact tokenize_loop_total extract _ (Tokenizer.init expr.data) (by simp [Tokenizer.init])
  · intro t fuel out st h
    obtain ⟨r, hr⟩ := loop_isSome extract fuel t out st h
    refine ⟨r, hr, ?_⟩
    rw [← hr]
    exact loop_fuel_indep extract _ _ t out st (by omega) h
  · intro expr
    obtain ⟨r, hr⟩ := loop_isSome extract (expr.data.length + 1) (Tokenizer.init expr.data) [] []
      (by simp [Tokenizer.init])
    have hr1 : to_postfix_notation extract (Tokenizer.init expr.data) = some r := hr
    unfold calculate
    rw [hr1]
    cases r with
    | error e => exact ⟨_, rfl⟩
    | ok tokens => exact ⟨_, rfl⟩

/-- C10 at the input `1 + 2`: the first call of `next` advances the cursor, a budget of
nine calls gives the same result as the budget of six used by `to_postfix_notation`, and
one conversion step grows output and stack by at most one entry. -/
theorem calculate_terminates_witness :
    (Tokenizer.mk " + 2".data false).cur.length < (Tokenizer.init "1 + 2".data).cur.length ∧
    (∃ r, to_postfix_loop extract_double 9 (Tokenizer.init "1 + 2".data) [] [] = some r ∧
      to_postfix_loop extract_double ((Tokenizer.init "1 + 2".data).cur.length + 1)
        (Tokenizer.init "1 + 2".data) [] [] = some r) ∧
    [Token.of_value 1].length + ([] : List Token).length ≤
      ([] : List Token).length + ([] : List Token).length + 1 :=
  ⟨(calculate_terminates extract_double).1 (Tokenizer.init "1 + 2".data)
      (Tokenizer.mk " + 2".data false) (Token.of_value 1) (by decide!),
   (calculate_terminates extract_double).2.2.1 (Tokenizer.init "1 + 2".data) 9 [] []
      (by decide),
   (calculate_terminates extract_double).2.2.2.1 (Token.of_value 1) [] [] [Token.of_value 1] []
      (by decide!)⟩

/-! ## C3: unary and binary minus -/

theorem emitted_allow_negation (extract : List Char → Option Double) (expr : List Char)
    (prev : Option Token) (t : Tokenizer) (h : Emitted extract expr prev t) :
    (prev = none ∧ t.allow_negation = true) ∨
    (∃ p, prev = some p ∧ p.from_tokenizer ∧
      t.allow_negation = decide (p.type ≠ OPERAND ∧ p.type ≠ RIGHT_BRACKET)) := by
  cases h with
  | start => exact Or.inl ⟨rfl, rfl⟩
  | step hprev hnext =>
    rename_i prev0 t0 token
    obtain ⟨c, rest, cur, _, _, ht⟩ := next_ok_some extract t0 t token hnext
    exact Or.inr ⟨token, rfl, (next_advances extract t0 t token hnext).2, by rw [ht]⟩

theorem from_tokenizer_type (p : Token) (h : p.from_tokenizer) :
    p.type = OPERAND ∨ p.type = OPERATOR ∨ p.type = LEFT_BRACKET ∨ p.type = RIGHT_BRACKET := by
  unfold Token.from_tokenizer at h
  rcases h with ⟨v, h⟩ | h | h | h | h | h | h <;> subst h <;>
    simp [Token.of_value, Token.of_kind]

theorem next_minus (extract : List Char → Option Double) (t : Tokenizer) (rest : List Char)
    (h : t.cur.dropWhile (fun c => c == ' ') = '-' :: rest) :
    Tokenizer.next extract t =
      if t.allow_negation = true then
        match read_operand extract rest with
        | .error e => .error e
        | .ok (v, it) => .ok (some (Token.of_value (-v), ⟨it, false⟩))
      else .ok (some (Token.of_kind OPERATOR SUB 2, ⟨rest, true⟩)) := by
  unfold Tokenizer.next
  rw [h]
  have h1 : ¬ ('-' = '+') := by decide
  cases han : t.allow_negation with
  | true =>
    cases hr : read_operand extract rest with
    | error e => simp [Tokenizer.read_token, h1, hr]
    | ok p =>
      obtain ⟨v, it⟩ := p
      simp [Tokenizer.read_token, h1, hr, Token.of_value]
  | false =>
    simp [Tokenizer.read_token, h1, Token.of_kind, OPERATOR, OPERAND, RIGHT_BRACKET]

/-- C3: in `Tokenizer::next`, for every input and every state reached while reading it,
a `-` that starts the next token is emitted as the `Sub` operator (precedence 2) if and
only if the previously emitted token is an operand or a right bracket, and then the
cursor moves past the `-` alone; when there is no previous token, or the previous token
is an operator or a left bracket, the text after the `-` is read by `read_operand` and
emitted together with the `-` as one operand token carrying the negated value (or the
error of `read_operand` is raised).  `1 + -2` tokenizes to `[1, Add, -2]` and
`-1 + 5 - 3` to `[-1, Add, 5, Sub, 3]`. -/
theorem minus_disambiguation (extract : List Char → Option Double) (expr : List Char)
    (prev : Option Token) (t : Tokenizer) (rest : List Char)
    (hreach : Emitted extract expr prev t)
    (hminus : t.cur.dropWhile (fun c => c == ' ') = '-' :: rest) :
    ((∃ t1, Tokenizer.next extract t = .ok (some (Token.of_kind OPERATOR SUB 2, t1))) ↔
      (∃ p, prev = some p ∧ (p.type = OPERAND ∨ p.type = RIGHT_BRACKET))) ∧
    ((∃ p, prev = some p ∧ (p.type = OPERAND ∨ p.type = RIGHT_BRACKET)) →
      Tokenizer.next extract t = .ok (some (Token.of_kind OPERATOR SUB 2, ⟨rest, true⟩))) ∧
    ((prev = none ∨ ∃ p, prev = some p ∧ (p.type = OPERATOR ∨ p.type = LEFT_BRACKET)) →
      Tokenizer.next extract t =
        match read_operand extract rest with
        | .error e => .error e
        | .ok (v, it) => .ok (some (Token.of_value (-v), ⟨it, false⟩))) ∧
    tokenize extract_double "1 + -2" =
      some (.ok [Token.of_value 1, Token.of_kind OPERATOR ADD 2, Token.of_value (-2)]) ∧
    tokenize extract_double "-1 + 5 - 3" =
      some (.ok [Token.of_value (-1), Token.of_kind OPERATOR ADD 2, Token.of_value 5,
        Token.of_kind OPERATOR SUB 2, Token.of_value 3]) := by
  have hnext := next_minus extract t rest hminus
  have hsub : (∃ p, prev = some p ∧ (p.type = OPERAND ∨ p.type = RIGHT_BRACKET)) →
      t.allow_negation = false := by
    rintro ⟨p, hp, hty⟩
    rcases emitted_allow_negation extract expr prev t hreach with ⟨h0, _⟩ | ⟨q, hq, _, han⟩
    · rw [h0] at hp; cases hp
    · rw [hq] at hp
      injection hp with hp
      subst hp
      rw [han]
      rcases hty with hty | hty <;> simp [hty]
  have hneg : (prev = none ∨ ∃ p, prev = some p ∧ (p.type = OPERATOR ∨ p.type = LEFT_BRACKET)) →
      t.allow_negation = true := by
    rintro (h0 | ⟨p, hp, hty⟩)
    · rcases emitted_allow_negation extract expr prev t hreach with ⟨_, han⟩ | ⟨q, hq, _, _⟩
      · exact han
      · rw [hq] at h0; cases h0
    · rcases emitted_allow_negation extract expr prev t hreach with ⟨h0, _⟩ | ⟨q, hq, _, han⟩
      · rw [h0] at hp; cases hp
      · rw [hq] at hp
        injection hp with hp
        subst hp
        rw [han]
        rcases hty with hty | hty <;> simp [hty, OPERATOR, LEFT_BRACKET, OPERAND, RIGHT_BRACKET]
  refine ⟨⟨?_, ?_⟩, ?_, ?_, by decide!, by decide!⟩
  · rintro ⟨t1, ht1⟩
    rcases emitted_allow_negation extract expr prev t hreach with ⟨h0, han⟩ | ⟨q, hq, hshape, han⟩
    · exfalso
      rw [hnext, if_pos han] at ht1
      cases hr : read_operand extract rest with
      | error e => rw [hr] at ht1; cases ht1
      | ok p =>
        obtain ⟨v, it⟩ := p
        rw [hr] at ht1
        simp [Token.of_value, Token.of_kind, OPERAND, OPERATOR] at ht1
    · refine ⟨q, hq, ?_⟩
      by_contra hcon
      have han1 : t.allow_negation = true := by
        rw [han]
        simp only [not_or] at hcon
        simp [hcon.1, hcon.2]
      rw [hnext, if_pos han1] at ht1
      cases hr : read_operand extract rest with
      | error e => rw [hr] at ht1; cases ht1
      | ok p =>
        obtain ⟨v, it⟩ := p
        rw [hr] at ht1
        simp [Token.of_value, Token.of_kind, OPERAND, OPERATOR] at ht1
  · intro h
    have han := hsub h
    rw [hnext]
    simp [han]
  · intro h
    have han := hsub h
    rw [hnext]
    simp [han]
  · intro h
    rw [hnext, if_pos (hneg h)]

/-- C3 at the input `1 + -2`, in the state after the tokens `1` and `Add`: the previous
token is an operator, and the `-` is read together with `2` as the operand `-2`. -/
theorem minus_disambiguation_witness :
    Tokenizer.next extract_double (Tokenizer.mk " -2".data true) =
      (match read_operand extract_double "2".data with
        | .error e => .error e
        | .ok (v, it) => .ok (some (Token.of_value (-v), ⟨it, false⟩))) :=
  (minus_disambiguation extract_double "1 + -2".data (some (Token.of_kind OPERATOR ADD 2))
    (Tokenizer.mk " -2".data true) "2".data
    (Emitted.step (Emitted.step Emitted.start
      (show Tokenizer.next extract_double (Tokenizer.init "1 + -2".data) =
        .ok (some (Token.of_value 1, Tokenizer.mk " + -2".data false)) by decide!))
      (show Tokenizer.next extract_double (Tokenizer.mk " + -2".data false) =
        .ok (some (Token.of_kind OPERATOR ADD 2, Tokenizer.mk " -2".data true)) by decide!))
    (by decide)).2.2.1 (Or.inr ⟨Token.of_kind OPERATOR ADD 2, rfl, Or.inl rfl⟩)

/-! ## C9: no bracket reaches the output -/

theorem from_tokenizer_cases (p : Token) (h : p.from_tokenizer) :
    p.type = OPERAND ∨ (p.type = OPERATOR ∧ 2 ≤ p.precedence) ∨
      (p.type = LEFT_BRACKET ∧ p.precedence = 1) ∨ p.type = RIGHT_BRACKET := by
  unfold Token.from_tokenizer at h
  rcases h with ⟨v, h⟩ | h | h | h | h | h | h <;> subst h <;>
    simp [Token.of_value, Token.of_kind]

theorem output_ok_append (out : List Token) (p : Token) (h : output_ok out)
    (hp : p.type = OPERAND ∨ p.type = OPERATOR) : output_ok (out ++ [p]) := by
  intro q hq
  rw [List.mem_append, List.mem_singleton] at hq
  rcases hq with hq | hq
  · exact h q hq
  · rw [hq]; exact hp

theorem stack_ok_tail (op : Token) (st : List Token) (h : stack_ok (op :: st)) : stack_ok st :=
  fun p hp => h p (List.mem_cons_of_mem _ hp)

theorem stack_ok_cons (op : Token) (st : List Token) (h : stack_ok st)
    (hop : (op.type = OPERATOR ∧ 2 ≤ op.precedence) ∨ (op.type = LEFT_BRACKET ∧ op.precedence = 1)) :
    stack_ok (op :: st) := by
  intro p hp
  rw [List.mem_cons] at hp
  rcases hp with hp | hp
  · rw [hp]; exact hop
  · exact h p hp

theorem pop_operators_inv (token : Token) (htok : 2 ≤ token.precedence) :
    ∀ (st out : List Token), stack_ok st → output_ok out →
      output_ok (pop_operators token out st).1 ∧ stack_ok (pop_operators token out st).2 := by
  intro st
  induction st with
  | nil => intro out hst hout; exact ⟨hout, hst⟩
  | cons op st ih =>
    intro out hst hout
    unfold pop_operators
    split
    · next hle =>
      apply ih _ (stack_ok_tail op st hst)
      apply output_ok_append out op hout
      rcases hst op (List.mem_cons_self _ _) with h | h
      · exact Or.inr h.1
      · omega
    · exact ⟨hout, hst⟩

theorem pop_to_left_bracket_inv :
    ∀ (st out : List Token), stack_ok st → output_ok out →
      output_ok (pop_to_left_bracket out st).1 ∧ stack_ok (pop_to_left_bracket out st).2 := by
  intro st
  induction st with
  | nil => intro out hst hout; exact ⟨hout, hst⟩
  | cons op st ih =>
    intro out hst hout
    unfold pop_to_left_bracket
    split
    · next hne =>
      apply ih _ (stack_ok_tail op st hst)
      apply output_ok_append out op hout
      rcases hst op (List.mem_cons_self _ _) with h | h
      · exact Or.inr h.1
      · exact absurd h.1 hne
    · exact ⟨hout, hst⟩

theorem to_postfix_step_inv (token : Token) (out st out1 st1 : List Token)
    (htok : token.from_tokenizer) (hst : stack_ok st) (hout : output_ok out)
    (h : to_postfix_step token out st = .ok (out1, st1)) : output_ok out1 ∧ stack_ok st1 := by
  have hc := from_tokenizer_cases token htok
  unfold to_postfix_step at h
  split at h
  · next hty =>
    injection h with h; injection h with h1 h2; subst h1 h2
    exact ⟨output_ok_append out token hout (Or.inl hty), hst⟩
  split at h
  · next hn hty =>
    have hprec : 2 ≤ token.precedence := by
      rcases hc with h0 | h1 | h2 | h3
      · exact absurd h0 hn
      · exact h1.2
      · rw [hty] at h2; exact absurd h2.1 (by decide)
      · rw [hty] at h3; exact absurd h3 (by decide)
    have hinv := pop_operators_inv token hprec st out hst hout
    rcases hp : pop_operators token out st with ⟨a, b⟩
    rw [hp] at hinv h
    injection h with h; injection h with h1 h2; subst h1 h2
    exact ⟨hinv.1, stack_ok_cons token b hinv.2 (Or.inl ⟨hty, hprec⟩)⟩
  split at h
  · next hn1 hn2 hty =>
    injection h with h; injection h with h1 h2; subst h1 h2
    refine ⟨hout, stack_ok_cons token st hst (Or.inr ⟨hty, ?_⟩)⟩
    rcases hc with h0 | h1 | h2 | h3
    · exact absurd h0 hn1
    · exact absurd h1.1 hn2
    · exact h2.2
    · rw [hty] at h3; exact absurd h3 (by decide)
  split at h
  · have hinv := pop_to_left_bracket_inv st out hst hout
    rcases hp : pop_to_left_bracket out st with ⟨a, b⟩
    rw [hp] at hinv h
    cases b with
    | nil => cases h
    | cons x b =>
      injection h with h; injection h with h1 h2; subst h1 h2
      exact ⟨hinv.1, stack_ok_tail x b hinv.2⟩
  · injection h with h; injection h with h1 h2; subst h1 h2
    exact ⟨hout, hst⟩

theorem to_postfix_flush_inv :
    ∀ (st out res : List Token), stack_ok st → output_ok out →
      to_postfix_flush out st = .ok res → output_ok res := by
  intro st
  induction st with
  | nil =>
    intro out res _ hout h
    unfold to_postfix_flush at h
    injection h with h
    subst h
    exact hout
  | cons op st ih =>
    intro out res hst hout h
    unfold to_postfix_flush at h
    split at h
    · cases h
    · next hne =>
      apply ih _ res (stack_ok_tail op st hst) _ h
      apply output_ok_append out op hout
      rcases hst op (List.mem_cons_self _ _) with h1 | h1
      · exact Or.inr h1.1
      · exact absurd h1.1 hne

theorem to_postfix_loop_inv (extract : List Char → Option Double) :
    ∀ (fuel : Nat) (t : Tokenizer) (out st res : List Token), stack_ok st → output_ok out →
      to_postfix_loop extract fuel t out st = some (.ok res) → output_ok res := by
  intro fuel
  induction fuel with
  | zero => intro t out st res _ _ h; cases h
  | succ n ih =>
    intro t out st res hst hout h
    unfold to_postfix_loop at h
    cases hn : Tokenizer.next extract t with
    | error e => rw [hn] at h; cases h
    | ok r =>
      cases r with
      | none =>
        rw [hn] at h
        injection h with h
        exact to_postfix_flush_inv st out res hst hout h
      | some p =>
        obtain ⟨token, t1⟩ := p
        rw [hn] at h
        simp only at h
        cases hs : to_postfix_step token out st with
        | error e => rw [hs] at h; cases h
        | ok q =>
          obtain ⟨out1, st1⟩ := q
          rw [hs] at h
          have hinv := to_postfix_step_inv token out st out1 st1
            (next_advances extract t t1 token hn).2 hst hout hs
          exact ih t1 out1 st1 res hinv.2 hinv.1 h

/-- C9: whenever `to_postfix_notation` returns successfully, for every input, the
returned sequence contains only `Operand` and `Operator` tokens: no `LeftBracket` or
`RightBracket` token is in the output. -/
theorem postfix_without_brackets (extract : List Char → Option Double) (tokenizer : Tokenizer)
    (res : List Token)
    (h : to_postfix_notation extract tokenizer = some (.ok res)) :
    ∀ token ∈ res, (token.type = OPERAND ∨ token.type = OPERATOR) ∧
      token.type ≠ LEFT_BRACKET ∧ token.type ≠ RIGHT_BRACKET := by
  intro token hmem
  have hok := to_postfix_loop_inv extract _ tokenizer [] [] res
    (by intro p hp; cases hp) (by intro p hp; cases hp) h token hmem
  refine ⟨hok, ?_, ?_⟩ <;> rcases hok with h1 | h1 <;> rw [h1] <;> decide

/-- C9 at the input `(1 + 2) * 3`, whose conversion is `1 2 + 3 *`, for its third
token `+`. -/
theorem postfix_without_brackets_witness :
    ((Token.of_kind OPERATOR ADD 2).type = OPERAND ∨
      (Token.of_kind OPERATOR ADD 2).type = OPERATOR) ∧
    (Token.of_kind OPERATOR ADD 2).type ≠ LEFT_BRACKET ∧
    (Token.of_kind OPERATOR ADD 2).type ≠ RIGHT_BRACKET :=
  postfix_without_brackets extract_double (Tokenizer.init "(1 + 2) * 3".data)
    [Token.of_value 1, Token.of_value 2, Token.of_kind OPERATOR ADD 2,
      Token.of_value 3, Token.of_kind OPERATOR MUL 3] (by decide!)
    (Token.of_kind OPERATOR ADD 2)
    (List.mem_cons_of_mem _ (List.mem_cons_of_mem _ (List.mem_cons_self _ _)))

/-! ## C2: unbalanced brackets -/

theorem bracket_depth_append (run rest : List Char) (depth : Nat)
    (h : ∀ c ∈ run, c ≠ '(' ∧ c ≠ ')') :
    bracket_depth (run ++ rest) depth = bracket_depth rest depth := by
  induction run with
  | nil => rfl
  | cons c cs ih =>
    have hc := h c (List.mem_cons_self _ _)
    simp only [List.cons_append, bracket_depth, hc.1, hc.2, if_false]
    exact ih (fun x hx => h x (List.mem_cons_of_mem _ hx))

theorem bracket_depth_dropWhile (p : Char → Bool) (s : List Char) (depth : Nat)
    (h : ∀ c, p c = true → c ≠ '(' ∧ c ≠ ')') :
    bracket_depth s depth = bracket_depth (s.dropWhile p) depth := by
  conv_lhs => rw [← List.takeWhile_append_dropWhile p s]
  apply bracket_depth_append
  intro c hc
  exact h c (List.mem_takeWhile_imp hc)

theorem is_operand_not_bracket (c : Char) (h : is_operand c = true) : c ≠ '(' ∧ c ≠ ')' := by
  constructor <;> intro hc <;> subst hc <;> exact absurd h (by decide)

theorem space_not_bracket (c : Char) (h : (c == ' ') = true) : c ≠ '(' ∧ c ≠ ')' := by
  have hc : c = ' ' := by simpa using h
  subst hc
  constructor <;> decide

theorem read_operand_depth (extract : List Char → Option Double) (start : List Char) (v : Double)
    (it : List Char) (depth : Nat) (h : read_operand extract start = .ok (v, it)) :
    bracket_depth start depth = bracket_depth it depth := by
  rw [(read_operand_ok extract start v it h).2]
  exact bracket_depth_dropWhile is_operand start depth is_operand_not_bracket

theorem read_token_depth (extract : List Char → Option Double) (an : Bool) (c : Char)
    (rest cur : List Char) (token : Token) (depth : Nat)
    (h : Tokenizer.read_token extract an c rest = .ok (token, cur)) :
    bracket_depth (c :: rest) depth =
      match token_depth token depth with
      | none => none
      | some d => bracket_depth cur d := by
  unfold Tokenizer.read_token at h
  split at h
  · next hc =>
    injection h with h; injection h with h1 h2; subst h1 h2 hc
    rfl
  split at h
  · next hc =>
    subst hc
    split at h
    · split at h
      · cases h
      · next v it hr =>
        injection h with h; injection h with h1 h2; subst h1 h2
        have := read_operand_depth extract rest v _ depth hr
        simpa [bracket_depth, token_depth, Token.of_value, OPERAND, LEFT_BRACKET, RIGHT_BRACKET]
          using this
    · injection h with h; injection h with h1 h2; subst h1 h2
      rfl
  split at h
  · next hc =>
    injection h with h; injection h with h1 h2; subst h1 h2 hc
    rfl
  split at h
  · next hc =>
    injection h with h; injection h with h1 h2; subst h1 h2 hc
    rfl
  split at h
  · next hc =>
    injection h with h; injection h with h1 h2; subst h1 h2 hc
    rfl
  split at h
  · next hc =>
    injection h with h; injection h with h1 h2; subst h1 h2 hc
    cases depth <;> rfl
  · split at h
    · cases h
    · next v it hr =>
      injection h with h; injection h with e1 e2; subst e1 e2
      have := read_operand_depth extract (c :: rest) v _ depth hr
      simpa [token_depth, Token.of_value, OPERAND, LEFT_BRACKET, RIGHT_BRACKET] using this

theorem next_depth (extract : List Char → Option Double) (t t1 : Tokenizer) (token : Token)
    (depth : Nat) (h : Tokenizer.next extract t = .ok (some (token, t1))) :
    bracket_depth t.cur depth =
      match token_depth token depth with
      | none => none
      | some d => bracket_depth t1.cur d := by
  obtain ⟨c, rest, cur, hd, hr, ht⟩ := next_ok_some extract t t1 token h
  rw [bracket_depth_dropWhile (fun c => c == ' ') t.cur depth space_not_bracket, hd,
    read_token_depth extract _ c rest cur token depth hr, ht]

theorem next_end_depth (extract : List Char → Option Double) (t : Tokenizer) (depth : Nat)
    (h : Tokenizer.next extract t = .ok none) : bracket_depth t.cur depth = some depth := by
  rw [bracket_depth_dropWhile (fun c => c == ' ') t.cur depth space_not_bracket]
  unfold Tokenizer.next at h
  split at h
  · next hd => rw [hd]; rfl
  · split at h <;> cases h

theorem next_error (extract : List Char → Option Double) (t : Tokenizer) (e : Exn)
    (h : Tokenizer.next extract t = .error e) : ∃ text, e = InvalidToken text := by
  unfold Tokenizer.next at h
  split at h
  · cases h
  · next c rest hd =>
    split at h
    · next e1 hr =>
      injection h with h
      subst h
      unfold Tokenizer.read_token at hr
      split at hr
      · cases hr
      split at hr
      · split at hr
        · split at hr
          · next e2 hro =>
            injection hr with hr
            exact ⟨_, hr ▸ read_operand_error extract _ _ hro⟩
          · cases hr
        · cases hr
      split at hr
      · cases hr
      split at hr
      · cases hr
      split at hr
      · cases hr
      split at hr
      · cases hr
      · split at hr
        · next e2 hro =>
          injection hr with hr
          exact ⟨_, hr ▸ read_operand_error extract _ _ hro⟩
        · cases hr
    · cases h

theorem open_brackets_cons (op : Token) (st : List Token) :
    open_brackets (op :: st) =
      open_brackets st + (if op.type = LEFT_BRACKET then 1 else 0) := by
  unfold open_brackets
  rw [List.countP_cons]
  simp

theorem pop_operators_open (token : Token) (htok : 2 ≤ token.precedence) :
    ∀ (st out : List Token), stack_ok st →
      open_brackets (pop_operators token out st).2 = open_brackets st := by
  intro st
  induction st with
  | nil => intro out _; rfl
  | cons op st ih =>
    intro out hst
    unfold pop_operators
    split
    · next hle =>
      rw [ih _ (stack_ok_tail op st hst), open_brackets_cons]
      rcases hst op (List.mem_cons_self _ _) with h | h
      · have : op.type ≠ LEFT_BRACKET := by rw [h.1]; decide
        simp [this]
      · omega
    · rfl

theorem pop_to_left_bracket_open :
    ∀ (st out : List Token),
      (open_brackets st = 0 → (pop_to_left_bracket out st).2 = []) ∧
      (open_brackets st ≠ 0 → ∃ x b, (pop_to_left_bracket out st).2 = x :: b ∧
        open_brackets b + 1 = open_brackets st) := by
  intro st
  induction st with
  | nil => intro out; exact ⟨fun _ => rfl, fun h => absurd rfl h⟩
  | cons op st ih =>
    intro out
    by_cases hty : op.type = LEFT_BRACKET
    · have hp : pop_to_left_bracket out (op :: st) = (out, op :: st) := by
        simp [pop_to_left_bracket, hty]
      rw [hp, open_brackets_cons, if_pos hty]
      exact ⟨fun h => by omega, fun _ => ⟨op, st, rfl, rfl⟩⟩
    · have hp : pop_to_left_bracket out (op :: st) = pop_to_left_bracket (out ++ [op]) st := by
        simp [pop_to_left_bracket, hty]
      rw [hp, open_brackets_cons, if_neg hty, Nat.add_zero]
      exact ih _

theorem token_depth_operand (token : Token) (d : Nat) (h : token.type = OPERAND) :
    token_depth token d = some d := by
  simp [token_depth, h, OPERAND, LEFT_BRACKET, RIGHT_BRACKET]

theorem token_depth_operator (token : Token) (d : Nat) (h : token.type = OPERATOR) :
    token_depth token d = some d := by
  simp [token_depth, h, OPERATOR, LEFT_BRACKET, RIGHT_BRACKET]

theorem token_depth_left (token : Token) (d : Nat) (h : token.type = LEFT_BRACKET) :
    token_depth token d = some (d + 1) := by
  simp [token_depth, h]

theorem token_depth_right_zero (token : Token) (h : token.type = RIGHT_BRACKET) :
    token_depth token 0 = none := by
  simp [token_depth, h, LEFT_BRACKET, RIGHT_BRACKET]

theorem token_depth_right_succ (token : Token) (d : Nat) (h : token.type = RIGHT_BRACKET) :
    token_depth token (d + 1) = some d := by
  simp [token_depth, h, LEFT_BRACKET, RIGHT_BRACKET]

theorem to_postfix_step_operand (token : Token) (out st : List Token)
    (h : token.type = OPERAND) : to_postfix_step token out st = .ok (out ++ [token], st) := by
  simp [to_postfix_step, h]

theorem to_postfix_step_operator (token : Token) (out st : List Token)
    (h : token.type = OPERATOR) :
    to_postfix_step token out st =
      .ok ((pop_operators token out st).1, token :: (pop_operators token out st).2) := by
  simp [to_postfix_step, h, OPERATOR, OPERAND]

theorem to_postfix_step_left (token : Token) (out st : List Token)
    (h : token.type = LEFT_BRACKET) : to_postfix_step token out st = .ok (out, token :: st) := by
  simp [to_postfix_step, h, OPERATOR, OPERAND, LEFT_BRACKET]

theorem to_postfix_step_right (token : Token) (out st : List Token)
    (h : token.type = RIGHT_BRACKET) :
    to_postfix_step token out st =
      match pop_to_left_bracket out st with
      | (_, []) => .error MismatchedParentheses
      | (out1, _ :: st1) => .ok (out1, st1) := by
  simp [to_postfix_step, h, OPERATOR, OPERAND, LEFT_BRACKET, RIGHT_BRACKET]

theorem to_postfix_step_depth (token : Token) (out st : List Token)
    (htok : token.from_tokenizer) (hst : stack_ok st) :
    match token_depth token (open_brackets st) with
    | none => to_postfix_step token out st = .error MismatchedParentheses
    | some d => ∃ out1 st1, to_postfix_step token out st = .ok (out1, st1) ∧
        open_brackets st1 = d := by
  have hc := from_tokenizer_cases token htok
  rcases hc with h | h | h | h
  · rw [token_depth_operand token _ h]
    exact ⟨_, _, to_postfix_step_operand token out st h, rfl⟩
  · rw [token_depth_operator token _ h.1]
    refine ⟨_, _, to_postfix_step_operator token out st h.1, ?_⟩
    have hne : token.type ≠ LEFT_BRACKET := by rw [h.1]; decide
    rw [open_brackets_cons, if_neg hne, Nat.add_zero]
    exact pop_operators_open token h.2 st out hst
  · rw [token_depth_left token _ h.1]
    refine ⟨_, _, to_postfix_step_left token out st h.1, ?_⟩
    rw [open_brackets_cons, if_pos h.1]
  · have h1 := pop_to_left_bracket_open st out
    rw [to_postfix_step_right token out st h]
    rcases hp : pop_to_left_bracket out st with ⟨a, b⟩
    rw [hp] at h1
    simp only at h1
    cases hd : open_brackets st with
    | zero =>
      have hb := h1.1 hd
      subst hb
      rw [token_depth_right_zero token h]
    | succ d =>
      obtain ⟨x, b1, hb, hopen⟩ := h1.2 (by omega)
      subst hb
      rw [token_depth_right_succ token d h]
      exact ⟨a, b1, rfl, by omega⟩

theorem to_postfix_flush_open :
    ∀ (st out : List Token), open_brackets st ≠ 0 →
      to_postfix_flush out st = .error MismatchedParentheses := by
  intro st
  induction st with
  | nil => intro out h; exact absurd rfl h
  | cons op st ih =>
    intro out h
    unfold to_postfix_flush
    split
    · rfl
    · next hne =>
      rw [open_brackets_cons] at h
      simp only [hne, if_false, Nat.add_zero] at h
      exact ih _ h

theorem unbalanced_loop (extract : List Char → Option Double) :
    ∀ (fuel : Nat) (t : Tokenizer) (out st : List Token), t.cur.length < fuel →
      stack_ok st → output_ok out → bracket_depth t.cur (open_brackets st) ≠ some 0 →
      to_postfix_loop extract fuel t out st = some (.error MismatchedParentheses) ∨
      ∃ text, to_postfix_loop extract fuel t out st = some (.error (InvalidToken text)) ∧
        tokenize_loop extract fuel t = some (.error (InvalidToken text)) := by
  intro fuel
  induction fuel with
  | zero => intro t out st h; omega
  | succ n ih =>
    intro t out st hfuel hst hout hdepth
    unfold to_postfix_loop tokenize_loop
    cases hn : Tokenizer.next extract t with
    | error e =>
      obtain ⟨text, he⟩ := next_error extract t e hn
      subst he
      exact Or.inr ⟨text, rfl, rfl⟩
    | ok r =>
      cases r with
      | none =>
        left
        rw [next_end_depth extract t _ hn] at hdepth
        have : open_brackets st ≠ 0 := fun h0 => hdepth (by rw [h0])
        simp only [to_postfix_flush_open st out this]
      | some p =>
        obtain ⟨token, t1⟩ := p
        simp only
        have hadv := next_advances extract t t1 token hn
        rw [next_depth extract t t1 token _ hn] at hdepth
        have hstep := to_postfix_step_depth token out st hadv.2 hst
        cases htd : token_depth token (open_brackets st) with
        | none =>
          rw [htd] at hstep
          simp only at hstep
          left
          rw [hstep]
        | some d =>
          rw [htd] at hstep hdepth
          simp only at hstep hdepth
          obtain ⟨out1, st1, hs, hopen⟩ := hstep
          rw [hs]
          simp only
          have hinv := to_postfix_step_inv token out st out1 st1 hadv.2 hst hout hs
          rw [← hopen] at hdepth
          rcases ih t1 out1 st1 (by omega) hinv.2 hinv.1 hdepth with h | ⟨text, h1, h2⟩
          · exact Or.inl h
          · exact Or.inr ⟨text, h1, by rw [h2]⟩

/-- C2, as the code has it: for every input expression whose brackets are unbalanced
(some `)` has no earlier unmatched `(`, or some `(` is never closed), `calculate` fails,
either with `MismatchedParentheses` or with the `InvalidToken` error that the tokenizer
raises on this input; whenever the tokenizer reads the whole input without error, the
failure is `MismatchedParentheses` (text `mismatched parentheses`), wherever the
unmatched bracket is; so it is for `(1 + 2 * 3 * 4` and `1 + 2) * 3 * 4)`. -/
theorem unbalanced_brackets_fail (extract : List Char → Option Double) (expr : String)
    (h : ¬ balanced expr.data) :
    (calculate extract expr = some (.error (Exn.invalid_argument "mismatched parentheses")) ∨
      ∃ text, calculate extract expr = some (.error (InvalidToken text)) ∧
        tokenize extract expr = some (.error (InvalidToken text))) ∧
    (∀ res, tokenize extract expr = some (.ok res) →
      calculate extract expr = some (.error MismatchedParentheses)) ∧
    calculate extract_double "(1 + 2 * 3 * 4" = some (.error MismatchedParentheses) ∧
    calculate extract_double "1 + 2) * 3 * 4)" = some (.error MismatchedParentheses) := by
  have key := unbalanced_loop extract (expr.data.length + 1) (Tokenizer.init expr.data) [] []
    (by simp [Tokenizer.init]) (by intro p hp; cases hp) (by intro p hp; cases hp) h
  have hcalc : ∀ e, to_postfix_loop extract (expr.data.length + 1) (Tokenizer.init expr.data)
      [] [] = some (.error e) → calculate extract expr = some (.error e) := by
    intro e he
    have he1 : to_postfix_notation extract (Tokenizer.init expr.data) = some (.error e) := he
    simp [calculate, he1]
  have first : calculate extract expr = some (.error MismatchedParentheses) ∨
      ∃ text, calculate extract expr = some (.error (InvalidToken text)) ∧
        tokenize extract expr = some (.error (InvalidToken text)) := by
    rcases key with h1 | ⟨text, h1, h2⟩
    · exact Or.inl (hcalc _ h1)
    · exact Or.inr ⟨text, hcalc _ h1, h2⟩
  refine ⟨first, ?_, by decide!, by decide!⟩
  intro res hres
  rcases first with h1 | ⟨text, _, h2⟩
  · exact h1
  · rw [h2] at hres
    cases hres

/-- C2 (amended) at the inputs of the tests, `(1 + 2 * 3 * 4`. -/
theorem unbalanced_brackets_fail_witness :
    (calculate extract_double "(1 + 2 * 3 * 4" =
        some (.error (Exn.invalid_argument "mismatched parentheses")) ∨
      ∃ text, calculate extract_double "(1 + 2 * 3 * 4" = some (.error (InvalidToken text)) ∧
        tokenize extract_double "(1 + 2 * 3 * 4" = some (.error (InvalidToken text))) :=
  (unbalanced_brackets_fail extract_double "(1 + 2 * 3 * 4" (by decide)).1

/-- C2 as stated fails: the brackets of `(a` are unbalanced, yet `calculate` fails with
`InvalidToken` (text `bad token a`), not with `MismatchedParentheses`; the same happens
for `1 + a)`. -/
theorem unbalanced_brackets_counterexample :
    ¬ balanced "(a".data ∧
    calculate extract_double "(a" = some (.error (Exn.invalid_argument "bad token a")) ∧
    calculate extract_double "(a" ≠ some (.error MismatchedParentheses) ∧
    ¬ balanced "1 + a)".data ∧
    calculate extract_double "1 + a)" = some (.error (Exn.invalid_argument "bad token a")) := by
  refine ⟨by decide, by decide!, by decide!, by decide, by decide!⟩

/-! ## C1: the value of a well-formed expression -/

theorem dropWhile_spaces_replicate (sp : Nat) (c : Char) (rest : List Char) (hc : c ≠ ' ') :
    (List.replicate sp ' ' ++ c :: rest).dropWhile (fun c => c == ' ') = c :: rest := by
  induction sp with
  | zero => simp [hc]
  | succ n ih => simpa [List.replicate_succ] using ih

theorem takeWhile_run (text rest : List Char) (htext : ∀ c ∈ text, is_operand c = true)
    (hrest : starts_with_separator rest) :
    (text ++ rest).takeWhile is_operand = text ∧ (text ++ rest).dropWhile is_operand = rest := by
  induction text with
  | nil =>
    rcases hrest with h | ⟨c, r, h, hc⟩
    · subst h; simp
    · subst h; simp [hc]
  | cons c cs ih =>
    have hc := htext c (List.mem_cons_self _ _)
    have := ih (fun x hx => htext x (List.mem_cons_of_mem _ hx))
    simp [hc, this.1, this.2]

theorem read_operand_run (extract : List Char → Option Double) (text rest : List Char) (v : Double)
    (htext : ∀ c ∈ text, is_operand c = true) (hrest : starts_with_separator rest)
    (hv : extract (text.map comma_to_dot) = some v) :
    read_operand extract (text ++ rest) = .ok (v, rest) := by
  have h := takeWhile_run text rest htext hrest
  simp [read_operand, h.1, h.2, hv]

theorem is_literal_value (extract : List Char → Option Double) (text : List Char)
    (h : is_literal extract text) :
    extract (text.map comma_to_dot) = some (literal_value extract text) := by
  unfold literal_value
  cases hx : extract (text.map comma_to_dot) with
  | none =>
    have := h.2.2
    rw [hx] at this
    cases this
  | some v => rfl

theorem is_operand_ne (c : Char) (h : is_operand c = true) :
    c ≠ ' ' ∧ c ≠ '+' ∧ c ≠ '-' ∧ c ≠ '*' ∧ c ≠ '/' ∧ c ≠ '(' ∧ c ≠ ')' := by
  refine ⟨?_, ?_, ?_, ?_, ?_, ?_, ?_⟩ <;> intro hc <;> subst hc <;> exact absurd h (by decide)

theorem next_lit (extract : List Char → Option Double) (sp : Nat) (text rest : List Char)
    (an : Bool) (h : is_literal extract text) (hrest : starts_with_separator rest) :
    Tokenizer.next extract ⟨List.replicate sp ' ' ++ text ++ rest, an⟩ =
      .ok (some (Token.of_value (literal_value extract text), ⟨rest, false⟩)) := by
  obtain ⟨hne, hop, _⟩ := h
  have hv := is_literal_value extract text ⟨hne, hop, ‹_›⟩
  cases text with
  | nil => exact absurd rfl hne
  | cons c cs =>
    have hc := is_operand_ne c (hop c (List.mem_cons_self _ _))
    have hr := read_operand_run extract (c :: cs) rest _ hop hrest hv
    have hd : (List.replicate sp ' ' ++ (c :: cs) ++ rest).dropWhile (fun c => c == ' ') =
        c :: (cs ++ rest) := by
      rw [List.append_assoc]
      exact dropWhile_spaces_replicate sp c (cs ++ rest) hc.1
    unfold Tokenizer.next
    simp only [hd]
    rw [List.cons_append] at hr
    simp [Tokenizer.read_token, hc, hr, Token.of_value]

theorem next_neg (extract : List Char → Option Double) (sp : Nat) (text rest : List Char)
    (h : is_literal extract text) (hrest : starts_with_separator rest) :
    Tokenizer.next extract ⟨List.replicate sp ' ' ++ '-' :: text ++ rest, true⟩ =
      .ok (some (Token.of_value (-(literal_value extract text)), ⟨rest, false⟩)) := by
  have hv := is_literal_value extract text h
  have hr := read_operand_run extract text rest _ h.2.1 hrest hv
  have hd : (List.replicate sp ' ' ++ '-' :: text ++ rest).dropWhile (fun c => c == ' ') =
      '-' :: (text ++ rest) := by
    rw [List.append_assoc]
    exact dropWhile_spaces_replicate sp '-' (text ++ rest) (by decide)
  rw [next_minus extract _ (text ++ rest) hd]
  simp [hr]

theorem next_operator (extract : List Char → Option Double) (sp : Nat) (op : BinOp)
    (rest : List Char) :
    Tokenizer.next extract ⟨List.replicate sp ' ' ++ op.char :: rest, false⟩ =
      .ok (some (op.token, ⟨rest, true⟩)) := by
  have hd : (List.replicate sp ' ' ++ op.char :: rest).dropWhile (fun c => c == ' ') =
      op.char :: rest :=
    dropWhile_spaces_replicate sp op.char rest (by cases op <;> decide)
  unfold Tokenizer.next
  simp only [hd]
  cases op <;>
    simp [Tokenizer.read_token, BinOp.char, BinOp.token, Token.of_kind, OPERATOR, OPERAND,
      RIGHT_BRACKET]

theorem next_left_bracket (extract : List Char → Option Double) (sp : Nat) (rest : List Char)
    (an : Bool) :
    Tokenizer.next extract ⟨List.replicate sp ' ' ++ '(' :: rest, an⟩ =
      .ok (some (Token.of_kind LEFT_BRACKET 0 1, ⟨rest, true⟩)) := by
  have hd := dropWhile_spaces_replicate sp '(' rest (by decide)
  unfold Tokenizer.next
  simp only [hd]
  simp [Tokenizer.read_token, Token.of_kind, OPERAND, LEFT_BRACKET, RIGHT_BRACKET]

theorem next_right_bracket (extract : List Char → Option Double) (sp : Nat) (rest : List Char)
    (an : Bool) :
    Tokenizer.next extract ⟨List.replicate sp ' ' ++ ')' :: rest, an⟩ =
      .ok (some (Token.of_kind RIGHT_BRACKET 0 1, ⟨rest, false⟩)) := by
  have hd := dropWhile_spaces_replicate sp ')' rest (by decide)
  unfold Tokenizer.next
  simp only [hd]
  simp [Tokenizer.read_token, Token.of_kind, OPERAND, LEFT_BRACKET, RIGHT_BRACKET]

theorem Yields.append {extract : List Char → Option Double} {t t1 t2 : Tokenizer}
    {ts1 ts2 : List Token} (h1 : Yields extract t ts1 t1) (h2 : Yields extract t1 ts2 t2) :
    Yields extract t (ts1 ++ ts2) t2 := by
  induction h1 with
  | nil t => exact h2
  | cons hn _ ih => exact Yields.cons hn (ih h2)

theorem Yields.single {extract : List Char → Option Double} {t t1 : Tokenizer} {token : Token}
    (h : Tokenizer.next extract t = .ok (some (token, t1))) : Yields extract t [token] t1 :=
  Yields.cons h (Yields.nil t1)

theorem starts_with_separator_spaces (sp : Nat) (c : Char) (rest : List Char)
    (hc : is_operand c = false) : starts_with_separator (List.replicate sp ' ' ++ c :: rest) := by
  cases sp with
  | zero => exact Or.inr ⟨c, rest, rfl, hc⟩
  | succ n => exact Or.inr ⟨' ', List.replicate n ' ' ++ c :: rest, rfl, by decide⟩

theorem starts_with_separator_replicate (k : Nat) :
    starts_with_separator (List.replicate k ' ') := by
  cases k with
  | zero => exact Or.inl rfl
  | succ n => exact Or.inr ⟨' ', List.replicate n ' ', rfl, by decide⟩

theorem render_yields (extract : List Char → Option Double) (e : Expr) (hvalid : e.valid extract) :
    ∀ rest : List Char, starts_with_separator rest →
      Yields extract ⟨e.render ++ rest, true⟩ (e.tokens extract) ⟨rest, false⟩ := by
  induction e with
  | lit sp text =>
    intro rest hrest
    exact Yields.single (next_lit extract sp text rest true hvalid hrest)
  | neg sp text =>
    intro rest hrest
    exact Yields.single (next_neg extract sp text rest hvalid hrest)
  | paren sp e sp1 ih =>
    intro rest hrest
    have h1 := next_left_bracket extract sp
      (e.render ++ (List.replicate sp1 ' ' ++ ')' :: rest)) true
    have h2 := ih hvalid (List.replicate sp1 ' ' ++ ')' :: rest)
      (starts_with_separator_spaces sp1 ')' rest (by decide))
    have h3 := next_right_bracket extract sp1 rest false
    have hr : (Expr.paren sp e sp1).render ++ rest =
        List.replicate sp ' ' ++ '(' :: (e.render ++ (List.replicate sp1 ' ' ++ ')' :: rest)) := by
      simp [Expr.render]
    rw [hr]
    exact Yields.cons h1 (Yields.append h2 (Yields.single h3))
  | bin l sp op r ihl ihr =>
    intro rest hrest
    obtain ⟨hl, hr, _, _⟩ := hvalid
    have h1 := ihl hl (List.replicate sp ' ' ++ op.char :: (r.render ++ rest))
      (starts_with_separator_spaces sp op.char _ (by cases op <;> decide))
    have h2 := next_operator extract sp op (r.render ++ rest)
    have h3 := ihr hr rest hrest
    have hrender : (Expr.bin l sp op r).render ++ rest =
        l.render ++ (List.replicate sp ' ' ++ op.char :: (r.render ++ rest)) := by
      simp [Expr.render]
    rw [hrender]
    exact Yields.append h1 (Yields.cons h2 h3)

theorem yields_loop (extract : List Char → Option Double) {t t1 : Tokenizer} {tokens : List Token}
    (hy : Yields extract t tokens t1) :
    ∀ (out st out1 st1 : List Token) (fuel : Nat), t.cur.length < fuel →
      to_postfix_steps tokens out st = .ok (out1, st1) →
      to_postfix_loop extract fuel t out st =
        to_postfix_loop extract (t1.cur.length + 1) t1 out1 st1 := by
  induction hy with
  | nil t =>
    intro out st out1 st1 fuel hfuel hs
    unfold to_postfix_steps at hs
    injection hs with hs
    injection hs with h1 h2
    subst h1 h2
    exact loop_fuel_indep extract _ _ t out st hfuel (by omega)
  | @cons ta tb tc token ts hn _ ih =>
    intro out st out1 st1 fuel hfuel hs
    have hadv := (next_advances extract ta tb token hn).1
    cases fuel with
    | zero => omega
    | succ n =>
      unfold to_postfix_loop
      rw [hn]
      simp only
      unfold to_postfix_steps at hs
      cases hstep : to_postfix_step token out st with
      | error e => rw [hstep] at hs; cases hs
      | ok q =>
        obtain ⟨oa, sa⟩ := q
        rw [hstep] at hs
        exact ih oa sa out1 st1 n (by omega) hs

theorem next_spaces (extract : List Char → Option Double) (k : Nat) (an : Bool) :
    Tokenizer.next extract ⟨List.replicate k ' ', an⟩ = .ok none := by
  have : (List.replicate k ' ').dropWhile (fun c => c == ' ') = [] :=
    dropWhile_spaces_eq_nil _ (fun c hc => List.eq_of_mem_replicate hc)
  simp [Tokenizer.next, this]

theorem to_postfix_steps_append (ts1 ts2 : List Token) :
    ∀ (out st : List Token), to_postfix_steps (ts1 ++ ts2) out st =
      match to_postfix_steps ts1 out st with
      | .error e => .error e
      | .ok (out1, st1) => to_postfix_steps ts2 out1 st1 := by
  induction ts1 with
  | nil => intro out st; rfl
  | cons token ts ih =>
    intro out st
    simp only [List.cons_append, to_postfix_steps]
    cases to_postfix_step token out st with
    | error e => rfl
    | ok q => exact ih q.1 q.2

theorem pop_operators_all (token : Token) :
    ∀ (pending out st : List Token), (∀ p ∈ pending, token.precedence ≤ p.precedence) →
      (∀ top rest, st = top :: rest → top.precedence < token.precedence) →
      pop_operators token out (pending ++ st) = (out ++ pending, st) := by
  intro pending
  induction pending with
  | nil =>
    intro out st _ hst
    cases st with
    | nil => simp [pop_operators]
    | cons top rest =>
      have := hst top rest rfl
      simp only [List.nil_append, pop_operators, List.append_nil]
      rw [if_neg (by omega)]
  | cons p ps ih =>
    intro out st hp hst
    have hrec := ih (out ++ [p]) st (fun q hq => hp q (List.mem_cons_of_mem _ hq)) hst
    rw [List.cons_append, pop_operators, if_pos (hp p (List.mem_cons_self _ _)), hrec]
    simp

theorem pop_to_left_bracket_all :
    ∀ (pending out : List Token) (lb : Token) (st : List Token),
      (∀ p ∈ pending, p.type = OPERATOR) → lb.type = LEFT_BRACKET →
      pop_to_left_bracket out (pending ++ lb :: st) = (out ++ pending, lb :: st) := by
  intro pending
  induction pending with
  | nil =>
    intro out lb st _ hlb
    simp [pop_to_left_bracket, hlb]
  | cons p ps ih =>
    intro out lb st hp hlb
    have hne : p.type ≠ LEFT_BRACKET := by
      rw [hp p (List.mem_cons_self _ _)]; decide
    have hrec := ih (out ++ [p]) lb st (fun q hq => hp q (List.mem_cons_of_mem _ hq)) hlb
    rw [List.cons_append, pop_to_left_bracket, if_pos hne, hrec]
    simp

theorem to_postfix_flush_operators :
    ∀ (pending out : List Token), (∀ p ∈ pending, p.type = OPERATOR) →
      to_postfix_flush out pending = .ok (out ++ pending) := by
  intro pending
  induction pending with
  | nil => intro out _; simp [to_postfix_flush]
  | cons p ps ih =>
    intro out hp
    have hne : p.type ≠ LEFT_BRACKET := by
      rw [hp p (List.mem_cons_self _ _)]; decide
    simp only [to_postfix_flush]
    rw [if_neg hne, ih (out ++ [p]) (fun q hq => hp q (List.mem_cons_of_mem _ hq))]
    simp

theorem BinOp.token_type (op : BinOp) : op.token.type = OPERATOR := by
  cases op <;> rfl

theorem BinOp.token_precedence (op : BinOp) : op.token.precedence = (op.level : Int) := by
  cases op <;> rfl

theorem Expr.two_le_level (e : Expr) : 2 ≤ e.level := by
  cases e with
  | lit sp text => simp [Expr.level]
  | neg sp text => simp [Expr.level]
  | paren sp e sp1 => simp [Expr.level]
  | bin l sp op r => cases op <;> simp [Expr.level, BinOp.level]

theorem to_postfix_step_value (v : Double) (out st : List Token) :
    to_postfix_step (Token.of_value v) out st = .ok (out ++ [Token.of_value v], st) :=
  to_postfix_step_operand (Token.of_value v) out st rfl

theorem to_postfix_step_lb (out st : List Token) :
    to_postfix_step (Token.of_kind LEFT_BRACKET 0 1) out st =
      .ok (out, Token.of_kind LEFT_BRACKET 0 1 :: st) :=
  to_postfix_step_left (Token.of_kind LEFT_BRACKET 0 1) out st rfl

theorem to_postfix_step_rb (out st : List Token) :
    to_postfix_step (Token.of_kind RIGHT_BRACKET 0 1) out st =
      match pop_to_left_bracket out st with
      | (_, []) => .error MismatchedParentheses
      | (out1, _ :: st1) => .ok (out1, st1) :=
  to_postfix_step_right (Token.of_kind RIGHT_BRACKET 0 1) out st rfl

theorem to_postfix_steps_cons (token : Token) (tokens out st : List Token) :
    to_postfix_steps (token :: tokens) out st =
      match to_postfix_step token out st with
      | .error e => .error e
      | .ok (out1, st1) => to_postfix_steps tokens out1 st1 := rfl

theorem to_postfix_steps_nil (out st : List Token) :
    to_postfix_steps [] out st = .ok (out, st) := rfl

theorem shunting_yard (extract : List Char → Option Double) (e : Expr) (hvalid : e.valid extract) :
    ∀ (out st : List Token),
      (∀ top rest, st = top :: rest → top.precedence < (e.level : Int)) →
      ∃ done pending, to_postfix_steps (e.tokens extract) out st = .ok (out ++ done, pending ++ st) ∧
        done ++ pending = e.rpn extract ∧
        ∀ p ∈ pending, p.type = OPERATOR ∧ (e.level : Int) ≤ p.precedence := by
  induction e with
  | lit sp text =>
    intro out st _
    refine ⟨[Token.of_value (literal_value extract text)], [], ?_, rfl, ?_⟩
    · rw [Expr.tokens, to_postfix_steps_cons, to_postfix_step_value]
      rfl
    · intro p hp; cases hp
  | neg sp text =>
    intro out st _
    refine ⟨[Token.of_value (-(literal_value extract text))], [], ?_, rfl, ?_⟩
    · rw [Expr.tokens, to_postfix_steps_cons, to_postfix_step_value]
      rfl
    · intro p hp; cases hp
  | paren sp e sp1 ih =>
    intro out st _
    have hlev := Expr.two_le_level e
    obtain ⟨done, pending, hsteps, hrpn, hpend⟩ := ih hvalid out (Token.of_kind LEFT_BRACKET 0 1 :: st)
      (by
        intro top rest h
        injection h with h1 h2
        subst h1
        show (1 : Int) < (e.level : Int)
        omega)
    refine ⟨done ++ pending, [], ?_, by simpa [Expr.rpn] using hrpn, ?_⟩
    · have hpop := pop_to_left_bracket_all pending (out ++ done) (Token.of_kind LEFT_BRACKET 0 1) st
        (fun p hp => (hpend p hp).1) rfl
      rw [Expr.tokens, to_postfix_steps_cons, to_postfix_step_lb]
      simp only
      rw [to_postfix_steps_append, hsteps]
      simp only
      rw [to_postfix_steps_cons, to_postfix_step_rb, hpop]
      simp [to_postfix_steps_nil]
    · intro p hp; cases hp
  | bin l sp op r ihl ihr =>
    intro out st hst
    obtain ⟨hl, hr, hlevl, hlevr⟩ := hvalid
    have hst1 : ∀ top rest, st = top :: rest → top.precedence < (op.level : Int) := hst
    obtain ⟨dl, pl, hsl, hrl, hpl⟩ := ihl hl out st
      (by intro top rest h; have := hst1 top rest h; omega)
    have hpop := pop_operators_all op.token pl (out ++ dl) st
      (by
        intro p hp
        have := (hpl p hp).2
        rw [BinOp.token_precedence]
        omega)
      (by
        intro top rest h
        rw [BinOp.token_precedence]
        exact hst1 top rest h)
    obtain ⟨dr, pr, hsr, hrr, hpr⟩ := ihr hr (out ++ dl ++ pl) (op.token :: st)
      (by
        intro top rest h
        injection h with h1 h2
        subst h1
        rw [BinOp.token_precedence]
        omega)
    refine ⟨dl ++ pl ++ dr, pr ++ [op.token], ?_, ?_, ?_⟩
    · rw [Expr.tokens, to_postfix_steps_append, hsl]
      simp only
      rw [to_postfix_steps_cons, to_postfix_step_operator _ _ _ (BinOp.token_type op), hpop]
      simp only
      rw [hsr]
      simp
    · simp only [Expr.rpn, ← hrl, ← hrr]
      simp
    · intro p hp
      rw [List.mem_append, List.mem_singleton] at hp
      rcases hp with hp | hp
      · have := hpr p hp
        refine ⟨this.1, ?_⟩
        show (op.level : Int) ≤ p.precedence
        omega
      · subst hp
        exact ⟨BinOp.token_type op, by rw [BinOp.token_precedence]; rfl⟩

theorem evaluate_operation_apply (op : BinOp) (a b : Token) (v : Double)
    (h : op.apply a.value b.value = some v) : evaluate_operation op.token a b = .ok v := by
  cases op
  · simp only [BinOp.apply, Option.some.injEq] at h
    simp [evaluate_operation, BinOp.token, Token.of_kind, ADD, h]
  · simp only [BinOp.apply, Option.some.injEq] at h
    simp [evaluate_operation, BinOp.token, Token.of_kind, ADD, SUB, h]
  · simp only [BinOp.apply, Option.some.injEq] at h
    simp [evaluate_operation, BinOp.token, Token.of_kind, ADD, SUB, MUL, h]
  · simp only [BinOp.apply] at h
    split at h
    · cases h
    · next hb =>
      injection h with h
      simp [evaluate_operation, BinOp.token, Token.of_kind, ADD, SUB, MUL, DIV, hb, h]

theorem evaluate_loop_operand (v : Double) (rest stack : List Token) :
    evaluate_loop (Token.of_value v :: rest) stack =
      evaluate_loop rest (Token.of_value v :: stack) := by
  simp [evaluate_loop, Token.of_value, OPERAND, OPERATOR]

theorem evaluate_loop_rpn (extract : List Char → Option Double) (e : Expr) :
    ∀ (v : Double), e.value extract = some v → ∀ (rest stack : List Token),
      evaluate_loop (e.rpn extract ++ rest) stack =
        evaluate_loop rest (Token.of_value v :: stack) := by
  induction e with
  | lit sp text =>
    intro v hv rest stack
    simp only [Expr.value] at hv
    simp only [Expr.rpn, literal_value, hv, Option.getD_some, List.singleton_append]
    exact evaluate_loop_operand v rest stack
  | neg sp text =>
    intro v hv rest stack
    simp only [Expr.value] at hv
    cases hx : extract (text.map comma_to_dot) with
    | none => rw [hx] at hv; cases hv
    | some x =>
      rw [hx] at hv
      injection hv with hv
      subst hv
      simp only [Expr.rpn, literal_value, hx, Option.getD_some, List.singleton_append]
      exact evaluate_loop_operand (-x) rest stack
  | paren sp e sp1 ih =>
    intro v hv rest stack
    exact ih v hv rest stack
  | bin l sp op r ihl ihr =>
    intro v hv rest stack
    simp only [Expr.value] at hv
    cases hlv : l.value extract with
    | none => rw [hlv] at hv; cases hv
    | some a =>
      cases hrv : r.value extract with
      | none => rw [hlv, hrv] at hv; cases hv
      | some b =>
        rw [hlv, hrv] at hv
        simp only at hv
        have hop := evaluate_operation_apply op (Token.of_value a) (Token.of_value b) v hv
        simp only [Expr.rpn, List.append_assoc]
        rw [ihl a hlv, ihr b hrv]
        simp only [List.singleton_append, evaluate_loop, BinOp.token_type, if_true, hop]
        rfl


/-- C1, as the code has it: for every syntactically valid infix expression over the supported
grammar (numeric literals, binary `+ - * /`, brackets, and unary minus, which the
tokenizer reads as a minus sign immediately followed by a numeric literal), given as a
parse tree that respects standard precedence (`*` and `/` bind tighter than `+` and `-`)
and left associativity and written with any number of spaces before each token and at the
end, whose evaluation in `double` arithmetic involves no division by zero, `calculate`
returns `round (v * 100) / 100` computed in `double` arithmetic, where `v` is the value
of the parse tree computed in `double` arithmetic: every literal is read as a `double`
and every operation is rounded to the nearest `double`; `1 + 2 * 3` gives 7 and
`-10 + (8 * 2.5) - (3 / 1,5)` gives 8. -/
theorem calculate_correct (extract : List Char → Option Double) (e : Expr) (k : Nat) (v : Double)
    (hvalid : e.valid extract) (hvalue : e.value extract = some v) :
    calculate extract (String.mk (e.render ++ List.replicate k ' ')) = some (.ok (round2 v)) ∧
    to_postfix_notation extract (Tokenizer.init (e.render ++ List.replicate k ' ')) =
      some (.ok (e.rpn extract)) ∧
    calculate extract_double "1 + 2 * 3" = some (.ok 7) ∧
    calculate extract_double "-10 + (8 * 2.5) - (3 / 1,5)" = some (.ok 8) := by
  have hy := render_yields extract e hvalid (List.replicate k ' ')
    (starts_with_separator_replicate k)
  obtain ⟨done, pending, hsteps, hrpn, hpend⟩ := shunting_yard extract e hvalid [] []
    (by intro top rest h; cases h)
  have hloop := yields_loop extract hy [] [] _ _
    ((e.render ++ List.replicate k ' ').length + 1) (by simp) hsteps
  have hconv : to_postfix_notation extract (Tokenizer.init (e.render ++ List.replicate k ' ')) =
      some (.ok (e.rpn extract)) := by
    unfold to_postfix_notation Tokenizer.init
    rw [hloop]
    unfold to_postfix_loop
    rw [next_spaces]
    simp only [List.nil_append, List.append_nil]
    rw [to_postfix_flush_operators pending done (fun p hp => (hpend p hp).1), hrpn]
  refine ⟨?_, hconv, by decide!, by decide!⟩
  have heval := evaluate_loop_rpn extract e v hvalue [] []
  rw [List.append_nil] at heval
  unfold calculate
  rw [hconv]
  simp only
  unfold evaluate_postfix_notation
  rw [heval]
  rfl

/-- C1 at the parse tree of `1 + 2 * 3` (the product is the right operand of the sum),
whose value is 7. -/
theorem calculate_correct_witness :
    calculate extract_double (String.mk ((Expr.bin (Expr.lit 0 ['1']) 1 BinOp.add
        (Expr.bin (Expr.lit 1 ['2']) 1 BinOp.mul (Expr.lit 1 ['3']))).render ++
        List.replicate 0 ' ')) = some (.ok (round2 7)) :=
  (calculate_correct extract_double
    (Expr.bin (Expr.lit 0 ['1']) 1 BinOp.add
      (Expr.bin (Expr.lit 1 ['2']) 1 BinOp.mul (Expr.lit 1 ['3']))) 0 7
    ⟨⟨by decide, by decide, by decide!⟩,
      ⟨⟨by decide, by decide, by decide!⟩, ⟨by decide, by decide, by decide!⟩,
        by decide, by decide⟩,
      by decide, by decide⟩
    (by decide!)).1

/-- C1 as stated fails for `double` values: the expression
`9007199254740993 - 9007199254740992` is valid and its mathematical value is 1, but the
first literal is read as the `double` `9007199254740992` and `calculate` returns 0; the
literal `1.005` has the mathematical value 1.005, which rounds to 1.01, but it is read as
a `double` below 1.005 and `calculate` returns 1. -/
theorem calculate_not_exact :
    (Expr.bin (Expr.lit 0 "9007199254740993".data) 1 BinOp.sub
      (Expr.lit 1 "9007199254740992".data)).valid extract_double ∧
    (Expr.bin (Expr.lit 0 "9007199254740993".data) 1 BinOp.sub
      (Expr.lit 1 "9007199254740992".data)).render =
      "9007199254740993 - 9007199254740992".data ∧
    (Expr.bin (Expr.lit 0 "9007199254740993".data) 1 BinOp.sub
      (Expr.lit 1 "9007199254740992".data)).exact_value = some 1 ∧
    round2_exact 1 = 1 ∧
    calculate extract_double "9007199254740993 - 9007199254740992" = some (.ok 0) ∧
    (0 : Double).exact = some 0 ∧
    (Expr.lit 0 "1.005".data).valid extract_double ∧
    (Expr.lit 0 "1.005".data).exact_value = some (201 / 200) ∧
    round2_exact (201 / 200) = 101 / 100 ∧
    calculate extract_double "1.005" = some (.ok 1) ∧
    (1 : Double).exact = some 1 := by
  refine ⟨⟨⟨by decide, by decide, by decide!⟩, ⟨by decide, by decide, by decide!⟩,
    by decide, by decide⟩, by decide, by decide!, by decide!, by decide!, by decide!,
    ⟨by decide, by decide, by decide!⟩, by decide!, by decide!, by decide!, by decide!⟩

/-! ## The token loop and the token sequence -/

theorem tokenize_loop_fuel_indep (extract : List Char → Option Double) :
    ∀ (fuel1 fuel2 : Nat) (t : Tokenizer), t.cur.length < fuel1 → t.cur.length < fuel2 →
      tokenize_loop extract fuel1 t = tokenize_loop extract fuel2 t := by
  intro fuel1
  induction fuel1 with
  | zero => intro fuel2 t h; omega
  | succ n ih =>
    intro fuel2 t h1 h2
    cases fuel2 with
    | zero => omega
    | succ m =>
      unfold tokenize_loop
      cases hn : Tokenizer.next extract t with
      | error e => rfl
      | ok r =>
        cases r with
        | none => rfl
        | some p =>
          obtain ⟨token, t1⟩ := p
          have hlt := (next_advances extract t t1 token hn).1
          simp only
          rw [ih m t1 (by omega) (by omega)]

theorem yields_tokenize (extract : List Char → Option Double) {t t1 : Tokenizer}
    {tokens : List Token} (hy : Yields extract t tokens t1)
    (hend : Tokenizer.next extract t1 = .ok none) :
    ∀ fuel, t.cur.length < fuel → tokenize_loop extract fuel t = some (.ok tokens) := by
  induction hy with
  | nil t =>
    intro fuel hfuel
    cases fuel with
    | zero => omega
    | succ n =>
      unfold tokenize_loop
      rw [hend]
  | @cons ta tb tc token ts hn _ ih =>
    intro fuel hfuel
    have hadv := (next_advances extract ta tb token hn).1
    cases fuel with
    | zero => omega
    | succ n =>
      unfold tokenize_loop
      rw [hn]
      simp only
      rw [ih hend n (by omega)]

theorem tokenize_yields (extract : List Char → Option Double) :
    ∀ (fuel : Nat) (t : Tokenizer) (tokens : List Token),
      tokenize_loop extract fuel t = some (.ok tokens) →
      ∃ t1, Yields extract t tokens t1 ∧ Tokenizer.next extract t1 = .ok none := by
  intro fuel
  induction fuel with
  | zero => intro t tokens h; cases h
  | succ n ih =>
    intro t tokens h
    unfold tokenize_loop at h
    cases hn : Tokenizer.next extract t with
    | error e => rw [hn] at h; cases h
    | ok r =>
      cases r with
      | none =>
        rw [hn] at h
        injection h with h
        injection h with h
        subst h
        exact ⟨t, Yields.nil t, hn⟩
      | some p =>
        obtain ⟨token, ta⟩ := p
        rw [hn] at h
        simp only at h
        cases hrec : tokenize_loop extract n ta with
        | none => rw [hrec] at h; cases h
        | some r =>
          cases r with
          | error e => rw [hrec] at h; cases h
          | ok res =>
            rw [hrec] at h
            injection h with h
            injection h with h
            subst h
            obtain ⟨t1, hy, hend⟩ := ih ta res hrec
            exact ⟨t1, Yields.cons hn hy, hend⟩

theorem yields_from_tokenizer (extract : List Char → Option Double) {t t1 : Tokenizer}
    {tokens : List Token} (hy : Yields extract t tokens t1) :
    ∀ token ∈ tokens, token.from_tokenizer := by
  induction hy with
  | nil t => intro token h; cases h
  | @cons ta tb tc tok ts hn _ ih =>
    intro token h
    rw [List.mem_cons] at h
    rcases h with h | h
    · rw [h]; exact (next_advances extract ta tb tok hn).2
    · exact ih token h

theorem yields_loop_full (extract : List Char → Option Double) {t t1 : Tokenizer}
    {tokens : List Token} (hy : Yields extract t tokens t1)
    (hend : Tokenizer.next extract t1 = .ok none) :
    ∀ (out st : List Token) (fuel : Nat), t.cur.length < fuel →
      to_postfix_loop extract fuel t out st = some (to_postfix_tokens tokens out st) := by
  induction hy with
  | nil t =>
    intro out st fuel hfuel
    cases fuel with
    | zero => omega
    | succ n =>
      unfold to_postfix_loop
      rw [hend]
      rfl
  | @cons ta tb tc token ts hn _ ih =>
    intro out st fuel hfuel
    have hadv := (next_advances extract ta tb token hn).1
    cases fuel with
    | zero => omega
    | succ n =>
      unfold to_postfix_loop
      rw [hn]
      simp only
      unfold to_postfix_tokens to_postfix_steps
      cases hstep : to_postfix_step token out st with
      | error e => rfl
      | ok q =>
        obtain ⟨oa, sa⟩ := q
        simp only
        rw [ih hend oa sa n (by omega)]
        rfl

theorem loop_ok_yields (extract : List Char → Option Double) :
    ∀ (fuel : Nat) (t : Tokenizer) (out st res : List Token),
      to_postfix_loop extract fuel t out st = some (.ok res) →
      ∃ tokens t1, Yields extract t tokens t1 ∧ Tokenizer.next extract t1 = .ok none ∧
        to_postfix_tokens tokens out st = .ok res := by
  intro fuel
  induction fuel with
  | zero => intro t out st res h; cases h
  | succ n ih =>
    intro t out st res h
    unfold to_postfix_loop at h
    cases hn : Tokenizer.next extract t with
    | error e => rw [hn] at h; cases h
    | ok r =>
      cases r with
      | none =>
        rw [hn] at h
        injection h with h
        exact ⟨[], t, Yields.nil t, hn, h⟩
      | some p =>
        obtain ⟨token, ta⟩ := p
        rw [hn] at h
        simp only at h
        cases hstep : to_postfix_step token out st with
        | error e => rw [hstep] at h; cases h
        | ok q =>
          obtain ⟨oa, sa⟩ := q
          rw [hstep] at h
          obtain ⟨ts, t1, hy, hend, hres⟩ := ih ta oa sa res h
          refine ⟨token :: ts, t1, Yields.cons hn hy, hend, ?_⟩
          unfold to_postfix_tokens to_postfix_steps
          rw [hstep]
          exact hres

/-! ## C11: the conversion of a well-formed expression -/

theorem conversion_rpn (extract : List Char → Option Double) (e : Expr) (k : Nat)
    (hvalid : e.valid extract) :
    tokenize extract (String.mk (e.render ++ List.replicate k ' ')) =
      some (.ok (e.tokens extract)) ∧
    to_postfix_tokens (e.tokens extract) [] [] = .ok (e.rpn extract) ∧
    to_postfix_notation extract (Tokenizer.init (e.render ++ List.replicate k ' ')) =
      some (.ok (e.rpn extract)) := by
  have hy := render_yields extract e hvalid (List.replicate k ' ')
    (starts_with_separator_replicate k)
  have hend := next_spaces extract k false
  obtain ⟨done, pending, hsteps, hrpn, hpend⟩ := shunting_yard extract e hvalid [] []
    (by intro top rest h; cases h)
  have htok : to_postfix_tokens (e.tokens extract) [] [] = .ok (e.rpn extract) := by
    unfold to_postfix_tokens
    rw [hsteps]
    simp only [List.nil_append, List.append_nil]
    rw [to_postfix_flush_operators pending done (fun p hp => (hpend p hp).1), hrpn]
  refine ⟨?_, htok, ?_⟩
  · exact yields_tokenize extract hy hend _ (by simp)
  · unfold to_postfix_notation Tokenizer.init
    rw [yields_loop_full extract hy hend [] [] _ (by simp), htok]

/-- C11: for every token sequence that is a well-formed infix expression (the tokens
that the tokenizer delivers for a parse tree whose operands and binary operators
alternate, with balanced brackets around sub-expressions, under standard precedence,
`Mul`/`Div` = 3 above `Add`/`Sub` = 2, and left associativity for equal precedence),
`to_postfix_notation` returns the post-order traversal of the parse tree;
`1 + 2 * 3` gives `1 2 3 * +`, `1 + 2 * (3 + 4) + 5` gives `1 2 3 4 + * + 5 +`, and
`((15 / (7 - (1 + 1))) * 3) - (2 + (1 + 1))` gives `15 7 1 1 + - / 3 * 2 1 1 + + -`. -/
theorem conversion_is_post_order (extract : List Char → Option Double) (e : Expr) (k : Nat)
    (hvalid : e.valid extract) :
    (tokenize extract (String.mk (e.render ++ List.replicate k ' ')) =
      some (.ok (e.tokens extract)) ∧
    to_postfix_notation extract (Tokenizer.init (e.render ++ List.replicate k ' ')) =
      some (.ok (e.rpn extract))) ∧
    to_postfix_notation extract_double (Tokenizer.init "1 + 2 * 3".data) =
      some (.ok [Token.of_value 1, Token.of_value 2, Token.of_value 3,
        Token.of_kind OPERATOR MUL 3, Token.of_kind OPERATOR ADD 2]) ∧
    to_postfix_notation extract_double (Tokenizer.init "1 + 2 * (3 + 4) + 5".data) =
      some (.ok [Token.of_value 1, Token.of_value 2, Token.of_value 3, Token.of_value 4,
        Token.of_kind OPERATOR ADD 2, Token.of_kind OPERATOR MUL 3,
        Token.of_kind OPERATOR ADD 2, Token.of_value 5, Token.of_kind OPERATOR ADD 2]) ∧
    to_postfix_notation extract_double
        (Tokenizer.init "((15 / (7 - (1 + 1))) * 3) - (2 + (1 + 1))".data) =
      some (.ok [Token.of_value 15, Token.of_value 7, Token.of_value 1, Token.of_value 1,
        Token.of_kind OPERATOR ADD 2, Token.of_kind OPERATOR SUB 2,
        Token.of_kind OPERATOR DIV 3, Token.of_value 3, Token.of_kind OPERATOR MUL 3,
        Token.of_value 2, Token.of_value 1, Token.of_value 1,
        Token.of_kind OPERATOR ADD 2, Token.of_kind OPERATOR ADD 2,
        Token.of_kind OPERATOR SUB 2]) := by
  have h := conversion_rpn extract e k hvalid
  exact ⟨⟨h.1, h.2.2⟩, by decide!, by decide!, by decide!⟩

/-- C11 at the parse tree of `1 - 2 - 3` (left associative: the first difference is
the left operand of the second), whose post-order is `1 2 - 3 -`. -/
theorem conversion_is_post_order_witness :
    tokenize extract_double (String.mk ((Expr.bin (Expr.bin (Expr.lit 0 ['1']) 1 BinOp.sub
        (Expr.lit 1 ['2'])) 1 BinOp.sub (Expr.lit 1 ['3'])).render ++ List.replicate 0 ' ')) =
      some (.ok ((Expr.bin (Expr.bin (Expr.lit 0 ['1']) 1 BinOp.sub
        (Expr.lit 1 ['2'])) 1 BinOp.sub (Expr.lit 1 ['3'])).tokens extract_double)) ∧
    to_postfix_notation extract_double (Tokenizer.init ((Expr.bin (Expr.bin (Expr.lit 0 ['1']) 1
        BinOp.sub (Expr.lit 1 ['2'])) 1 BinOp.sub (Expr.lit 1 ['3'])).render ++
        List.replicate 0 ' ')) =
      some (.ok ((Expr.bin (Expr.bin (Expr.lit 0 ['1']) 1 BinOp.sub
        (Expr.lit 1 ['2'])) 1 BinOp.sub (Expr.lit 1 ['3'])).rpn extract_double)) :=
  (conversion_is_post_order extract_double
    (Expr.bin (Expr.bin (Expr.lit 0 ['1']) 1 BinOp.sub (Expr.lit 1 ['2'])) 1 BinOp.sub
      (Expr.lit 1 ['3'])) 0
    ⟨⟨⟨by decide, by decide, by decide!⟩, ⟨by decide, by decide, by decide!⟩,
        by decide, by decide⟩,
      ⟨by decide, by decide, by decide!⟩, by decide, by decide⟩).1

/-! ## C12: the conversion fails exactly on unbalanced brackets -/

theorem left_brackets_cons (token : Token) (tokens : List Token) :
    left_brackets (token :: tokens) =
      left_brackets tokens + (if token.type = LEFT_BRACKET then 1 else 0) := by
  unfold left_brackets
  rw [List.countP_cons]
  simp

theorem right_brackets_cons (token : Token) (tokens : List Token) :
    right_brackets (token :: tokens) =
      right_brackets tokens + (if token.type = RIGHT_BRACKET then 1 else 0) := by
  unfold right_brackets
  rw [List.countP_cons]
  simp

theorem left_ne_right : LEFT_BRACKET ≠ RIGHT_BRACKET := by decide

theorem token_depth_other (token : Token) (d : Nat) (h1 : token.type ≠ LEFT_BRACKET)
    (h2 : token.type ≠ RIGHT_BRACKET) : token_depth token d = some d := by
  simp [token_depth, h1, h2]

theorem brackets_scan_none_iff :
    ∀ (tokens : List Token) (d : Nat), brackets_scan tokens d = none ↔
      ∃ n, d + left_brackets (tokens.take n) < right_brackets (tokens.take n) := by
  intro tokens
  induction tokens with
  | nil =>
    intro d
    simp [brackets_scan, left_brackets, right_brackets]
  | cons token tokens ih =>
    intro d
    have hstep : ∀ d1, (∃ n, d1 + left_brackets (tokens.take n) < right_brackets (tokens.take n)) →
        ∀ a b, d1 + b = d + a →
          a = (if token.type = LEFT_BRACKET then 1 else 0) →
          b = (if token.type = RIGHT_BRACKET then 1 else 0) →
        ∃ n, d + left_brackets ((token :: tokens).take n) <
          right_brackets ((token :: tokens).take n) := by
      rintro d1 ⟨n, hn⟩ a b hab ha hb
      refine ⟨n + 1, ?_⟩
      rw [List.take_succ_cons, left_brackets_cons, right_brackets_cons, ← ha, ← hb]
      omega
    have hback : ∀ n, d + left_brackets ((token :: tokens).take n) <
          right_brackets ((token :: tokens).take n) →
        ∀ d1 a b, d1 + b = d + a →
          a = (if token.type = LEFT_BRACKET then 1 else 0) →
          b = (if token.type = RIGHT_BRACKET then 1 else 0) →
        ∃ m, d1 + left_brackets (tokens.take m) < right_brackets (tokens.take m) := by
      intro n hn d1 a b hab ha hb
      cases n with
      | zero => simp [left_brackets, right_brackets] at hn
      | succ m =>
        rw [List.take_succ_cons, left_brackets_cons, right_brackets_cons, ← ha, ← hb] at hn
        exact ⟨m, by omega⟩
    by_cases hl : token.type = LEFT_BRACKET
    · have hr : token.type ≠ RIGHT_BRACKET := by rw [hl]; exact left_ne_right
      simp only [brackets_scan, token_depth_left token d hl]
      rw [ih (d + 1)]
      constructor
      · intro h
        exact hstep (d + 1) h 1 0 (by omega) (by simp [hl]) (by simp [hr])
      · rintro ⟨n, hn⟩
        exact hback n hn (d + 1) 1 0 (by omega) (by simp [hl]) (by simp [hr])
    · by_cases hr : token.type = RIGHT_BRACKET
      · cases d with
        | zero =>
          simp only [brackets_scan, token_depth_right_zero token hr, true_iff]
          refine ⟨1, ?_⟩
          rw [List.take_succ_cons, left_brackets_cons, right_brackets_cons, if_neg hl, if_pos hr]
          simp [left_brackets, right_brackets]
        | succ d0 =>
          simp only [brackets_scan, token_depth_right_succ token d0 hr]
          rw [ih d0]
          constructor
          · intro h
            exact hstep d0 h 0 1 (by omega) (by simp [hl]) (by simp [hr])
          · rintro ⟨n, hn⟩
            exact hback n hn d0 0 1 (by omega) (by simp [hl]) (by simp [hr])
      · simp only [brackets_scan, token_depth_other token d hl hr]
        rw [ih d]
        constructor
        · intro h
          exact hstep d h 0 0 (by omega) (by simp [hl]) (by simp [hr])
        · rintro ⟨n, hn⟩
          exact hback n hn d 0 0 (by omega) (by simp [hl]) (by simp [hr])

theorem brackets_scan_some :
    ∀ (tokens : List Token) (d d1 : Nat), brackets_scan tokens d = some d1 →
      d1 + right_brackets tokens = d + left_brackets tokens := by
  intro tokens
  induction tokens with
  | nil =>
    intro d d1 h
    simp only [brackets_scan, Option.some.injEq] at h
    simp [left_brackets, right_brackets, h]
  | cons token tokens ih =>
    intro d d1 h
    rw [left_brackets_cons, right_brackets_cons]
    by_cases hl : token.type = LEFT_BRACKET
    · have hr : token.type ≠ RIGHT_BRACKET := by rw [hl]; exact left_ne_right
      simp only [brackets_scan, token_depth_left token d hl] at h
      have := ih (d + 1) d1 h
      rw [if_pos hl, if_neg hr]
      omega
    · by_cases hr : token.type = RIGHT_BRACKET
      · cases d with
        | zero => simp [brackets_scan, token_depth_right_zero token hr] at h
        | succ d0 =>
          simp only [brackets_scan, token_depth_right_succ token d0 hr] at h
          have := ih d0 d1 h
          rw [if_neg hl, if_pos hr]
          omega
      · simp only [brackets_scan, token_depth_other token d hl hr] at h
        have := ih d d1 h
        rw [if_neg hl, if_neg hr]
        omega

theorem brackets_unbalanced_iff (tokens : List Token) :
    brackets_unbalanced tokens ↔ brackets_scan tokens 0 ≠ some 0 := by
  unfold brackets_unbalanced
  constructor
  · rintro (h | h) hscan
    · have := (brackets_scan_none_iff tokens 0).2 (by simpa using h)
      rw [this] at hscan
      cases hscan
    · have := brackets_scan_some tokens 0 0 hscan
      omega
  · intro h
    cases hscan : brackets_scan tokens 0 with
    | none =>
      left
      simpa using (brackets_scan_none_iff tokens 0).1 hscan
    | some d =>
      right
      have := brackets_scan_some tokens 0 d hscan
      have hd : d ≠ 0 := by
        intro h0
        rw [h0] at hscan
        exact h hscan
      omega

theorem to_postfix_steps_depth :
    ∀ (tokens out st : List Token), (∀ token ∈ tokens, token.from_tokenizer) →
      stack_ok st → output_ok out →
      match brackets_scan tokens (open_brackets st) with
      | none => to_postfix_steps tokens out st = .error MismatchedParentheses
      | some d => ∃ out1 st1, to_postfix_steps tokens out st = .ok (out1, st1) ∧
          open_brackets st1 = d ∧ stack_ok st1 ∧ output_ok out1 := by
  intro tokens
  induction tokens with
  | nil =>
    intro out st _ hst hout
    exact ⟨out, st, rfl, rfl, hst, hout⟩
  | cons token tokens ih =>
    intro out st htok hst hout
    have hfrom := htok token (List.mem_cons_self _ _)
    have hstep := to_postfix_step_depth token out st hfrom hst
    simp only [brackets_scan]
    cases htd : token_depth token (open_brackets st) with
    | none =>
      rw [htd] at hstep
      simp only at hstep
      simp only [to_postfix_steps, hstep]
    | some d =>
      rw [htd] at hstep
      simp only at hstep
      obtain ⟨out1, st1, hs, hopen⟩ := hstep
      have hinv := to_postfix_step_inv token out st out1 st1 hfrom hst hout hs
      have hrec := ih out1 st1 (fun x hx => htok x (List.mem_cons_of_mem _ hx)) hinv.2 hinv.1
      rw [hopen] at hrec
      simp only [to_postfix_steps, hs]
      exact hrec

theorem to_postfix_flush_closed :
    ∀ (st out : List Token), stack_ok st → open_brackets st = 0 →
      to_postfix_flush out st = .ok (out ++ st) := by
  intro st out hst hopen
  apply to_postfix_flush_operators
  intro p hp
  rcases hst p hp with h | h
  · exact h.1
  · exfalso
    have : 0 < open_brackets st := by
      unfold open_brackets
      rw [List.countP_pos_iff]
      exact ⟨p, hp, by simp [h.1]⟩
    omega

theorem to_postfix_tokens_result (tokens : List Token)
    (htok : ∀ token ∈ tokens, token.from_tokenizer) :
    (brackets_scan tokens 0 = some 0 ∧ ∃ out, to_postfix_tokens tokens [] [] = .ok out) ∨
    (brackets_scan tokens 0 ≠ some 0 ∧
      to_postfix_tokens tokens [] [] = .error MismatchedParentheses) := by
  have h := to_postfix_steps_depth tokens [] [] htok
    (by intro p hp; cases hp) (by intro p hp; cases hp)
  have h0 : open_brackets [] = 0 := rfl
  rw [h0] at h
  cases hscan : brackets_scan tokens 0 with
  | none =>
    rw [hscan] at h
    simp only at h
    right
    refine ⟨by simp, ?_⟩
    unfold to_postfix_tokens
    rw [h]
  | some d =>
    rw [hscan] at h
    simp only at h
    obtain ⟨out1, st1, hs, hopen, hst, _⟩ := h
    cases d with
    | zero =>
      left
      refine ⟨rfl, out1 ++ st1, ?_⟩
      unfold to_postfix_tokens
      rw [hs]
      exact to_postfix_flush_closed st1 out1 hst hopen
    | succ d0 =>
      right
      refine ⟨by simp, ?_⟩
      unfold to_postfix_tokens
      rw [hs]
      exact to_postfix_flush_open st1 out1 (by omega)

/-- C12: for every token sequence that the tokenizer delivers without error,
`to_postfix_notation` fails with `MismatchedParentheses` if and only if the bracket
tokens of the sequence are unbalanced (some prefix contains more `RightBracket` than
`LeftBracket` tokens, or the whole sequence contains more `LeftBracket` than
`RightBracket` tokens); otherwise it returns a sequence. -/
theorem conversion_fails_iff_unbalanced (extract : List Char → Option Double) (expr : String)
    (tokens : List Token) (h : tokenize extract expr = some (.ok tokens)) :
    ( to_postfix_notation extract (Tokenizer.init expr.data) =
        some (.error (Exn.invalid_argument "mismatched parentheses")) ↔
      ((∃ n, left_brackets (tokens.take n) < right_brackets (tokens.take n)) ∨
        right_brackets tokens < left_brackets tokens)) ∧
    (¬ brackets_unbalanced tokens →
      ∃ out, to_postfix_notation extract (Tokenizer.init expr.data) = some (.ok out)) := by
  obtain ⟨t1, hy, hend⟩ := tokenize_yields extract _ _ tokens h
  have hconv : to_postfix_notation extract (Tokenizer.init expr.data) =
      some (to_postfix_tokens tokens [] []) :=
    yields_loop_full extract hy hend [] [] _ (by simp [Tokenizer.init])
  have hres := to_postfix_tokens_result tokens (yields_from_tokenizer extract hy)
  have hiff := brackets_unbalanced_iff tokens
  unfold brackets_unbalanced at hiff
  rw [hconv]
  rcases hres with ⟨hscan, out, hout⟩ | ⟨hscan, herr⟩
  · refine ⟨?_, fun _ => ⟨out, by rw [hout]⟩⟩
    rw [hiff, hout]
    constructor
    · intro h1; cases h1
    · intro h1; exact absurd hscan h1
  · refine ⟨?_, fun hb => absurd ((brackets_unbalanced_iff tokens).2 hscan) hb⟩
    rw [hiff, herr]
    exact ⟨fun _ => hscan, fun _ => rfl⟩

/-- C12 at the input `(1 + 2`, whose tokens `( 1 + 2` contain one left bracket more
than right brackets: the conversion fails with `MismatchedParentheses`. -/
theorem conversion_fails_iff_unbalanced_witness :
    to_postfix_notation extract_double (Tokenizer.init "(1 + 2".data) =
      some (.error (Exn.invalid_argument "mismatched parentheses")) :=
  (conversion_fails_iff_unbalanced extract_double "(1 + 2"
    [Token.of_kind LEFT_BRACKET 0 1, Token.of_value 1, Token.of_kind OPERATOR ADD 2,
      Token.of_value 2] (by decide!)).1.2 (Or.inr (by decide))

/-! ## C13: the evaluator checks the stack depth -/

theorem evaluate_operation_arith (op a b : Token)
    (h : op.op_type = ADD ∨ op.op_type = SUB ∨ op.op_type = MUL) :
    ∃ v, evaluate_operation op a b = .ok v := by
  rcases h with h | h | h
  · exact ⟨a.value + b.value, by simp [evaluate_operation, h]⟩
  · exact ⟨a.value - b.value, by simp [evaluate_operation, h, SUB, ADD]⟩
  · exact ⟨a.value * b.value, by simp [evaluate_operation, h, SUB, ADD, MUL]⟩

theorem stack_depth_operand (token : Token) (tokens : List Token) (k : Nat)
    (h : token.type = OPERAND) :
    stack_depth (token :: tokens) k = stack_depth tokens (k + 1) := by
  have hne : token.type ≠ OPERATOR := by rw [h]; decide
  rw [stack_depth, if_neg hne, if_pos h]

theorem stack_depth_operator (token : Token) (tokens : List Token) (k : Nat)
    (h : token.type = OPERATOR) :
    stack_depth (token :: tokens) k =
      if k < 2 then none else stack_depth tokens (k - 1) := by
  rw [stack_depth, if_pos h]

theorem evaluate_loop_operand_type (token : Token) (tokens stack : List Token)
    (h : token.type = OPERAND) :
    evaluate_loop (token :: tokens) stack = evaluate_loop tokens (token :: stack) := by
  have hne : token.type ≠ OPERATOR := by rw [h]; decide
  simp only [evaluate_loop, if_neg hne, if_pos h]

theorem evaluate_loop_operator_type (token : Token) (tokens stack : List Token)
    (h : token.type = OPERATOR) :
    evaluate_loop (token :: tokens) stack =
      match stack with
      | [] => .error BadExpression
      | op2 :: stack =>
        match stack with
        | [] => .error BadExpression
        | op1 :: stack =>
          match evaluate_operation token op1 op2 with
          | .error e => .error e
          | .ok result => evaluate_loop tokens (Token.of_value result :: stack) := by
  simp only [evaluate_loop, if_pos h]

theorem operand_ne_operator : OPERAND ≠ OPERATOR := by decide

theorem evaluate_loop_depth :
    ∀ (tokens stack : List Token), (∀ token ∈ tokens, token.arith) →
      match stack_depth tokens stack.length with
      | none => evaluate_loop tokens stack = .error BadExpression
      | some d => ∃ stack1, evaluate_loop tokens stack = .ok stack1 ∧ stack1.length = d := by
  intro tokens
  induction tokens with
  | nil => intro stack _; exact ⟨stack, rfl, rfl⟩
  | cons token tokens ih =>
    intro stack harith
    have hrest : ∀ x ∈ tokens, x.arith := fun x hx => harith x (List.mem_cons_of_mem _ hx)
    rcases harith token (List.mem_cons_self _ _) with hty | ⟨hty, hop⟩
    · have hne : token.type ≠ OPERATOR := by rw [hty]; exact operand_ne_operator
      have h1 : stack_depth (token :: tokens) stack.length =
          stack_depth tokens (token :: stack).length :=
        stack_depth_operand token tokens _ hty
      have h2 := evaluate_loop_operand_type token tokens stack hty
      rw [h1, h2]
      exact ih (token :: stack) hrest
    · rw [stack_depth_operator token tokens _ hty, evaluate_loop_operator_type token tokens _ hty]
      cases stack with
      | nil => simp
      | cons op2 stack =>
        cases stack with
        | nil => simp
        | cons op1 stack =>
          obtain ⟨v, hv⟩ := evaluate_operation_arith token op1 op2 hop
          have h1 : (if (op2 :: op1 :: stack).length < 2 then none
              else stack_depth tokens ((op2 :: op1 :: stack).length - 1)) =
              stack_depth tokens (Token.of_value v :: stack).length := by
            simp
          rw [h1]
          simp only [hv]
          exact ih (Token.of_value v :: stack) hrest

theorem operand_count_cons (token : Token) (tokens : List Token) :
    operand_count (token :: tokens) =
      operand_count tokens + (if token.type = OPERAND then 1 else 0) := by
  unfold operand_count
  rw [List.countP_cons]
  simp

theorem operator_count_cons (token : Token) (tokens : List Token) :
    operator_count (token :: tokens) =
      operator_count tokens + (if token.type = OPERATOR then 1 else 0) := by
  unfold operator_count
  rw [List.countP_cons]
  simp

theorem stack_depth_some_iff :
    ∀ (tokens : List Token) (k d : Nat), (∀ token ∈ tokens, token.arith) →
      (stack_depth tokens k = some d ↔
        (∀ n, 0 < n → n ≤ tokens.length →
          operator_count (tokens.take n) < k + operand_count (tokens.take n)) ∧
        d + operator_count tokens = k + operand_count tokens) := by
  intro tokens
  induction tokens with
  | nil =>
    intro k d _
    simp only [stack_depth, Option.some.injEq, List.length_nil, operator_count, operand_count,
      List.countP_nil, Nat.add_zero]
    constructor
    · intro h; exact ⟨fun n h1 h2 => by omega, h.symm⟩
    · intro h; exact h.2.symm
  | cons token tokens ih =>
    intro k d harith
    have hrest : ∀ x ∈ tokens, x.arith := fun x hx => harith x (List.mem_cons_of_mem _ hx)
    have hsplit : ∀ (a b : Nat), a = (if token.type = OPERAND then 1 else 0) →
        b = (if token.type = OPERATOR then 1 else 0) →
        ((∀ n, 0 < n → n ≤ (token :: tokens).length →
            operator_count ((token :: tokens).take n) <
              k + operand_count ((token :: tokens).take n)) ↔
          (b < k + a ∧ ∀ m, 0 < m → m ≤ tokens.length →
            operator_count (tokens.take m) + b < k + (operand_count (tokens.take m) + a))) := by
      intro a b ha hb
      constructor
      · intro h
        constructor
        · have := h 1 (by omega) (by simp)
          rw [List.take_succ_cons, operator_count_cons, operand_count_cons, ← ha, ← hb] at this
          simpa [operator_count, operand_count] using this
        · intro m hm1 hm2
          have := h (m + 1) (by omega) (by simp; omega)
          rw [List.take_succ_cons, operator_count_cons, operand_count_cons, ← ha, ← hb] at this
          exact this
      · rintro ⟨h1, h2⟩ n hn1 hn2
        cases n with
        | zero => omega
        | succ m =>
          rw [List.take_succ_cons, operator_count_cons, operand_count_cons, ← ha, ← hb]
          cases m with
          | zero => simpa [operator_count, operand_count] using h1
          | succ j => exact h2 (j + 1) (by omega) (by simp at hn2; omega)
    rw [operator_count_cons, operand_count_cons]
    rcases harith token (List.mem_cons_self _ _) with hty | ⟨hty, _⟩
    · have hne : token.type ≠ OPERATOR := by rw [hty]; exact operand_ne_operator
      have h1 := stack_depth_operand token tokens k hty
      rw [h1, ih (k + 1) d hrest, hsplit 1 0 (by rw [if_pos hty]) (by rw [if_neg hne]),
        if_pos hty, if_neg hne]
      constructor
      · rintro ⟨h2, h3⟩
        exact ⟨⟨by omega, fun m hm1 hm2 => by have := h2 m hm1 hm2; omega⟩, by omega⟩
      · rintro ⟨⟨_, h2⟩, h3⟩
        exact ⟨fun m hm1 hm2 => by have := h2 m hm1 hm2; omega, by omega⟩
    · have hne : token.type ≠ OPERAND := by rw [hty]; exact operand_ne_operator.symm
      rw [hsplit 0 1 (by rw [if_neg hne]) (by rw [if_pos hty]), if_neg hne, if_pos hty]
      by_cases hk : k < 2
      · have h1 : stack_depth (token :: tokens) k = none := by
          rw [stack_depth_operator token tokens k hty, if_pos hk]
        rw [h1]
        constructor
        · intro h; cases h
        · rintro ⟨⟨h2, _⟩, _⟩; omega
      · have h1 : stack_depth (token :: tokens) k = stack_depth tokens (k - 1) := by
          rw [stack_depth_operator token tokens k hty, if_neg hk]
        rw [h1, ih (k - 1) d hrest]
        constructor
        · rintro ⟨h2, h3⟩
          exact ⟨⟨by omega, fun m hm1 hm2 => by have := h2 m hm1 hm2; omega⟩, by omega⟩
        · rintro ⟨⟨_, h2⟩, h3⟩
          exact ⟨fun m hm1 hm2 => by have := h2 m hm1 hm2; omega, by omega⟩

/-- C13: for every sequence of operand tokens and `Add`/`Sub`/`Mul` operator tokens,
`evaluate_postfix_notation` returns a value if and only if every non-empty prefix of
the sequence contains more operands than operators and the whole sequence contains
exactly one more operand than operators; in every other case it fails with
`BadExpression` (text `bad input expression`), as for `[]`, `[1, Mul]` and
`[1, 2, Add, Mul]`. -/
theorem evaluation_succeeds_iff (tokens : List Token) (h : ∀ token ∈ tokens, token.arith) :
    ((∃ v, evaluate_postfix_notation tokens = .ok v) ↔
      ((∀ n, 0 < n → n ≤ tokens.length →
          operator_count (tokens.take n) < operand_count (tokens.take n)) ∧
        operand_count tokens = operator_count tokens + 1)) ∧
    (¬ ((∀ n, 0 < n → n ≤ tokens.length →
          operator_count (tokens.take n) < operand_count (tokens.take n)) ∧
        operand_count tokens = operator_count tokens + 1) →
      evaluate_postfix_notation tokens = .error (Exn.invalid_argument "bad input expression")) ∧
    evaluate_postfix_notation [] = .error BadExpression ∧
    evaluate_postfix_notation [Token.of_value 1, Token.of_kind OPERATOR MUL 3] =
      .error BadExpression ∧
    evaluate_postfix_notation [Token.of_value 1, Token.of_value 2, Token.of_kind OPERATOR ADD 2,
      Token.of_kind OPERATOR MUL 3] = .error BadExpression := by
  have hiff := stack_depth_some_iff tokens 0 1 h
  simp only [Nat.zero_add] at hiff
  have hcond : ((∀ n, 0 < n → n ≤ tokens.length →
          operator_count (tokens.take n) < operand_count (tokens.take n)) ∧
        operand_count tokens = operator_count tokens + 1) ↔ stack_depth tokens 0 = some 1 := by
    rw [hiff]
    constructor
    · rintro ⟨h1, h2⟩; exact ⟨h1, by omega⟩
    · rintro ⟨h1, h2⟩; exact ⟨h1, by omega⟩
  have hloop := evaluate_loop_depth tokens [] h
  simp only [List.length_nil] at hloop
  have hres : (stack_depth tokens 0 = some 1 ∧ ∃ v, evaluate_postfix_notation tokens = .ok v) ∨
      (stack_depth tokens 0 ≠ some 1 ∧
        evaluate_postfix_notation tokens = .error BadExpression) := by
    cases hd : stack_depth tokens 0 with
    | none =>
      rw [hd] at hloop
      simp only at hloop
      right
      refine ⟨by simp, ?_⟩
      unfold evaluate_postfix_notation
      rw [hloop]
    | some d =>
      rw [hd] at hloop
      simp only at hloop
      obtain ⟨stack1, hs, hlen⟩ := hloop
      by_cases hd1 : d = 1
      · left
        subst hd1
        refine ⟨rfl, ?_⟩
        match stack1, hlen with
        | [back], _ =>
          exact ⟨_, by unfold evaluate_postfix_notation; rw [hs]⟩
      · right
        refine ⟨by simpa using hd1, ?_⟩
        unfold evaluate_postfix_notation
        rw [hs]
        match stack1, hlen with
        | [], _ => rfl
        | [x], hx => simp at hx; omega
        | x :: y :: rest, _ => rfl
  refine ⟨?_, ?_, by decide, by decide!, by decide!⟩
  · rw [hcond]
    rcases hres with ⟨h1, h2⟩ | ⟨h1, h2⟩
    · exact ⟨fun _ => h1, fun _ => h2⟩
    · constructor
      · rintro ⟨v, hv⟩
        rw [h2] at hv
        cases hv
      · intro h3; exact absurd h3 h1
  · rw [hcond]
    intro hn
    rcases hres with ⟨h1, _⟩ | ⟨_, h2⟩
    · exact absurd h1 hn
    · exact h2

/-- C13 at the sequence `[1, Mul]`: it consists of an operand and a `Mul` operator, its
prefix `[1, Mul]` does not hold more operands than operators, and the evaluation fails
with `BadExpression`. -/
theorem evaluation_succeeds_iff_witness :
    evaluate_postfix_notation [Token.of_value 1, Token.of_kind OPERATOR MUL 3] =
      .error (Exn.invalid_argument "bad input expression") :=
  (evaluation_succeeds_iff [Token.of_value 1, Token.of_kind OPERATOR MUL 3]
    (by
      intro token hmem
      rw [List.mem_cons, List.mem_singleton] at hmem
      rcases hmem with hmem | hmem
      · subst hmem; exact Or.inl rfl
      · subst hmem; exact Or.inr ⟨rfl, Or.inr (Or.inr rfl)⟩)).2.1
    (by
      intro hcon
      have := hcon.2
      revert this
      decide)

/-! ## C16: the order of the two operands -/

theorem evaluate_binary (op : Token) (a b : Double) (hty : op.type = OPERATOR) :
    evaluate_postfix_notation [Token.of_value a, Token.of_value b, op] =
      match evaluate_operation op (Token.of_value a) (Token.of_value b) with
      | .error e => .error e
      | .ok v => .ok (round2 v) := by
  unfold evaluate_postfix_notation
  rw [evaluate_loop_operand, evaluate_loop_operand, evaluate_loop_operator_type _ _ _ hty]
  simp only
  cases evaluate_operation op (Token.of_value a) (Token.of_value b) with
  | error e => rfl
  | ok v => rfl

/-- C16: for every binary operator `op` among `Add`, `Sub`, `Mul`, `Div` and all operand
values `a` and `b` of type `double` (`b` nonzero for `Div`), `evaluate_postfix_notation`
on `[a, b, op]` computes `a op b` in `double` arithmetic, with `a` the operand that
appears first in the sequence and `b` the one that appears second, and rounds the result
to two decimals by `round(v * 100) / 100` (when the product `v * 100` is the finite
number `p`, the rounded value is the `double` nearest to `n / 100`, with `n` the integer
nearest to the magnitude of `p`, halves away from zero): `[a, b, Sub]` yields
`round2 (a - b)`, so `[5, 3, Sub]` yields 2 and `[3, 5, Sub]` yields -2, and
`[1, 3, Div]` yields 0.33. -/
theorem operand_order (a b : Double) :
    evaluate_postfix_notation [Token.of_value a, Token.of_value b, Token.of_kind OPERATOR ADD 2] =
      .ok (round2 (a + b)) ∧
    evaluate_postfix_notation [Token.of_value a, Token.of_value b, Token.of_kind OPERATOR SUB 2] =
      .ok (round2 (a - b)) ∧
    evaluate_postfix_notation [Token.of_value a, Token.of_value b, Token.of_kind OPERATOR MUL 3] =
      .ok (round2 (a * b)) ∧
    (b.is_zero = false →
      evaluate_postfix_notation
        [Token.of_value a, Token.of_value b, Token.of_kind OPERATOR DIV 3] =
        .ok (round2 (a / b))) ∧
    (∀ (v : Double) (s : Bool) (p : ℚ), v * 100 = Double.finite s p →
      ∃ n : ℕ, round2 v = Double.round_magnitude s ((n : ℚ) / 100) ∧
        |(n : ℚ) - p| ≤ 1 / 2 ∧ (∀ k : ℕ, p = k + 1 / 2 → n = k + 1)) ∧
    evaluate_postfix_notation
      [Token.of_value 5, Token.of_value 3, Token.of_kind OPERATOR SUB 2] = .ok 2 ∧
    evaluate_postfix_notation
      [Token.of_value 3, Token.of_value 5, Token.of_kind OPERATOR SUB 2] = .ok (-2) ∧
    evaluate_postfix_notation
      [Token.of_value 1, Token.of_value 3, Token.of_kind OPERATOR DIV 3] = .ok (33 / 100) := by
  refine ⟨?_, ?_, ?_, ?_, round2_finite, by decide!, by decide!, by decide!⟩
  · rw [evaluate_binary _ a b rfl]
    simp [evaluate_operation, Token.of_kind, Token.of_value]
  · rw [evaluate_binary _ a b rfl]
    simp [evaluate_operation, Token.of_kind, Token.of_value, ADD, SUB]
  · rw [evaluate_binary _ a b rfl]
    simp [evaluate_operation, Token.of_kind, Token.of_value, ADD, SUB, MUL]
  · intro hb
    rw [evaluate_binary _ a b rfl]
    simp [evaluate_operation, Token.of_kind, Token.of_value, ADD, SUB, MUL, DIV, hb]

/-- C16 at the sequence `[1, 4, Div]`, which yields `round2 (1 / 4)`. -/
theorem operand_order_witness :
    evaluate_postfix_notation
      [Token.of_value 1, Token.of_value 4, Token.of_kind OPERATOR DIV 3] =
      .ok (round2 (1 / 4)) :=
  (operand_order 1 4).2.2.2.1 (by decide!)

/-! ## C17: rounding half away from zero -/

/-- C17, as the code has it: for every sequence that evaluates without error to the unrounded
value `v` (the value stack ends with the single value `v`), `evaluate_postfix_notation`
returns `r = round (v * 100) / 100` computed in `double` arithmetic, with `round`
rounding the `double` product `p = v * 100` half away from zero: for finite `p`,
`round p` is an integer `n` of the same sign with `|n - |p|| ≤ 0.5`, equal to `k + 1`
when `|p|` is exactly `k + 1/2`, and `r` is the `double` nearest to `n / 100`; 0.005
gives 0.01, -0.005 gives -0.01, and `[1, 3, Div]` returns 0.33. -/
theorem rounding_half_away (tokens : List Token) (back : Token)
    (h : evaluate_loop tokens [] = .ok [back]) :
    evaluate_postfix_notation tokens = .ok (c_round (back.value * 100) / 100) ∧
    (∀ (s : Bool) (p : ℚ), back.value * 100 = Double.finite s p →
      ∃ n : ℕ, c_round (back.value * 100) = Double.finite s n ∧
        |(n : ℚ) - p| ≤ 1 / 2 ∧ (∀ k : ℕ, p = k + 1 / 2 → n = k + 1) ∧
        c_round (back.value * 100) / 100 = Double.round_magnitude s ((n : ℚ) / 100)) ∧
    evaluate_postfix_notation [Token.of_value (5 / 1000)] = .ok (1 / 100) ∧
    evaluate_postfix_notation [Token.of_value (-5 / 1000)] = .ok (-1 / 100) ∧
    evaluate_postfix_notation
      [Token.of_value 1, Token.of_value 3, Token.of_kind OPERATOR DIV 3] = .ok (33 / 100) := by
  refine ⟨?_, ?_, by decide!, by decide!, by decide!⟩
  · unfold evaluate_postfix_notation
    rw [h]
  · intro s p hp
    obtain ⟨n, hn, hnear, htie⟩ := c_round_finite s p (Double.mul_finite _ _ s p hp)
    refine ⟨n, by rw [hp, hn], hnear, htie, ?_⟩
    rw [hp, hn, Double.ofNat_hundred]
    show Double.div _ _ = _
    have h100 : ((100 : ℚ) = 0) = False := by norm_num
    simp only [Double.div, Bool.xor_false, h100, if_false]

/-- C17 at the sequence `[0.125]`: the product 12.5 is halfway between 12 and 13, and
the result is 0.13. -/
theorem rounding_half_away_witness :
    evaluate_postfix_notation [Token.of_value (1 / 8)] =
      .ok (c_round ((Token.of_value (1 / 8)).value * 100) / 100) ∧
    evaluate_postfix_notation [Token.of_value (1 / 8)] = .ok (13 / 100) :=
  ⟨(rounding_half_away [Token.of_value (1 / 8)] (Token.of_value (1 / 8)) (by decide!)).1,
    by decide!⟩

/-- C17 as stated fails for `double` values: on `[1e21]` the result is
`999999999999999868928`, which differs from `v = 10 ^ 21` by 131072; on `[1, 3, Div]`
the result is the `double` nearest to 0.33, and 100 times it is not an integer; on
`[1e307]` the product overflows and the result is infinite. -/
theorem rounding_not_within_half_cent :
    evaluate_postfix_notation [Token.of_value (Double.finite false (10 ^ 21))] =
      .ok (Double.finite false 999999999999999868928) ∧
    Double.of_rat (10 ^ 21) = Double.finite false (10 ^ 21) ∧
    ¬ |(999999999999999868928 : ℚ) - 10 ^ 21| ≤ 5 / 1000 ∧
    evaluate_postfix_notation
      [Token.of_value 1, Token.of_value 3, Token.of_kind OPERATOR DIV 3] =
      .ok (Double.finite false (5944751508129055 / 18014398509481984)) ∧
    (¬ ∃ n : ℤ, 100 * (5944751508129055 / 18014398509481984 : ℚ) = n) ∧
    evaluate_postfix_notation [Token.of_value (Double.of_rat (10 ^ 307))] =
      .ok (Double.inf false) ∧
    (Double.inf false).exact = none := by
  refine ⟨by decide!, by decide!, ?_, by decide!, ?_, by decide!, rfl⟩
  · rw [abs_le]
    norm_num
  · rintro ⟨n, hn⟩
    have hden := congrArg Rat.den hn
    rw [Rat.intCast_den] at hden
    revert hden
    decide!

/-! ## C20: the pipeline does not check the infix syntax -/

theorem Expr.tokens_ne_nil (extract : List Char → Option Double) (e : Expr) :
    e.tokens extract ≠ [] := by
  cases e <;> simp [Expr.tokens]

theorem Expr.tokens_head (extract : List Char → Option Double) (e : Expr) :
    ∀ token rest, e.tokens extract = token :: rest → token.type ≠ OPERATOR := by
  induction e with
  | lit sp text =>
    intro token rest h
    simp only [Expr.tokens, List.cons.injEq] at h
    rw [← h.1]
    exact operand_ne_operator
  | neg sp text =>
    intro token rest h
    simp only [Expr.tokens, List.cons.injEq] at h
    rw [← h.1]
    exact operand_ne_operator
  | paren sp e sp1 _ =>
    intro token rest h
    simp only [Expr.tokens, List.cons.injEq] at h
    rw [← h.1]
    show LEFT_BRACKET ≠ OPERATOR
    decide
  | bin l sp op r ihl _ =>
    intro token rest h
    simp only [Expr.tokens] at h
    cases hl : l.tokens extract with
    | nil => exact absurd hl (Expr.tokens_ne_nil extract l)
    | cons x xs =>
      rw [hl] at h
      simp only [List.cons_append, List.cons.injEq] at h
      rw [← h.1]
      exact ihl x xs hl

theorem Expr.tokens_last (extract : List Char → Option Double) (e : Expr) :
    ∀ token rest, (e.tokens extract).reverse = token :: rest → token.type ≠ OPERATOR := by
  induction e with
  | lit sp text =>
    intro token rest h
    simp only [Expr.tokens, List.reverse_singleton, List.cons.injEq] at h
    rw [← h.1]
    exact operand_ne_operator
  | neg sp text =>
    intro token rest h
    simp only [Expr.tokens, List.reverse_singleton, List.cons.injEq] at h
    rw [← h.1]
    exact operand_ne_operator
  | paren sp e sp1 _ =>
    intro token rest h
    simp only [Expr.tokens, List.reverse_cons, List.reverse_append, List.reverse_singleton,
      List.reverse_nil, List.nil_append, List.singleton_append, List.cons_append,
      List.cons.injEq] at h
    rw [← h.1]
    show RIGHT_BRACKET ≠ OPERATOR
    decide
  | bin l sp op r _ ihr =>
    intro token rest h
    simp only [Expr.tokens, List.reverse_append, List.reverse_cons] at h
    cases hr : (r.tokens extract).reverse with
    | nil =>
      rw [List.reverse_eq_nil_iff] at hr
      exact absurd hr (Expr.tokens_ne_nil extract r)
    | cons x xs =>
      rw [hr] at h
      simp only [List.cons_append, List.append_assoc, List.cons.injEq] at h
      rw [← h.1]
      exact ihr x xs hr

/-- C20: the pipeline does not validate the infix syntax.  The inputs `1 2 +` and
`+ 1 2` are not well-formed infix expressions (neither is the text of a parse tree,
whatever the spacing), yet `calculate` returns 3 for both instead of failing with
`BadExpression`: the conversion delivers `1 2 +` for both, and the evaluator checks
only the stack depth. -/
theorem syntax_not_validated :
    calculate extract_double "1 2 +" = some (.ok 3) ∧
    calculate extract_double "+ 1 2" = some (.ok 3) ∧
    to_postfix_notation extract_double (Tokenizer.init "1 2 +".data) =
      some (.ok [Token.of_value 1, Token.of_value 2, Token.of_kind OPERATOR ADD 2]) ∧
    to_postfix_notation extract_double (Tokenizer.init "+ 1 2".data) =
      some (.ok [Token.of_value 1, Token.of_value 2, Token.of_kind OPERATOR ADD 2]) ∧
    (¬ ∃ (e : Expr) (k : Nat), e.valid extract_double ∧
      "1 2 +".data = e.render ++ List.replicate k ' ') ∧
    (¬ ∃ (e : Expr) (k : Nat), e.valid extract_double ∧
      "+ 1 2".data = e.render ++ List.replicate k ' ') := by
  refine ⟨by decide!, by decide!, by decide!, by decide!, ?_, ?_⟩
  · rintro ⟨e, k, hvalid, htext⟩
    have h1 := (conversion_rpn extract_double e k hvalid).1
    rw [← htext] at h1
    have h2 : tokenize extract_double "1 2 +" =
        some (.ok [Token.of_value 1, Token.of_value 2, Token.of_kind OPERATOR ADD 2]) := by
      decide!
    have h3 : tokenize extract_double (String.mk "1 2 +".data) =
        tokenize extract_double "1 2 +" := rfl
    rw [h3, h2] at h1
    injection h1 with h1
    injection h1 with h1
    exact Expr.tokens_last extract_double e (Token.of_kind OPERATOR ADD 2)
      [Token.of_value 2, Token.of_value 1] (by rw [← h1]; rfl) rfl
  · rintro ⟨e, k, hvalid, htext⟩
    have h1 := (conversion_rpn extract_double e k hvalid).1
    rw [← htext] at h1
    have h2 : tokenize extract_double "+ 1 2" =
        some (.ok [Token.of_kind OPERATOR ADD 2, Token.of_value 1, Token.of_value 2]) := by
      decide!
    have h3 : tokenize extract_double (String.mk "+ 1 2".data) =
        tokenize extract_double "+ 1 2" := rfl
    rw [h3, h2] at h1
    injection h1 with h1
    injection h1 with h1
    exact Expr.tokens_head extract_double e (Token.of_kind OPERATOR ADD 2)
      [Token.of_value 1, Token.of_value 2] h1.symm rfl

/-! ## C19: the conversion rearranges the tokens that are not brackets -/

theorem pop_operators_split (token : Token) :
    ∀ (st out : List Token), ∃ popped,
      (pop_operators token out st).1 = out ++ popped ∧
      popped ++ (pop_operators token out st).2 = st := by
  intro st
  induction st with
  | nil => intro out; exact ⟨[], by simp [pop_operators], by simp [pop_operators]⟩
  | cons op st ih =>
    intro out
    unfold pop_operators
    split
    · obtain ⟨popped, h1, h2⟩ := ih (out ++ [op])
      exact ⟨op :: popped, by rw [h1]; simp, by rw [List.cons_append, h2]⟩
    · exact ⟨[], by simp, by simp⟩

theorem pop_to_left_bracket_split :
    ∀ (st out : List Token), ∃ popped,
      (pop_to_left_bracket out st).1 = out ++ popped ∧
      popped ++ (pop_to_left_bracket out st).2 = st ∧
      ∀ lb rest, (pop_to_left_bracket out st).2 = lb :: rest → lb.type = LEFT_BRACKET := by
  intro st
  induction st with
  | nil =>
    intro out
    refine ⟨[], by simp [pop_to_left_bracket], by simp [pop_to_left_bracket], ?_⟩
    intro lb rest h
    simp [pop_to_left_bracket] at h
  | cons op st ih =>
    intro out
    by_cases hty : op.type = LEFT_BRACKET
    · have hp : pop_to_left_bracket out (op :: st) = (out, op :: st) := by
        simp [pop_to_left_bracket, hty]
      rw [hp]
      refine ⟨[], by simp, by simp, ?_⟩
      intro lb rest h
      simp only [List.cons.injEq] at h
      rw [← h.1]
      exact hty
    · have hp : pop_to_left_bracket out (op :: st) = pop_to_left_bracket (out ++ [op]) st := by
        simp [pop_to_left_bracket, hty]
      rw [hp]
      obtain ⟨popped, h1, h2, h3⟩ := ih (out ++ [op])
      exact ⟨op :: popped, by rw [h1]; simp, by rw [List.cons_append, h2], h3⟩

theorem to_postfix_flush_ok :
    ∀ (st out res : List Token), to_postfix_flush out st = .ok res → res = out ++ st := by
  intro st
  induction st with
  | nil =>
    intro out res h
    simp only [to_postfix_flush, Except.ok.injEq] at h
    simp [h]
  | cons op st ih =>
    intro out res h
    unfold to_postfix_flush at h
    split at h
    · cases h
    · rw [ih _ res h]
      simp

theorem non_brackets_append (a b : List Token) :
    non_brackets (a ++ b) = non_brackets a ++ non_brackets b := by
  unfold non_brackets
  rw [List.filter_append]

theorem operands_append (a b : List Token) : operands (a ++ b) = operands a ++ operands b := by
  unfold operands
  rw [List.filter_append]

theorem non_brackets_cons_left (lb : Token) (st : List Token) (h : lb.type = LEFT_BRACKET) :
    non_brackets (lb :: st) = non_brackets st := by
  unfold non_brackets
  rw [List.filter_cons_of_neg]
  simp [h]

theorem non_brackets_cons_right (rb : Token) (st : List Token) (h : rb.type = RIGHT_BRACKET) :
    non_brackets (rb :: st) = non_brackets st := by
  unfold non_brackets
  rw [List.filter_cons_of_neg]
  simp [h]

theorem non_brackets_cons_other (token : Token) (st : List Token)
    (h1 : token.type ≠ LEFT_BRACKET) (h2 : token.type ≠ RIGHT_BRACKET) :
    non_brackets (token :: st) = token :: non_brackets st := by
  unfold non_brackets
  rw [List.filter_cons_of_pos]
  simp [h1, h2]

theorem operands_stack (st : List Token) (h : stack_ok st) : operands st = [] := by
  unfold operands
  rw [List.filter_eq_nil_iff]
  intro p hp
  rcases h p hp with h1 | h1 <;> rw [h1.1] <;> decide

theorem operands_cons_operand (token : Token) (st : List Token) (h : token.type = OPERAND) :
    operands (token :: st) = token :: operands st := by
  unfold operands
  rw [List.filter_cons_of_pos]
  simp [h]

theorem operands_cons_other (token : Token) (st : List Token) (h : token.type ≠ OPERAND) :
    operands (token :: st) = operands st := by
  unfold operands
  rw [List.filter_cons_of_neg]
  simp [h]

theorem stack_ok_of_append (a b : List Token) (h : stack_ok (a ++ b)) : stack_ok a :=
  fun p hp => h p (List.mem_append_left _ hp)

theorem to_postfix_step_perm (token : Token) (out st out1 st1 : List Token)
    (htok : token.from_tokenizer) (hst : stack_ok st)
    (h : to_postfix_step token out st = .ok (out1, st1)) :
    (non_brackets (out1 ++ st1)).Perm (non_brackets (out ++ st) ++ non_brackets [token]) ∧
    operands out1 = operands out ++ operands [token] := by
  rcases from_tokenizer_cases token htok with hty | ⟨hty, _⟩ | ⟨hty, _⟩ | hty
  · rw [to_postfix_step_operand token out st hty] at h
    injection h with h; injection h with h1 h2; subst h1 h2
    refine ⟨?_, operands_append _ _⟩
    simp only [non_brackets_append, List.append_assoc]
    exact List.Perm.append_left _ List.perm_append_comm
  · rw [to_postfix_step_operator token out st hty] at h
    injection h with h; injection h with h1 h2; subst h1 h2
    obtain ⟨popped, hp1, hp2⟩ := pop_operators_split token st out
    have hl : token.type ≠ LEFT_BRACKET := by rw [hty]; decide
    have hr : token.type ≠ RIGHT_BRACKET := by rw [hty]; decide
    have ho : token.type ≠ OPERAND := by rw [hty]; decide
    constructor
    · rw [hp1]
      conv_rhs => rw [← hp2]
      simp only [non_brackets_append, non_brackets_cons_other token _ hl hr, List.append_assoc]
      apply List.Perm.append_left
      apply List.Perm.append_left
      have : non_brackets [] = [] := rfl
      rw [this]
      exact (List.perm_append_singleton token _).symm
    · rw [hp1, operands_append, operands_cons_other token [] ho]
      have hpop : stack_ok popped := by
        apply stack_ok_of_append popped (pop_operators token out st).2
        rw [hp2]; exact hst
      rw [operands_stack popped hpop]
      rfl
  · rw [to_postfix_step_left token out st hty] at h
    injection h with h; injection h with h1 h2; subst h1 h2
    have ho : token.type ≠ OPERAND := by rw [hty]; decide
    constructor
    · simp only [non_brackets_append, non_brackets_cons_left token _ hty]
      have : non_brackets [] = [] := rfl
      rw [this]
      simp
    · rw [operands_cons_other token [] ho]
      simp [operands]
  · rw [to_postfix_step_right token out st hty] at h
    obtain ⟨popped, hp1, hp2, hp3⟩ := pop_to_left_bracket_split st out
    rcases hpop : pop_to_left_bracket out st with ⟨a, b⟩
    rw [hpop] at h hp1 hp2 hp3
    simp only at hp1 hp2 hp3
    have ho : token.type ≠ OPERAND := by rw [hty]; decide
    cases b with
    | nil => cases h
    | cons lb rest =>
      simp only at h
      injection h with h; injection h with h1 h2; subst h1 h2
      have hlb := hp3 lb rest rfl
      constructor
      · rw [hp1]
        conv_rhs => rw [← hp2]
        simp only [non_brackets_append, non_brackets_cons_left lb _ hlb,
          non_brackets_cons_right token _ hty, List.append_assoc]
        have : non_brackets [] = [] := rfl
        rw [this]
        simp
      · rw [hp1, operands_append, operands_cons_other token [] ho]
        have hpop1 : stack_ok popped := by
          apply stack_ok_of_append popped (lb :: rest)
          rw [hp2]; exact hst
        rw [operands_stack popped hpop1]
        rfl

theorem to_postfix_steps_perm :
    ∀ (tokens out st out1 st1 : List Token), (∀ token ∈ tokens, token.from_tokenizer) →
      stack_ok st → output_ok out → to_postfix_steps tokens out st = .ok (out1, st1) →
      (non_brackets (out1 ++ st1)).Perm (non_brackets (out ++ st) ++ non_brackets tokens) ∧
      operands out1 = operands out ++ operands tokens ∧ stack_ok st1 ∧ output_ok out1 := by
  intro tokens
  induction tokens with
  | nil =>
    intro out st out1 st1 _ hst hout h
    simp only [to_postfix_steps, Except.ok.injEq, Prod.mk.injEq] at h
    obtain ⟨h1, h2⟩ := h
    subst h1 h2
    refine ⟨?_, ?_, hst, hout⟩
    · simp [non_brackets]
    · simp [operands]
  | cons token tokens ih =>
    intro out st out1 st1 htok hst hout h
    have hfrom := htok token (List.mem_cons_self _ _)
    rw [to_postfix_steps_cons] at h
    cases hstep : to_postfix_step token out st with
    | error e => rw [hstep] at h; cases h
    | ok q =>
      obtain ⟨oa, sa⟩ := q
      rw [hstep] at h
      simp only at h
      have hinv := to_postfix_step_inv token out st oa sa hfrom hst hout hstep
      have hperm := to_postfix_step_perm token out st oa sa hfrom hst hstep
      obtain ⟨h1, h2, h3, h4⟩ := ih oa sa out1 st1
        (fun x hx => htok x (List.mem_cons_of_mem _ hx)) hinv.2 hinv.1 h
      refine ⟨?_, ?_, h3, h4⟩
      · have hcons : non_brackets (token :: tokens) = non_brackets [token] ++ non_brackets tokens := by
          rw [← non_brackets_append]; rfl
        rw [hcons, ← List.append_assoc]
        exact h1.trans (List.Perm.append_right _ hperm.1)
      · have hcons : operands (token :: tokens) = operands [token] ++ operands tokens := by
          rw [← operands_append]; rfl
        rw [h2, hperm.2, hcons, List.append_assoc]

theorem non_brackets_of_output_ok (out : List Token) (h : output_ok out) :
    non_brackets out = out := by
  unfold non_brackets
  rw [List.filter_eq_self]
  intro p hp
  rcases h p hp with h1 | h1 <;> rw [h1] <;> decide

theorem length_non_brackets (tokens : List Token) :
    (non_brackets tokens).length + left_brackets tokens + right_brackets tokens =
      tokens.length := by
  induction tokens with
  | nil => rfl
  | cons token tokens ih =>
    rw [left_brackets_cons, right_brackets_cons, List.length_cons]
    by_cases hl : token.type = LEFT_BRACKET
    · have hr : token.type ≠ RIGHT_BRACKET := by rw [hl]; exact left_ne_right
      rw [non_brackets_cons_left token _ hl, if_pos hl, if_neg hr]
      omega
    · by_cases hr : token.type = RIGHT_BRACKET
      · rw [non_brackets_cons_right token _ hr, if_neg hl, if_pos hr]
        omega
      · rw [non_brackets_cons_other token _ hl hr, if_neg hl, if_neg hr, List.length_cons]
        omega

/-- C19: whenever `to_postfix_notation` returns successfully, its output is a
rearrangement of exactly the non-bracket tokens that the tokenizer delivers for the
input: the operand tokens appear in the same relative order as in the input token
sequence, every operator token of the input appears in the output as often as in the
input, and the output length equals the number of input tokens minus the number of
bracket tokens. -/
theorem conversion_rearranges (extract : List Char → Option Double) (expr : String)
    (out : List Token)
    (h : to_postfix_notation extract (Tokenizer.init expr.data) = some (.ok out)) :
    ∃ tokens, tokenize extract expr = some (.ok tokens) ∧
      out.Perm (tokens.filter
        (fun p => decide (p.type ≠ LEFT_BRACKET ∧ p.type ≠ RIGHT_BRACKET))) ∧
      out.filter (fun p => decide (p.type = OPERAND)) =
        tokens.filter (fun p => decide (p.type = OPERAND)) ∧
      (∀ op : Token, op.type = OPERATOR → out.count op = tokens.count op) ∧
      out.length + left_brackets tokens + right_brackets tokens = tokens.length := by
  obtain ⟨tokens, t1, hy, hend, hres⟩ := loop_ok_yields extract _ _ [] [] out h
  have htokenize : tokenize extract expr = some (.ok tokens) :=
    yields_tokenize extract hy hend _ (by simp [Tokenizer.init])
  have hfrom := yields_from_tokenizer extract hy
  unfold to_postfix_tokens at hres
  cases hsteps : to_postfix_steps tokens [] [] with
  | error e => rw [hsteps] at hres; cases hres
  | ok q =>
    obtain ⟨out1, st1⟩ := q
    rw [hsteps] at hres
    simp only at hres
    obtain ⟨hperm, hopnd, hst, hout⟩ := to_postfix_steps_perm tokens [] [] out1 st1 hfrom
      (by intro p hp; cases hp) (by intro p hp; cases hp) hsteps
    have hok := to_postfix_flush_inv st1 out1 out hst hout hres
    have hout_eq := to_postfix_flush_ok st1 out1 out hres
    have hperm1 : out.Perm (non_brackets tokens) := by
      rw [← non_brackets_of_output_ok out hok, hout_eq]
      simpa [non_brackets] using hperm
    refine ⟨tokens, htokenize, hperm1, ?_, ?_, ?_⟩
    · have : operands out = operands tokens := by
        rw [hout_eq, operands_append, hopnd, operands_stack st1 hst]
        simp [operands]
      exact this
    · intro op hop
      rw [hperm1.count_eq]
      unfold non_brackets
      rw [List.count_filter]
      simp only [hop, decide_eq_true_eq]
      decide
    · rw [hperm1.length_eq]
      exact length_non_brackets tokens

/-- C19 at the input `(1 + 2) * 3`: the output `1 2 + 3 *` holds the five non-bracket
tokens of the seven input tokens. -/
theorem conversion_rearranges_witness :
    ∃ tokens, tokenize extract_double "(1 + 2) * 3" = some (.ok tokens) ∧
      [Token.of_value 1, Token.of_value 2, Token.of_kind OPERATOR ADD 2, Token.of_value 3,
        Token.of_kind OPERATOR MUL 3].Perm (tokens.filter
        (fun p => decide (p.type ≠ LEFT_BRACKET ∧ p.type ≠ RIGHT_BRACKET))) ∧
      [Token.of_value 1, Token.of_value 2, Token.of_kind OPERATOR ADD 2, Token.of_value 3,
        Token.of_kind OPERATOR MUL 3].filter (fun p => decide (p.type = OPERAND)) =
        tokens.filter (fun p => decide (p.type = OPERAND)) ∧
      (∀ op : Token, op.type = OPERATOR →
        [Token.of_value 1, Token.of_value 2, Token.of_kind OPERATOR ADD 2, Token.of_value 3,
          Token.of_kind OPERATOR MUL 3].count op = tokens.count op) ∧
      [Token.of_value 1, Token.of_value 2, Token.of_kind OPERATOR ADD 2, Token.of_value 3,
        Token.of_kind OPERATOR MUL 3].length + left_brackets tokens + right_brackets tokens =
        tokens.length :=
  conversion_rearranges extract_double "(1 + 2) * 3"
    [Token.of_value 1, Token.of_value 2, Token.of_kind OPERATOR ADD 2, Token.of_value 3,
      Token.of_kind OPERATOR MUL 3] (by decide!)

/-! ## C15: a minus sign in negation position needs a literal -/

theorem emitted_yields (extract : List Char → Option Double) (expr : List Char)
    (prev : Option Token) (t : Tokenizer) (h : Emitted extract expr prev t) :
    ∃ tokens, Yields extract (Tokenizer.init expr) tokens t := by
  induction h with
  | start => exact ⟨[], Yields.nil _⟩
  | step _ hnext ih =>
    obtain ⟨tokens, hy⟩ := ih
    exact ⟨_, Yields.append hy (Yields.single hnext)⟩

theorem yields_then_error (extract : List Char → Option Double) {t t1 : Tokenizer}
    {tokens : List Token} (hy : Yields extract t tokens t1) (e : Exn)
    (herr : Tokenizer.next extract t1 = .error e) :
    ∀ (fuel : Nat) (out st : List Token), t.cur.length < fuel →
      tokenize_loop extract fuel t = some (.error e) ∧
      ∃ e1, to_postfix_loop extract fuel t out st = some (.error e1) := by
  induction hy with
  | nil t =>
    intro fuel out st hfuel
    cases fuel with
    | zero => omega
    | succ n =>
      unfold tokenize_loop to_postfix_loop
      rw [herr]
      exact ⟨rfl, e, rfl⟩
  | @cons ta tb tc token ts hn _ ih =>
    intro fuel out st hfuel
    have hadv := (next_advances extract ta tb token hn).1
    cases fuel with
    | zero => omega
    | succ n =>
      unfold tokenize_loop to_postfix_loop
      rw [hn]
      simp only
      constructor
      · rw [(ih herr n out st (by omega)).1]
      · cases to_postfix_step token out st with
        | error e1 => exact ⟨e1, rfl⟩
        | ok q => exact (ih herr n q.1 q.2 (by omega)).2

theorem read_operand_empty_run (extract : List Char → Option Double) (hempty : extract [] = none)
    (rest : List Char) (hrest : starts_with_separator rest) :
    read_operand extract rest = .error (InvalidToken []) := by
  have h := takeWhile_run [] rest (by intro c hc; cases hc) hrest
  simp only [List.nil_append] at h
  simp [read_operand, h.1, hempty]

/-- C15: for every input in which a `-` stands in negation position (at the start of the
input, or with an operator or a left bracket as the previous token) and is immediately
followed by the end of input, a space, or one of `+ - * / ( )`, the call of
`Tokenizer::next` at that `-` fails with `InvalidToken` whose text is the empty run
(message `bad token `), so tokenizing the input fails with that error and `calculate`
fails instead of returning a value; `-(1 + 2)`, `- 1` and `2 * --1` are rejected in this
way.  The reader of numbers is taken to reject the empty text, as stream extraction
does. -/
theorem negation_needs_literal (extract : List Char → Option Double) (hempty : extract [] = none)
    (expr : String) (prev : Option Token) (t : Tokenizer) (rest : List Char)
    (hreach : Emitted extract expr.data prev t)
    (hminus : t.cur.dropWhile (fun c => c == ' ') = '-' :: rest)
    (hprev : prev = none ∨ ∃ p, prev = some p ∧ (p.type = OPERATOR ∨ p.type = LEFT_BRACKET))
    (hnext : rest = [] ∨ ∃ c r, rest = c :: r ∧ c ∈ [' ', '+', '-', '*', '/', '(', ')']) :
    Tokenizer.next extract t = .error (Exn.invalid_argument "bad token ") ∧
    tokenize extract expr = some (.error (Exn.invalid_argument "bad token ")) ∧
    (∃ e, calculate extract expr = some (.error e)) ∧
    calculate extract_double "-(1 + 2)" = some (.error (Exn.invalid_argument "bad token ")) ∧
    calculate extract_double "- 1" = some (.error (Exn.invalid_argument "bad token ")) ∧
    calculate extract_double "2 * --1" = some (.error (Exn.invalid_argument "bad token ")) := by
  have han : t.allow_negation = true := by
    rcases emitted_allow_negation extract expr.data prev t hreach with ⟨_, han⟩ | ⟨q, hq, _, han⟩
    · exact han
    · rcases hprev with h0 | ⟨p, hp, hty⟩
      · rw [hq] at h0; cases h0
      · rw [hq] at hp
        injection hp with hp
        subst hp
        rw [han]
        rcases hty with hty | hty <;> simp [hty, OPERATOR, LEFT_BRACKET, OPERAND, RIGHT_BRACKET]
  have hsep : starts_with_separator rest := by
    rcases hnext with h | ⟨c, r, h, hc⟩
    · exact Or.inl h
    · refine Or.inr ⟨c, r, h, ?_⟩
      simp only [List.mem_cons, List.mem_singleton, List.not_mem_nil, or_false] at hc
      simp [is_operand, hc]
  have herr : Tokenizer.next extract t = .error (InvalidToken []) := by
    rw [next_minus extract t rest hminus, if_pos han, read_operand_empty_run extract hempty rest hsep]
  obtain ⟨tokens, hy⟩ := emitted_yields extract expr.data prev t hreach
  have hboth := yields_then_error extract hy _ herr (expr.data.length + 1) [] []
    (by simp [Tokenizer.init])
  refine ⟨herr, hboth.1, ?_, by decide!, by decide!, by decide!⟩
  obtain ⟨e1, he1⟩ := hboth.2
  have he2 : to_postfix_notation extract (Tokenizer.init expr.data) = some (.error e1) := he1
  exact ⟨e1, by simp [calculate, he2]⟩

/-- C15 at the input `2 * --1`, in the state after the tokens `2` and `Mul`: the first
`-` is in negation position and is followed by `-`. -/
theorem negation_needs_literal_witness :
    Tokenizer.next extract_double (Tokenizer.mk " --1".data true) =
      .error (Exn.invalid_argument "bad token ") ∧
    tokenize extract_double "2 * --1" = some (.error (Exn.invalid_argument "bad token ")) :=
  ⟨(negation_needs_literal extract_double (by decide) "2 * --1"
      (some (Token.of_kind OPERATOR MUL 3)) (Tokenizer.mk " --1".data true) "-1".data
      (Emitted.step (Emitted.step Emitted.start
        (show Tokenizer.next extract_double (Tokenizer.init "2 * --1".data) =
          .ok (some (Token.of_value 2, Tokenizer.mk " * --1".data false)) by decide!))
        (show Tokenizer.next extract_double (Tokenizer.mk " * --1".data false) =
          .ok (some (Token.of_kind OPERATOR MUL 3, Tokenizer.mk " --1".data true)) by decide!))
      (by decide) (Or.inr ⟨Token.of_kind OPERATOR MUL 3, rfl, Or.inl rfl⟩)
      (Or.inr ⟨'-', "1".data, rfl, by decide⟩)).1,
   (negation_needs_literal extract_double (by decide) "2 * --1"
      (some (Token.of_kind OPERATOR MUL 3)) (Tokenizer.mk " --1".data true) "-1".data
      (Emitted.step (Emitted.step Emitted.start
        (show Tokenizer.next extract_double (Tokenizer.init "2 * --1".data) =
          .ok (some (Token.of_value 2, Tokenizer.mk " * --1".data false)) by decide!))
        (show Tokenizer.next extract_double (Tokenizer.mk " * --1".data false) =
          .ok (some (Token.of_kind OPERATOR MUL 3, Tokenizer.mk " --1".data true)) by decide!))
      (by decide) (Or.inr ⟨Token.of_kind OPERATOR MUL 3, rfl, Or.inl rfl⟩)
      (Or.inr ⟨'-', "1".data, rfl, by decide⟩)).2.1⟩

/-! ## How `next` depends on the text after the cursor -/

theorem read_token_eq (extract : List Char → Option Double) (an : Bool) (c : Char)
    (rest : List Char) :
    Tokenizer.read_token extract an c rest =
      match single_token an c with
      | some token => .ok (token, rest)
      | none =>
        match read_operand extract (if c = '-' then rest else c :: rest) with
        | .error e => .error e
        | .ok (v, it) => .ok (Token.of_value (if c = '-' then -v else v), it) := by
  unfold Tokenizer.read_token single_token
  by_cases h1 : c = '+'
  · simp [h1]
  by_cases h2 : c = '-'
  · subst h2
    cases an <;> simp
  by_cases h3 : c = '*'
  · simp [h3]
  by_cases h4 : c = '/'
  · simp [h4]
  by_cases h5 : c = '('
  · simp [h5]
  by_cases h6 : c = ')'
  · simp [h6]
  simp [h1, h2, h3, h4, h5, h6]

theorem single_token_none (an : Bool) (c : Char) (h : single_token an c = none)
    (hc : c ≠ ' ') : (c = '-' ∧ an = true) ∨ (c ≠ '-' ∧ is_operand c = true) := by
  unfold single_token at h
  by_cases h1 : c = '+'
  · simp [h1] at h
  by_cases h2 : c = '-'
  · subst h2
    cases an
    · simp at h
    · exact Or.inl ⟨rfl, rfl⟩
  by_cases h3 : c = '*'
  · simp [h1, h2, h3] at h
  by_cases h4 : c = '/'
  · simp [h1, h2, h3, h4] at h
  by_cases h5 : c = '('
  · simp [h1, h2, h3, h4, h5] at h
  by_cases h6 : c = ')'
  · simp [h1, h2, h3, h4, h5, h6] at h
  exact Or.inr ⟨h2, is_operand_of_not_separator c h1 h2 h3 h4 h5 h6 hc⟩

theorem next_of_dropWhile (extract : List Char → Option Double) (t : Tokenizer) (c : Char)
    (rest : List Char) (h : t.cur.dropWhile (fun c => c == ' ') = c :: rest) :
    Tokenizer.next extract t =
      match Tokenizer.read_token extract t.allow_negation c rest with
      | .error e => .error e
      | .ok (token, cur) =>
        .ok (some (token, ⟨cur, decide (token.type ≠ OPERAND ∧ token.type ≠ RIGHT_BRACKET)⟩)) := by
  unfold Tokenizer.next
  rw [h]

theorem next_congr (extract : List Char → Option Double) (cur1 cur2 : List Char) (an : Bool)
    (h : cur1.dropWhile (fun c => c == ' ') = cur2.dropWhile (fun c => c == ' ')) :
    Tokenizer.next extract ⟨cur1, an⟩ = Tokenizer.next extract ⟨cur2, an⟩ := by
  unfold Tokenizer.next
  simp only [h]

theorem while_append_of_stop (q : Char → Bool) :
    ∀ (a X : List Char), (∃ x ∈ a, q x = false) →
      (a ++ X).takeWhile q = a.takeWhile q ∧ (a ++ X).dropWhile q = a.dropWhile q ++ X := by
  intro a
  induction a with
  | nil => intro X h; obtain ⟨x, hx, _⟩ := h; cases hx
  | cons c cs ih =>
    intro X h
    by_cases hc : q c = true
    · have hrest : ∃ x ∈ cs, q x = false := by
        obtain ⟨x, hx, hq⟩ := h
        rw [List.mem_cons] at hx
        rcases hx with hx | hx
        · subst hx; rw [hc] at hq; cases hq
        · exact ⟨x, hx, hq⟩
      have := ih X hrest
      simp [hc, this.1, this.2]
    · simp [hc]

theorem while_append_of_all (q : Char → Bool) :
    ∀ (a X : List Char), (∀ x ∈ a, q x = true) →
      (a ++ X).takeWhile q = a ++ X.takeWhile q ∧ (a ++ X).dropWhile q = X.dropWhile q := by
  intro a
  induction a with
  | nil => intro X _; simp
  | cons c cs ih =>
    intro X h
    have hc := h c (List.mem_cons_self _ _)
    have := ih X (fun x hx => h x (List.mem_cons_of_mem _ hx))
    simp [hc, this.1, this.2]

theorem read_operand_append_of_stop (extract : List Char → Option Double) (a X : List Char)
    (h : ∃ x ∈ a, is_operand x = false) :
    read_operand extract (a ++ X) =
      match extract ((a.takeWhile is_operand).map comma_to_dot) with
      | none => .error (InvalidToken (a.takeWhile is_operand))
      | some v => .ok (v, a.dropWhile is_operand ++ X) := by
  have hw := while_append_of_stop is_operand a X h
  unfold read_operand
  simp only [hw.1, hw.2]

theorem read_operand_append_of_all (extract : List Char → Option Double) (r X : List Char)
    (hr : ∀ x ∈ r, is_operand x = true) (hX : starts_with_separator X) :
    read_operand extract (r ++ X) =
      match extract (r.map comma_to_dot) with
      | none => .error (InvalidToken r)
      | some v => .ok (v, X) := by
  have hw := takeWhile_run r X hr hX
  unfold read_operand
  simp only [hw.1, hw.2]

theorem next_run_eq (extract : List Char → Option Double) (an : Bool) (a : List Char) (c : Char)
    (a2 : List Char) (hd : a.dropWhile (fun c => c == ' ') = c :: a2)
    (hs : single_token an c = none) (X : List Char) :
    Tokenizer.next extract ⟨a ++ X, an⟩ =
      match read_operand extract ((if c = '-' then a2 else c :: a2) ++ X) with
      | .error e => .error e
      | .ok (v, it) => .ok (some (Token.of_value (if c = '-' then -v else v), ⟨it, false⟩)) := by
  have hmem : ∃ x ∈ a, (fun c => c == ' ') x = false := by
    refine ⟨c, ?_, ?_⟩
    · have : c ∈ a.dropWhile (fun c => c == ' ') := by rw [hd]; exact List.mem_cons_self _ _
      exact (List.dropWhile_sublist _).subset this
    · have := head_dropWhile_spaces a c a2 hd
      simpa using this
  have hdX : (a ++ X).dropWhile (fun c => c == ' ') = c :: (a2 ++ X) := by
    rw [(while_append_of_stop _ a X hmem).2, hd]
    rfl
  rw [next_of_dropWhile extract ⟨a ++ X, an⟩ c (a2 ++ X) hdX, read_token_eq]
  simp only [hs]
  have hstart : (if c = '-' then a2 ++ X else c :: (a2 ++ X)) =
      (if c = '-' then a2 else c :: a2) ++ X := by
    split <;> rfl
  rw [hstart]
  cases read_operand extract ((if c = '-' then a2 else c :: a2) ++ X) with
  | error e => rfl
  | ok p =>
    obtain ⟨v, it⟩ := p
    simp [Token.of_value]

theorem next_on_prefix (extract : List Char → Option Double) (an : Bool) (a : List Char) :
    (∃ token a0 a1 an1, a = a0 ++ a1 ∧ a0 ≠ [] ∧
      ∀ X, Tokenizer.next extract ⟨a ++ X, an⟩ = .ok (some (token, ⟨a1 ++ X, an1⟩))) ∨
    (∃ text, ∀ X, Tokenizer.next extract ⟨a ++ X, an⟩ = .error (InvalidToken text)) ∨
    ((∀ x ∈ a, x = ' ') ∧
      ∀ X, Tokenizer.next extract ⟨a ++ X, an⟩ = Tokenizer.next extract ⟨X, an⟩) ∨
    (∃ (r : List Char) (neg : Bool), (∀ x ∈ r, is_operand x = true) ∧
      (∀ x, a.getLast? = some x → (r = [] ∧ x = '-') ∨ is_operand x = true) ∧ a ≠ [] ∧
      ∀ X, Tokenizer.next extract ⟨a ++ X, an⟩ =
        match read_operand extract (r ++ X) with
        | .error e => .error e
        | .ok (v, it) =>
          .ok (some (Token.of_value (if neg = true then -v else v), ⟨it, false⟩))) := by
  cases hd : a.dropWhile (fun c => c == ' ') with
  | nil =>
    right; right; left
    have hall : ∀ x ∈ a, (fun c => c == ' ') x = true := by
      rw [List.dropWhile_eq_nil_iff] at hd
      exact hd
    refine ⟨fun x hx => by simpa using hall x hx, ?_⟩
    intro X
    apply next_congr
    rw [(while_append_of_all _ a X hall).2]
  | cons c a2 =>
    have hc := head_dropWhile_spaces a c a2 hd
    have hsplit : a = a.takeWhile (fun c => c == ' ') ++ c :: a2 := by
      rw [← hd, List.takeWhile_append_dropWhile]
    have hmem : ∃ x ∈ a, (fun c => c == ' ') x = false := by
      refine ⟨c, ?_, by simpa using hc⟩
      rw [hsplit]
      simp
    cases hs : single_token an c with
    | some token =>
      left
      refine ⟨token, a.takeWhile (fun c => c == ' ') ++ [c], a2,
        decide (token.type ≠ OPERAND ∧ token.type ≠ RIGHT_BRACKET), ?_, by simp, ?_⟩
      · rw [List.append_assoc]; exact hsplit
      · intro X
        have hdX : (a ++ X).dropWhile (fun c => c == ' ') = c :: (a2 ++ X) := by
          rw [(while_append_of_stop _ a X hmem).2, hd]
          rfl
        rw [next_of_dropWhile extract ⟨a ++ X, an⟩ c (a2 ++ X) hdX, read_token_eq]
        simp only [hs]
    | none =>
      have hrun := next_run_eq extract an a c a2 hd hs
      have hkind := single_token_none an c hs hc
      by_cases hstop : ∃ x ∈ (if c = '-' then a2 else c :: a2), is_operand x = false
      · cases hx : extract (((if c = '-' then a2 else c :: a2).takeWhile is_operand).map
            comma_to_dot) with
        | none =>
          right; left
          refine ⟨(if c = '-' then a2 else c :: a2).takeWhile is_operand, ?_⟩
          intro X
          rw [hrun X, read_operand_append_of_stop extract _ X hstop, hx]
        | some v =>
          left
          refine ⟨Token.of_value (if c = '-' then -v else v),
            a.takeWhile (fun c => c == ' ') ++
              ((if c = '-' then [c] else []) ++
                (if c = '-' then a2 else c :: a2).takeWhile is_operand),
            (if c = '-' then a2 else c :: a2).dropWhile is_operand, false, ?_, ?_, ?_⟩
          · conv_lhs => rw [hsplit]
            rw [List.append_assoc, List.append_assoc, List.takeWhile_append_dropWhile]
            split <;> rfl
          · intro hnil
            have h2 := List.append_eq_nil.1 hnil
            have h3 := List.append_eq_nil.1 h2.2
            rcases hkind with ⟨hm, _⟩ | ⟨hm, hop⟩
            · rw [if_pos hm] at h3
              exact absurd h3.1 (by simp)
            · have h4 := h3.2
              rw [if_neg hm, List.takeWhile_cons_of_pos hop] at h4
              exact absurd h4 (by simp)
          · intro X
            rw [hrun X, read_operand_append_of_stop extract _ X hstop, hx]
      · right; right; right
        have hall : ∀ x ∈ (if c = '-' then a2 else c :: a2), is_operand x = true := by
          intro x hx
          by_contra hcon
          exact hstop ⟨x, hx, by simpa using hcon⟩
        refine ⟨if c = '-' then a2 else c :: a2, decide (c = '-'), hall, ?_, ?_, ?_⟩
        · intro x hx
          rw [hsplit, List.getLast?_append_of_ne_nil _ (by simp)] at hx
          rcases hkind with ⟨hm, _⟩ | ⟨hm, hop⟩
          · rw [if_pos hm] at hall
            cases a2 with
            | nil =>
              simp only [List.getLast?_singleton, Option.some.injEq] at hx
              left
              exact ⟨by rw [if_pos hm], by rw [← hx]; exact hm⟩
            | cons y ys =>
              right
              rw [List.getLast?_cons_cons] at hx
              exact hall x (List.mem_of_getLast?_eq_some hx)
          · rw [if_neg hm] at hall
            right
            exact hall x (List.mem_of_getLast?_eq_some hx)
        · intro hnil
          rw [hnil] at hd
          cases hd
        · intro X
          rw [hrun X]
          cases read_operand extract ((if c = '-' then a2 else c :: a2) ++ X) with
          | error e => rfl
          | ok p =>
            obtain ⟨v, it⟩ := p
            by_cases hm : c = '-' <;> simp [hm]

/-! ## C18: spaces around `+ * / ( )` -/

theorem not_operand_of_mem_ops (c : Char) (h : c ∈ ['+', '*', '/', '(', ')']) :
    is_operand c = false ∧ c ≠ '-' := by
  simp only [List.mem_cons, List.mem_singleton, List.not_mem_nil, or_false] at h
  rcases h with h | h | h | h | h <;> subst h <;> exact ⟨by decide, by decide⟩

theorem getLast?_suffix (a0 a1 : List Char) (h : a1 ≠ []) :
    (a0 ++ a1).getLast? = a1.getLast? :=
  List.getLast?_append_of_ne_nil a0 h

theorem insertion_loop (extract : List Char → Option Double) (b : List Char) :
    ∀ (n m : Nat) (a : List Char) (an : Bool),
      (starts_with_separator b ∨ ∀ x, a.getLast? = some x → x ∈ ['+', '*', '/', '(', ')']) →
      (a ++ b).length < n → (a ++ ' ' :: b).length < m →
      tokenize_loop extract n ⟨a ++ b, an⟩ = tokenize_loop extract m ⟨a ++ ' ' :: b, an⟩ := by
  intro n
  induction n with
  | zero => intro m a an _ h; omega
  | succ n ih =>
    intro m a an hP hn hm
    cases m with
    | zero => omega
    | succ m =>
      simp only [List.length_append, List.length_cons] at hn hm
      unfold tokenize_loop
      rcases next_on_prefix extract an a with
        ⟨token, a0, a1, an1, ha, ha0, hnext⟩ | ⟨text, hnext⟩ | ⟨hall, hnext⟩ |
        ⟨r, neg, hr, hlast, hne, hnext⟩
      · rw [hnext b, hnext (' ' :: b)]
        simp only
        have hlen : a1.length < a.length := by
          rw [ha, List.length_append]
          have := List.length_pos.2 ha0
          omega
        have hP1 : starts_with_separator b ∨
            ∀ x, a1.getLast? = some x → x ∈ ['+', '*', '/', '(', ')'] := by
          rcases hP with h | h
          · exact Or.inl h
          · right
            intro x hx
            apply h x
            rw [ha]
            cases a1 with
            | nil => cases hx
            | cons y ys => rw [getLast?_suffix a0 (y :: ys) (by simp)]; exact hx
        rw [ih m a1 an1 hP1 (by simp only [List.length_append]; omega)
          (by simp only [List.length_append, List.length_cons]; omega)]
      · rw [hnext b, hnext (' ' :: b)]
      · rw [hnext b, hnext (' ' :: b)]
        have hsame : Tokenizer.next extract ⟨' ' :: b, an⟩ = Tokenizer.next extract ⟨b, an⟩ := by
          apply next_congr
          simp
        rw [hsame]
        cases hb : Tokenizer.next extract ⟨b, an⟩ with
        | error e => rfl
        | ok q =>
          cases q with
          | none => rfl
          | some p =>
            obtain ⟨token, t1⟩ := p
            have hadv := (next_advances extract ⟨b, an⟩ t1 token hb).1
            simp only at hadv
            simp only
            rw [tokenize_loop_fuel_indep extract n m t1 (by omega) (by omega)]
      · have hsep : starts_with_separator b := by
          rcases hP with h | h
          · exact h
          · exfalso
            cases hl : a.getLast? with
            | none =>
              rw [List.getLast?_eq_none_iff] at hl
              exact hne hl
            | some x =>
              have h1 := not_operand_of_mem_ops x (h x hl)
              rcases hlast x hl with h2 | h2
              · exact h1.2 h2.2
              · rw [h1.1] at h2; cases h2
        have hsep1 : starts_with_separator (' ' :: b) := Or.inr ⟨' ', b, rfl, by decide⟩
        have hapos := List.length_pos.2 hne
        rw [hnext b, hnext (' ' :: b), read_operand_append_of_all extract r b hr hsep,
          read_operand_append_of_all extract r (' ' :: b) hr hsep1]
        cases extract (r.map comma_to_dot) with
        | none => rfl
        | some v =>
          simp only
          have hrec := ih m [] false (Or.inl hsep) (by simp only [List.nil_append]; omega)
            (by simp only [List.nil_append, List.length_cons]; omega)
          simp only [List.nil_append] at hrec
          rw [hrec]

theorem space_inserted_tokenize (extract : List Char → Option Double) (s s1 : List Char)
    (h : space_inserted s s1) :
    tokenize extract (String.mk s) = tokenize extract (String.mk s1) := by
  unfold tokenize Tokenizer.init
  cases h with
  | at_beginning =>
    have := insertion_loop extract s (s.length + 1) ((' ' :: s).length + 1) [] true
      (Or.inr (by intro x hx; cases hx)) (by simp) (by simp)
    simpa using this
  | at_end =>
    have := insertion_loop extract [] (s.length + 1) ((s ++ [' ']).length + 1) s true
      (Or.inl (Or.inl rfl)) (by simp) (by simp)
    simpa using this
  | before a b c hc =>
    have := insertion_loop extract (c :: b) ((a ++ c :: b).length + 1)
      ((a ++ ' ' :: c :: b).length + 1) a true
      (Or.inl (Or.inr ⟨c, b, rfl, (not_operand_of_mem_ops c hc).1⟩)) (by simp) (by simp)
    exact this
  | after a b c hc =>
    have := insertion_loop extract b ((a ++ c :: b).length + 1)
      ((a ++ c :: ' ' :: b).length + 1) (a ++ [c]) true
      (Or.inr (by
        intro x hx
        rw [List.getLast?_append_of_ne_nil _ (by simp)] at hx
        simp only [List.getLast?_singleton, Option.some.injEq] at hx
        rw [← hx]; exact hc))
      (by simp) (by simp)
    simpa using this

/-- C18: for every input string, inserting any number of spaces at the beginning, at the
end, or immediately before or after an occurrence of one of the characters `+ * / ( )`
does not change the outcome of tokenization: the same token sequence is produced, or the
same `InvalidToken` error with the same text; `   1   +  2*3  ` tokenizes to
`[1, Add, 2, Mul, 3]`, the same as `1+2*3`. -/
theorem spaces_do_not_matter (extract : List Char → Option Double) (s s1 : List Char)
    (h : spaces_inserted s s1) :
    tokenize extract (String.mk s) = tokenize extract (String.mk s1) ∧
    tokenize extract_double "   1   +  2*3  " =
      some (.ok [Token.of_value 1, Token.of_kind OPERATOR ADD 2, Token.of_value 2,
        Token.of_kind OPERATOR MUL 3, Token.of_value 3]) ∧
    tokenize extract_double "1+2*3" =
      some (.ok [Token.of_value 1, Token.of_kind OPERATOR ADD 2, Token.of_value 2,
        Token.of_kind OPERATOR MUL 3, Token.of_value 3]) := by
  refine ⟨?_, by decide!, by decide!⟩
  induction h with
  | none => rfl
  | more _ hstep ih => rw [ih]; exact space_inserted_tokenize extract _ _ hstep

/-- C18 at the input `1+a*3` with a space inserted before `+` and another after `*`. -/
theorem spaces_do_not_matter_witness :
    tokenize extract_double (String.mk "1+a*3".data) =
      tokenize extract_double (String.mk "1 +a* 3".data) :=
  (spaces_do_not_matter extract_double "1+a*3".data "1 +a* 3".data
    (spaces_inserted.more
      (spaces_inserted.more (spaces_inserted.none _)
        (space_inserted.before ['1'] "a*3".data '+' (by decide)))
      (space_inserted.after "1 +a".data ['3'] '*' (by decide)))).1

/-! ## C14: a run that is not a number -/

theorem single_token_operand (an : Bool) (c : Char) (h : is_operand c = true) :
    single_token an c = none := by
  have hc := is_operand_ne c h
  simp [single_token, hc]

theorem next_bad_run (extract : List Char → Option Double) (run rest : List Char) (an : Bool)
    (hne : run ≠ []) (hrun : ∀ c ∈ run, is_operand c = true)
    (hrest : starts_with_separator rest) (hbad : extract (run.map comma_to_dot) = none) :
    Tokenizer.next extract ⟨run ++ rest, an⟩ = .error (InvalidToken run) := by
  cases run with
  | nil => exact absurd rfl hne
  | cons c cs =>
    have hop := hrun c (List.mem_cons_self _ _)
    have hc := is_operand_ne c hop
    have hd : (c :: cs).dropWhile (fun c => c == ' ') = c :: cs := by
      simp [hc.1]
    rw [next_run_eq extract an (c :: cs) c cs hd (single_token_operand an c hop) rest,
      if_neg hc.2.2.1, read_operand_append_of_all extract (c :: cs) rest hrun hrest, hbad]

theorem to_postfix_step_error (token : Token) (out st : List Token) (e : Exn)
    (h : to_postfix_step token out st = .error e) : e = MismatchedParentheses := by
  unfold to_postfix_step at h
  split at h
  · cases h
  split at h
  · cases h
  split at h
  · cases h
  split at h
  · split at h
    · injection h with h; exact h.symm
    · cases h
  · cases h

theorem to_postfix_flush_error :
    ∀ (st out : List Token) (e : Exn), to_postfix_flush out st = .error e →
      e = MismatchedParentheses := by
  intro st
  induction st with
  | nil => intro out e h; cases h
  | cons op st ih =>
    intro out e h
    unfold to_postfix_flush at h
    split at h
    · injection h with h; exact h.symm
    · exact ih _ e h

theorem to_postfix_loop_error (extract : List Char → Option Double) :
    ∀ (fuel : Nat) (t : Tokenizer) (out st : List Token) (e : Exn),
      to_postfix_loop extract fuel t out st = some (.error e) →
      (∃ text, e = InvalidToken text) ∨ e = MismatchedParentheses := by
  intro fuel
  induction fuel with
  | zero => intro t out st e h; cases h
  | succ n ih =>
    intro t out st e h
    unfold to_postfix_loop at h
    cases hn : Tokenizer.next extract t with
    | error e1 =>
      rw [hn] at h
      injection h with h
      injection h with h
      subst h
      exact Or.inl (next_error extract t e1 hn)
    | ok r =>
      cases r with
      | none =>
        rw [hn] at h
        injection h with h
        exact Or.inr (to_postfix_flush_error st out e h)
      | some p =>
        obtain ⟨token, t1⟩ := p
        rw [hn] at h
        simp only at h
        cases hs : to_postfix_step token out st with
        | error e1 =>
          rw [hs] at h
          injection h with h
          injection h with h
          subst h
          exact Or.inr (to_postfix_step_error token out st e1 hs)
        | ok q =>
          rw [hs] at h
          exact ih t1 q.1 q.2 e h

theorem bad_run_loop (extract : List Char → Option Double) (run rest : List Char)
    (hne : run ≠ []) (hrun : ∀ c ∈ run, is_operand c = true)
    (hrest : starts_with_separator rest) (hbad : extract (run.map comma_to_dot) = none) :
    ∀ (fuel : Nat) (p : List Char) (an : Bool) (out st : List Token),
      (∀ x, p.getLast? = some x → is_operand x = false) →
      (p ++ (run ++ rest)).length < fuel → stack_ok st → output_ok out →
      (∃ text, to_postfix_loop extract fuel ⟨p ++ (run ++ rest), an⟩ out st =
        some (.error (InvalidToken text))) ∨
      (to_postfix_loop extract fuel ⟨p ++ (run ++ rest), an⟩ out st =
        some (.error MismatchedParentheses) ∧ bracket_depth p (open_brackets st) = none) := by
  have hY : starts_with_separator rest := hrest
  intro fuel
  induction fuel with
  | zero => intro p an out st _ h; omega
  | succ n ih =>
    intro p an out st hp hfuel hst hout
    unfold to_postfix_loop
    rcases next_on_prefix extract an p with
      ⟨token, a0, a1, an1, ha, ha0, hnext⟩ | ⟨text, hnext⟩ | ⟨hall, hnext⟩ |
      ⟨r, neg, hr, hlast, hpne, hnext⟩
    · have hn := hnext (run ++ rest)
      have hadv := next_advances extract _ _ token hn
      have hdepth := next_depth extract _ _ token (open_brackets st) (hnext [])
      simp only [List.append_nil] at hdepth
      rw [hn]
      simp only
      have hstep := to_postfix_step_depth token out st hadv.2 hst
      cases htd : token_depth token (open_brackets st) with
      | none =>
        rw [htd] at hstep hdepth
        simp only at hstep hdepth
        right
        rw [hstep]
        exact ⟨rfl, hdepth⟩
      | some d =>
        rw [htd] at hstep hdepth
        simp only at hstep hdepth
        obtain ⟨out1, st1, hs, hopen⟩ := hstep
        have hinv := to_postfix_step_inv token out st out1 st1 hadv.2 hst hout hs
        rw [hs]
        simp only
        have hp1 : ∀ x, a1.getLast? = some x → is_operand x = false := by
          intro x hx
          apply hp x
          rw [ha]
          cases a1 with
          | nil => cases hx
          | cons y ys => rw [getLast?_suffix a0 (y :: ys) (by simp)]; exact hx
        have hlen : (a1 ++ (run ++ rest)).length < n := by
          have h1 := hadv.1
          simp only at h1
          omega
        rcases ih a1 an1 out1 st1 hp1 hlen hinv.2 hinv.1 with h | ⟨h1, h2⟩
        · exact Or.inl h
        · right
          refine ⟨h1, ?_⟩
          rw [hdepth, ← hopen]
          exact h2
    · left
      rw [hnext (run ++ rest)]
      exact ⟨text, rfl⟩
    · left
      rw [hnext (run ++ rest), next_bad_run extract run rest an hne hrun hY hbad]
      exact ⟨run, rfl⟩
    · left
      have hr0 : r = [] := by
        cases hl : p.getLast? with
        | none =>
          rw [List.getLast?_eq_none_iff] at hl
          exact absurd hl hpne
        | some x =>
          rcases hlast x hl with h | h
          · exact h.1
          · rw [hp x hl] at h; cases h
      subst hr0
      rw [hnext (run ++ rest), List.nil_append,
        read_operand_append_of_all extract run rest hrun hY, hbad]
      exact ⟨run, rfl⟩

theorem invalid_token_ne (text : List Char) :
    InvalidToken text ≠ BadExpression ∧ InvalidToken text ≠ DivisionByZero ∧
      InvalidToken text ≠ MismatchedParentheses := by
  refine ⟨?_, ?_, ?_⟩ <;> intro h <;>
    · have h1 := congrArg String.data (Exn.invalid_argument.inj h)
      simp [String.data_append] at h1

theorem is_operand_of_not_mem (c : Char) (h : c ∉ [' ', '+', '-', '*', '/', '(', ')']) :
    is_operand c = true := by
  simp only [List.mem_cons, List.mem_singleton, List.not_mem_nil, or_false, not_or] at h
  exact is_operand_of_not_separator c h.2.1 h.2.2.1 h.2.2.2.1 h.2.2.2.2.1 h.2.2.2.2.2.1
    h.2.2.2.2.2.2 h.1

theorem not_operand_of_mem (c : Char) (h : c ∈ [' ', '+', '-', '*', '/', '(', ')']) :
    is_operand c = false := by
  simp only [List.mem_cons, List.mem_singleton, List.not_mem_nil, or_false] at h
  rcases h with h | h | h | h | h | h | h <;> subst h <;> decide

theorem evaluator_error_after_conversion (extract : List Char → Option Double) (input : String)
    (e : Exn) (h : calculate extract input = some (.error e))
    (he : e = BadExpression ∨ e = DivisionByZero) :
    ∃ out tokens, to_postfix_notation extract (Tokenizer.init input.data) = some (.ok out) ∧
      tokenize extract input = some (.ok tokens) := by
  unfold calculate at h
  cases hconv : to_postfix_notation extract (Tokenizer.init input.data) with
  | none => rw [hconv] at h; cases h
  | some r =>
    cases r with
    | error e1 =>
      rw [hconv] at h
      injection h with h
      injection h with h
      subst h
      exfalso
      rcases to_postfix_loop_error extract _ _ [] [] e1 hconv with ⟨text, h1⟩ | h1
      · have := invalid_token_ne text
        rcases he with he | he
        · exact this.1 (h1 ▸ he)
        · exact this.2.1 (h1 ▸ he)
      · subst h1
        rcases he with he | he
        · exact absurd he (by decide)
        · exact absurd he (by decide)
    | ok out =>
      obtain ⟨tokens, t1, hy, hend, _⟩ := loop_ok_yields extract _ _ [] [] out hconv
      exact ⟨out, tokens, rfl, yields_tokenize extract hy hend _ (by simp [Tokenizer.init])⟩

/-- C14: for every input that contains a maximal run of non-separator characters
(characters other than space `+ - * / ( )`) which does not parse as a complete number,
`calculate` never returns a value and never fails with `BadExpression` or
`DivisionByZero`: it fails with `InvalidToken`, or with `MismatchedParentheses` when an
unmatched `)` occurs before the run.  For every input, the evaluator's errors are
reported only when the whole input tokenizes and converts without error; `1 / 0 + abc`
reports `InvalidToken` with the text `abc`, not `DivisionByZero`. -/
theorem bad_run_fails (extract : List Char → Option Double) (expr : String)
    (pre run rest : List Char) (hsplit : expr.data = pre ++ run ++ rest) (hne : run ≠ [])
    (hrun : ∀ c ∈ run, c ∉ [' ', '+', '-', '*', '/', '(', ')'])
    (hleft : pre = [] ∨ ∃ p0 s, pre = p0 ++ [s] ∧ s ∈ [' ', '+', '-', '*', '/', '(', ')'])
    (hright : rest = [] ∨ ∃ c r, rest = c :: r ∧ c ∈ [' ', '+', '-', '*', '/', '(', ')'])
    (hbad : extract (run.map (fun c => if c = ',' then '.' else c)) = none) :
    ((∃ text, calculate extract expr =
        some (.error (Exn.invalid_argument ("bad token " ++ String.mk text)))) ∨
      (calculate extract expr = some (.error (Exn.invalid_argument "mismatched parentheses")) ∧
        bracket_depth pre 0 = none)) ∧
    (∀ v, calculate extract expr ≠ some (.ok v)) ∧
    calculate extract expr ≠ some (.error BadExpression) ∧
    calculate extract expr ≠ some (.error DivisionByZero) ∧
    (∀ (input : String) (e : Exn), calculate extract input = some (.error e) →
      e = BadExpression ∨ e = DivisionByZero →
      ∃ out tokens, to_postfix_notation extract (Tokenizer.init input.data) = some (.ok out) ∧
        tokenize extract input = some (.ok tokens)) ∧
    calculate extract_double "1 / 0 + abc" =
      some (.error (Exn.invalid_argument "bad token abc")) := by
  have hrun1 : ∀ c ∈ run, is_operand c = true := fun c hc => is_operand_of_not_mem c (hrun c hc)
  have hrest : starts_with_separator rest := by
    rcases hright with h | ⟨c, r, h, hc⟩
    · exact Or.inl h
    · exact Or.inr ⟨c, r, h, not_operand_of_mem c hc⟩
  have hpre : ∀ x, pre.getLast? = some x → is_operand x = false := by
    intro x hx
    rcases hleft with h | ⟨p0, s, h, hs⟩
    · rw [h] at hx; cases hx
    · rw [h, List.getLast?_append_of_ne_nil _ (by simp)] at hx
      simp only [List.getLast?_singleton, Option.some.injEq] at hx
      rw [← hx]
      exact not_operand_of_mem s hs
  have hbad1 : extract (run.map comma_to_dot) = none := hbad
  have hdata : expr.data = pre ++ (run ++ rest) := by rw [hsplit, List.append_assoc]
  have key := bad_run_loop extract run rest hne hrun1 hrest hbad1 (expr.data.length + 1) pre
    true [] [] hpre (by rw [hdata]; omega) (by intro p hp; cases hp) (by intro p hp; cases hp)
  rw [← hdata] at key
  have hcalc : ∀ e, to_postfix_loop extract (expr.data.length + 1) ⟨expr.data, true⟩ [] [] =
      some (.error e) → calculate extract expr = some (.error e) := by
    intro e he
    have he1 : to_postfix_notation extract (Tokenizer.init expr.data) = some (.error e) := he
    simp [calculate, he1]
  have first : (∃ text, calculate extract expr = some (.error (InvalidToken text))) ∨
      (calculate extract expr = some (.error MismatchedParentheses) ∧
        bracket_depth pre 0 = none) := by
    rcases key with ⟨text, h⟩ | ⟨h1, h2⟩
    · exact Or.inl ⟨text, hcalc _ h⟩
    · exact Or.inr ⟨hcalc _ h1, h2⟩
  refine ⟨first, ?_, ?_, ?_, evaluator_error_after_conversion extract, by decide!⟩
  · intro v hv
    rcases first with ⟨text, h⟩ | ⟨h, _⟩ <;> rw [h] at hv <;> cases hv
  · intro hv
    rcases first with ⟨text, h⟩ | ⟨h, _⟩
    · rw [h] at hv
      injection hv with hv
      injection hv with hv
      exact (invalid_token_ne text).1 hv
    · rw [h] at hv
      exact absurd hv (by decide)
  · intro hv
    rcases first with ⟨text, h⟩ | ⟨h, _⟩
    · rw [h] at hv
      injection hv with hv
      injection hv with hv
      exact (invalid_token_ne text).2.1 hv
    · rw [h] at hv
      exact absurd hv (by decide)

/-- C14 at the input `1 / 0 + abc` with the run `abc`, which is not a number. -/
theorem bad_run_fails_witness :
    (∃ text, calculate extract_double "1 / 0 + abc" =
        some (.error (Exn.invalid_argument ("bad token " ++ String.mk text)))) ∨
      (calculate extract_double "1 / 0 + abc" =
          some (.error (Exn.invalid_argument "mismatched parentheses")) ∧
        bracket_depth "1 / 0 + ".data 0 = none) :=
  (bad_run_fails extract_double "1 / 0 + abc" "1 / 0 + ".data "abc".data [] (by decide)
    (by decide) (by decide) (Or.inr ⟨"1 / 0 +".data, ' ', by decide, by decide⟩) (Or.inl rfl)
    (by decide)).1

end Calculator
